import Mathlib

/-!
Verification development for the docx fixing engine of this repository
(`fix.py` and `api/fix.py`).

The engine reads a zip container, patches three XML parts
(`word/document.xml`, `word/settings.xml`, `word/styles.xml`) and copies
every other entry through unchanged.  The XML layer (lxml etree) is
modelled by a tree of elements; text runs are modelled as child nodes
(lxml keeps them in `text`/`tail` attributes; none of the fixers reads or
writes text, and element navigation skips text nodes in both views, so the
two presentations agree on everything the fixers do).  Serialized part
bytes are modelled symbolically: a byte string is either an opaque blob
(`raw`) or a serialized XML document (`doc`), and reparsing a serialized
tree recovers that tree, which is the round-trip behaviour of the lxml
serializer on its own output.  Machine strings are Lean strings; the
`isdigit` test is read over the ASCII digits.  Zip archives are modelled
as ordered lists of (name, bytes) entries; `ZipFile.read(name)` resolves a
name to the last entry bearing it, which is what `zipfile` does, and entry
metadata (dates, compression) is outside the model.  Exceptions are
modelled with `Except`: a raised exception aborts `fix_docx` as a whole,
so each patching function is split into a total result function plus,
where the source can raise mid-walk, a raise predicate.
-/

set_option maxHeartbeats 1000000

mutual

/-- XML element tree: an element has a (Clark notation) tag, an ordered
attribute list and an ordered child list; a text node carries a string. -/
inductive Xml where
  | elem (tg : String) (attrs : List (String × String)) (children : XmlList)
  | text (s : String)
deriving DecidableEq, Repr

inductive XmlList where
  | nil
  | cons (hd : Xml) (tl : XmlList)
deriving DecidableEq, Repr

end

/-- Tag of an element node, if the node is an element with that tag. -/
def Xml.hasTag (x : Xml) (t : String) : Bool :=
  match x with
  | .elem tg _ _ => tg == t
  | .text _ => false

/-- Attribute list of a node (empty for text nodes). -/
def Xml.attrsOf : Xml → List (String × String)
  | .elem _ a _ => a
  | .text _ => []

/-- Child list of a node (empty for text nodes). -/
def Xml.childrenOf : Xml → XmlList
  | .elem _ _ c => c
  | .text _ => .nil

def XmlList.append : XmlList → XmlList → XmlList
  | .nil, ys => ys
  | .cons x xs, ys => .cons x (xs.append ys)

def XmlList.length : XmlList → Nat
  | .nil => 0
  | .cons _ xs => 1 + xs.length

/-- Does the list hold an element child with the given tag
(`el.find(tag) is not None` over direct children). -/
def XmlList.anyTag (t : String) : XmlList → Bool
  | .nil => false
  | .cons x xs => x.hasTag t || xs.anyTag t

/-- First element child with the given tag (`el.find(tag)` over direct
children; text nodes are skipped, as lxml holds no text children). -/
def XmlList.findTag (t : String) : XmlList → Option Xml
  | .nil => none
  | .cons x xs => if x.hasTag t then some x else xs.findTag t

/-- Number of element children with the given tag. -/
def XmlList.countTag (t : String) : XmlList → Nat
  | .nil => 0
  | .cons x xs => (if x.hasTag t then 1 else 0) + xs.countTag t

/-- Remove the first element child with the given tag, if present
(`parent.remove(parent.find(tag))`). -/
def XmlList.removeFirstTag (t : String) : XmlList → XmlList
  | .nil => .nil
  | .cons x xs => if x.hasTag t then xs else .cons x (xs.removeFirstTag t)

/-- Rewrite the first element child with the given tag in place. -/
def XmlList.replaceFirstTag (t : String) (f : Xml → Xml) : XmlList → XmlList
  | .nil => .nil
  | .cons x xs => if x.hasTag t then .cons (f x) xs else .cons x (xs.replaceFirstTag t f)

-- ── XML namespaces (the `NS` / `W` / `WP` constants of fix.py) ─────────────

def nsW : String := "http://schemas.openxmlformats.org/wordprocessingml/2006/main"

def nsWP : String := "http://schemas.openxmlformats.org/drawingml/2006/wordprocessingDrawing"

def nsA : String := "http://schemas.openxmlformats.org/drawingml/2006/main"

/-- Clark notation tag constructor, the source's `tag(ns, local)`. -/
def tag (ns l : String) : String := "\x7b" ++ ns ++ "\x7d" ++ l

def pTag : String := tag nsW "p"

def pPrTag : String := tag nsW "pPr"

def spacingTag : String := tag nsW "spacing"

def indTag : String := tag nsW "ind"

def rPrTag : String := tag nsW "rPr"

def rFontsTag : String := tag nsW "rFonts"

def bodyTag : String := tag nsW "body"

def drawingTag : String := tag nsW "drawing"

def anchorTag : String := tag nsWP "anchor"

def extentTag : String := tag nsWP "extent"

def docPrTag : String := tag nsWP "docPr"

def inlineTag : String := tag nsWP "inline"

def effectExtentTag : String := tag nsWP "effectExtent"

def graphicTag : String := tag nsA "graphic"

def tblTag : String := tag nsW "tbl"

def tblPrTag : String := tag nsW "tblPr"

def tblCellMarTag : String := tag nsW "tblCellMar"

def compatTag : String := tag nsW "compat"

-- ── Attribute access (lxml `el.get` / `el.set` semantics) ──────────────────

/-- `el.get(k)`: value of the first attribute named `k`. -/
def getAttr (a : List (String × String)) (k : String) : Option String :=
  (a.find? (fun p => p.1 == k)).map (fun p => p.2)

/-- `el.set(k, v)`: replace the value in place if the attribute exists,
else append the attribute at the end, as lxml does. -/
def setAttr (a : List (String × String)) (k v : String) : List (String × String) :=
  if a.any (fun p => p.1 == k) then a.map (fun p => if p.1 == k then (k, v) else p)
  else a ++ [(k, v)]

-- ── Numeric strings, after the source's guard pattern ──────────────────────
-- The source guards every integer read with
--   `val and val.lstrip('-').isdigit()`
-- and then calls `int(val)`.  `lstrip('-')` strips every leading dash, so
-- the guard also passes for strings such as `--5` on which `int` raises
-- `ValueError`; the raise predicates below record exactly those inputs.

/-- `val.lstrip('-')`. -/
def lstripDashes (s : String) : String :=
  String.mk (s.toList.dropWhile (fun c => c == '-'))

/-- `str.isdigit`, read over the ASCII digits. -/
def pyIsdigit (s : String) : Bool :=
  !s.toList.isEmpty && s.toList.all Char.isDigit

/-- Number of leading dashes of the string. -/
def dashCount (s : String) : Nat :=
  (s.toList.takeWhile (fun c => c == '-')).length

/-- The guard `val and val.lstrip('-').isdigit()` (with `val` a present
attribute value; an absent attribute fails the guard at the call sites). -/
def numGuard (v : String) : Bool :=
  !(v == "") && pyIsdigit (lstripDashes v)

/-- Guard passes and `int(val)` succeeds: at most one leading dash. -/
def numOk (v : String) : Bool :=
  numGuard v && !(decide (2 ≤ dashCount v))

/-- Guard passes but `int(val)` raises `ValueError`: two or more leading
dashes in front of the digits. -/
def numRaise (v : String) : Bool :=
  numGuard v && decide (2 ≤ dashCount v)

def digitsVal (l : List Char) : Nat :=
  l.foldl (fun a c => a * 10 + (c.toNat - 48)) 0

/-- `int(val)` for a guarded, non-raising value. -/
def pyInt (v : String) : Int :=
  if dashCount v == 1 then -(digitsVal (lstripDashes v).toList : Int)
  else (digitsVal (lstripDashes v).toList : Int)

-- ── Fix options ────────────────────────────────────────────────────────────

/-- The option dictionary of `fix_docx`; `options.get(k)` is read for
truthiness, so each recognized key is a boolean here. -/
structure FixOptions where
  fix_spacing : Bool
  fix_margins : Bool
  fix_fonts : Bool
  fix_images : Bool
  fix_tables : Bool
deriving DecidableEq, Repr

-- ── Spacing fixer (`_fix_paragraph_spacing`) ───────────────────────────────

/-- The inner `_clamp(attr, max_val)`: clamp a guarded integer attribute to
`maxV` when it exceeds it. -/
def clampAttr (a : List (String × String)) (k : String) (maxV : Nat) :
    List (String × String) :=
  match getAttr a (tag nsW k) with
  | none => a
  | some v =>
    if numOk v && decide ((maxV : Int) < pyInt v) then setAttr a (tag nsW k) (toString maxV)
    else a

/-- Does `_clamp` raise `ValueError` on this attribute. -/
def clampRaise (a : List (String × String)) (k : String) : Bool :=
  match getAttr a (tag nsW k) with
  | none => false
  | some v => numRaise v

/-- Attribute rewriting of `_fix_paragraph_spacing` on the `w:spacing`
element: clamp `before` and `after` to 160, then apply the line rules. -/
def spacingAttrFix (a : List (String × String)) : List (String × String) :=
  let a2 := clampAttr (clampAttr a "before" 160) "after" 160
  match getAttr a2 (tag nsW "line") with
  | none => a2
  | some lv =>
    let rule := getAttr a2 (tag nsW "lineRule")
    if numOk lv then
      if (rule == some "exact" || rule == some "atLeast") && decide ((480 : Int) < pyInt lv) then
        setAttr (setAttr a2 (tag nsW "line") "276") (tag nsW "lineRule") "auto"
      else if rule == some "auto" && decide ((720 : Int) < pyInt lv) then
        setAttr a2 (tag nsW "line") "480"
      else a2
    else a2

/-- Does `_fix_paragraph_spacing` raise on the `w:spacing` element; the
`int(line)` site is only reached when `lineRule` is one of the three
recognized values, since `and` is lazy. -/
def spacingAttrRaise (a : List (String × String)) : Bool :=
  clampRaise a "before" || clampRaise a "after" ||
  (match getAttr a (tag nsW "line") with
   | none => false
   | some lv =>
     let rule := getAttr a (tag nsW "lineRule")
     numRaise lv && (rule == some "exact" || rule == some "atLeast" || rule == some "auto"))

def fixSpacingEl : Xml → Xml
  | .elem t a c => .elem t (spacingAttrFix a) c
  | .text s => .text s

/-- `_fix_paragraph_spacing(pPr)`: rewrite the first direct `w:spacing`
child, creating an (empty, appended) one when absent, as `SubElement`
does. -/
def fix_paragraph_spacing (pp : Xml) : Xml :=
  match pp with
  | .text s => .text s
  | .elem t a c =>
    if c.anyTag spacingTag then .elem t a (c.replaceFirstTag spacingTag fixSpacingEl)
    else .elem t a (c.append (.cons (.elem spacingTag [] .nil) .nil))

def fix_paragraph_spacing_raise (pp : Xml) : Bool :=
  match (pp.childrenOf).findTag spacingTag with
  | some sp => spacingAttrRaise sp.attrsOf
  | none => false

-- ── Indentation fixer (`_fix_indentation`) ─────────────────────────────────

/-- Zero a guarded integer attribute whose absolute value exceeds 2880. -/
def clampAbsAttr (a : List (String × String)) (k : String) : List (String × String) :=
  match getAttr a (tag nsW k) with
  | none => a
  | some v =>
    if numOk v && decide (2880 < (pyInt v).natAbs) then setAttr a (tag nsW k) "0" else a

def indAttrFix (a : List (String × String)) : List (String × String) :=
  clampAbsAttr (clampAbsAttr (clampAbsAttr a "left") "right") "hanging"

def indAttrRaise (a : List (String × String)) : Bool :=
  clampRaise a "left" || clampRaise a "right" || clampRaise a "hanging"

def fixIndEl : Xml → Xml
  | .elem t a c => .elem t (indAttrFix a) c
  | .text s => .text s

/-- `_fix_indentation(pPr)`: rewrite the first direct `w:ind` child when
present; absent element is a no-op. -/
def fix_indentation (pp : Xml) : Xml :=
  match pp with
  | .text s => .text s
  | .elem t a c =>
    if c.anyTag indTag then .elem t a (c.replaceFirstTag indTag fixIndEl) else .elem t a c

def fix_indentation_raise (pp : Xml) : Bool :=
  match (pp.childrenOf).findTag indTag with
  | some ind => indAttrRaise ind.attrsOf
  | none => false

-- ── Font fixer (`_fix_run_fonts`) ──────────────────────────────────────────

/-- The `UNSAFE` substitution table of `_fix_run_fonts`. -/
def fontSubst : List (String × String) :=
  [("Calibri Light", "Calibri"), ("Cambria Math", "Cambria"), ("Symbol", "Arial"),
   ("Wingdings", "Arial"), ("Wingdings 2", "Arial"), ("Wingdings 3", "Arial"),
   ("Webdings", "Arial")]

/-- Substitute every attribute value found in the table, any attribute
name (`for attr in list(rFonts.attrib)`). -/
def substFontAttrs (a : List (String × String)) : List (String × String) :=
  a.map (fun p => match fontSubst.lookup p.2 with
    | some nv => (p.1, nv)
    | none => p)

def fixRFontsEl : Xml → Xml
  | .elem t a c => .elem t (substFontAttrs a) c
  | .text s => .text s

/-- Per-`rPr` step of `_fix_run_fonts`: rewrite the first direct
`w:rFonts` child when present (`continue` otherwise). -/
def rPrLocalFix (c : XmlList) : XmlList :=
  if c.anyTag rFontsTag then c.replaceFirstTag rFontsTag fixRFontsEl else c

-- ── Per-paragraph step of `_patch_document` ────────────────────────────────

/-- The fixers applied to one paragraph-properties element. -/
def fixPPr (o : FixOptions) (pp : Xml) : Xml :=
  let p1 := if o.fix_spacing then fix_paragraph_spacing pp else pp
  if o.fix_margins then fix_indentation p1 else p1

/-- Per-paragraph step on the paragraph's child list: take the first
direct `w:pPr`, inserting a fresh empty one at index 0 when absent
(`SubElement` then `insert(0, ...)`), and run the enabled fixers on it. -/
def paraLocalFix (o : FixOptions) (c : XmlList) : XmlList :=
  if c.anyTag pPrTag then c.replaceFirstTag pPrTag (fixPPr o)
  else .cons (fixPPr o (.elem pPrTag [] .nil)) c

def paraLocalRaise (o : FixOptions) (c : XmlList) : Bool :=
  match c.findTag pPrTag with
  | none => false
  | some pp =>
    (o.fix_spacing && fix_paragraph_spacing_raise pp) ||
    (o.fix_margins && fix_indentation_raise pp)

mutual

/-- The paragraph walk of `_patch_document`: at every `w:p` node apply the
per-paragraph step, and at every `w:rPr` node strictly below some `w:p`
rewrite the first `w:rFonts` child when font fixing is enabled.  The
source walks `body.findall(p)` in document order mutating in place; as the
per-paragraph edits touch disjoint data and the font substitution is
insensitive to repetition, the in-place walk equals this recursion. -/
def paraPass (o : FixOptions) (inP : Bool) : Xml → Xml
  | .text s => .text s
  | .elem t a c =>
    let c1 := paraPassL o (inP || t == pTag) c
    if t == pTag then .elem t a (paraLocalFix o c1)
    else if t == rPrTag && inP && o.fix_fonts then .elem t a (rPrLocalFix c1)
    else .elem t a c1

def paraPassL (o : FixOptions) (inP : Bool) : XmlList → XmlList
  | .nil => .nil
  | .cons x xs => .cons (paraPass o inP x) (paraPassL o inP xs)

end

mutual

/-- Does the paragraph walk raise `ValueError` anywhere below this node. -/
def paraRaises (o : FixOptions) : Xml → Bool
  | .text _ => false
  | .elem t _ c => (t == pTag && paraLocalRaise o c) || paraRaisesL o c

def paraRaisesL (o : FixOptions) : XmlList → Bool
  | .nil => false
  | .cons x xs => paraRaises o x || paraRaisesL o xs

end

-- ── Image fixer (`_fix_floating_images`) ───────────────────────────────────

mutual

/-- First element with the given tag among the strict descendants of a
node, in document order (`el.find('.//tag')`). -/
def findDescTag (t : String) : Xml → Option Xml
  | .text _ => none
  | .elem _ _ c => findDescTagL t c

def findDescTagL (t : String) : XmlList → Option Xml
  | .nil => none
  | .cons x xs =>
    if x.hasTag t then some x
    else match findDescTag t x with
      | some r => some r
      | none => findDescTagL t xs

end

/-- Build the replacement `wp:inline` from the anchor: the extent
(defaulting to 3000000 by 2000000 when `wp:extent` is absent or lacks the
attribute), a zeroed `wp:effectExtent`, the copied `wp:docPr` when
present, and the copied graphic payload, in that order. -/
def mkInline (anc : Xml) (g : Xml) : Xml :=
  let ext := (anc.childrenOf).findTag extentTag
  let cx := match ext with
    | some e => (getAttr e.attrsOf "cx").getD "3000000"
    | none => "3000000"
  let cy := match ext with
    | some e => (getAttr e.attrsOf "cy").getD "2000000"
    | none => "2000000"
  let kids0 : XmlList :=
    .cons (.elem extentTag [("cx", cx), ("cy", cy)] .nil)
      (.cons (.elem effectExtentTag [("l", "0"), ("t", "0"), ("r", "0"), ("b", "0")] .nil) .nil)
  let kids1 := match (anc.childrenOf).findTag docPrTag with
    | some dp => kids0.append (.cons dp .nil)
    | none => kids0
  .elem inlineTag [("distT", "0"), ("distB", "0"), ("distL", "114240"), ("distR", "114240")]
    (kids1.append (.cons g .nil))

mutual

/-- The walk of `_fix_floating_images`: at every `w:drawing` with a direct
`wp:anchor` child whose subtree holds an `a:graphic`, remove that (first)
anchor and append the built inline.  The source iterates a snapshot of
`body.findall(drawing)`; a drawing detached inside a removed anchor is
mutated without effect and its copy is not revisited, which this recursion
reproduces by not descending into the built inline. -/
def imgPass : Xml → Xml
  | .text s => .text s
  | .elem t a c =>
    if t == drawingTag then
      match c.findTag anchorTag with
      | none => .elem t a (imgPassL c)
      | some anc =>
        match findDescTag graphicTag anc with
        | none => .elem t a (imgPassL c)
        | some g =>
          .elem t a (((imgPassL c).removeFirstTag anchorTag).append (.cons (mkInline anc g) .nil))
    else .elem t a (imgPassL c)

def imgPassL : XmlList → XmlList
  | .nil => .nil
  | .cons x xs => .cons (imgPass x) (imgPassL xs)

end

/-- `_fix_floating_images(body)` applies the walk below the body. -/
def fix_floating_images (body : Xml) : Xml := imgPass body

-- ── Table fixer (`_fix_tables`) ────────────────────────────────────────────

/-- The freshly built `w:tblCellMar` with its four sides at `w=80`,
`type=dxa`. -/
def mkTblCellMar : Xml :=
  .elem tblCellMarTag []
    (.cons (.elem (tag nsW "top") [(tag nsW "w", "80"), (tag nsW "type", "dxa")] .nil)
      (.cons (.elem (tag nsW "left") [(tag nsW "w", "80"), (tag nsW "type", "dxa")] .nil)
        (.cons (.elem (tag nsW "bottom") [(tag nsW "w", "80"), (tag nsW "type", "dxa")] .nil)
          (.cons (.elem (tag nsW "right") [(tag nsW "w", "80"), (tag nsW "type", "dxa")] .nil)
            .nil))))

/-- Per-`tblPr` step: append a fresh `w:tblCellMar` (SubElement appends at
the end) when none is present; an existing one is left untouched. -/
def tblPrFix (tp : Xml) : Xml :=
  match tp with
  | .text s => .text s
  | .elem t a c =>
    if c.anyTag tblCellMarTag then .elem t a c
    else .elem t a (c.append (.cons mkTblCellMar .nil))

mutual

/-- The walk of `_fix_tables`: at every `w:tbl`, rewrite the first direct
`w:tblPr` (or insert a fresh one at index 0 when absent) so that it holds
a `w:tblCellMar`. -/
def tblPass : Xml → Xml
  | .text s => .text s
  | .elem t a c =>
    let c1 := tblPassL c
    if t == tblTag then
      if c1.anyTag tblPrTag then .elem t a (c1.replaceFirstTag tblPrTag tblPrFix)
      else .elem t a (.cons (tblPrFix (.elem tblPrTag [] .nil)) c1)
    else .elem t a c1

def tblPassL : XmlList → XmlList
  | .nil => .nil
  | .cons x xs => .cons (tblPass x) (tblPassL xs)

end

/-- `_fix_tables(body)` applies the walk below the body. -/
def fix_tables (body : Xml) : Xml := tblPass body

-- ── The pure pPr-insertion walk (paragraph walk with all flags off) ────────

mutual

/-- What the paragraph walk does when every option flag is false: insert
an empty `w:pPr` at index 0 of every `w:p` that lacks a direct one. -/
def pprInsPass : Xml → Xml
  | .text s => .text s
  | .elem t a c =>
    let c1 := pprInsPassL c
    if t == pTag && !c1.anyTag pPrTag then .elem t a (.cons (.elem pPrTag [] .nil) c1)
    else .elem t a c1

def pprInsPassL : XmlList → XmlList
  | .nil => .nil
  | .cons x xs => .cons (pprInsPass x) (pprInsPassL xs)

end

-- ── Settings patcher (`_patch_settings`) and the api compat strip ──────────

/-- The denylist of `_patch_settings` in fix.py, in removal order; note it
holds three names and not four: `growAutofit` is absent. -/
def settingsBad : List String :=
  [tag nsW "useWord2002TableStyleRules", tag nsW "useWord97LineBreakRules",
   tag nsW "useWord2003FootnoteLineBreakRules"]

/-- The denylist of the compat block of `fix_for_teams` in api/fix.py; it
holds `growAutofit` but not `useWord2003FootnoteLineBreakRules`. -/
def apiBad : List String :=
  [tag nsW "useWord2002TableStyleRules", tag nsW "useWord97LineBreakRules",
   tag nsW "growAutofit"]

/-- For each denylisted name in order, remove the first child with that
name when present (`compat.find(bad)` then `compat.remove(el)`). -/
def stripFlags (names : List String) : Xml → Xml
  | .text s => .text s
  | .elem t a c => .elem t a (names.foldl (fun acc n => acc.removeFirstTag n) c)

/-- The tree edit of `_patch_settings` (and of the api variant with its
own list): rewrite the first direct `w:compat` child of the settings root
when present; no tree edit otherwise. -/
def stripRoot (names : List String) (r : Xml) : Xml :=
  match r with
  | .text s => .text s
  | .elem t a c =>
    if c.anyTag compatTag then .elem t a (c.replaceFirstTag compatTag (stripFlags names))
    else .elem t a c

-- ── Styles patcher (`_patch_styles`) ───────────────────────────────────────

/-- One step of Python `str.replace` with nonempty pattern: scan left to
right, on a match emit the replacement and continue after the consumed
occurrence.  Structured with fuel (one unit per consumed character) so
that the definition is structural; `pyReplace` passes enough fuel. -/
def pyReplaceGo (pat rep : List Char) : Nat → List Char → List Char
  | 0, s => s
  | _ + 1, [] => []
  | f + 1, ch :: t =>
    if pat.isPrefixOf (ch :: t) && !pat.isEmpty then
      rep ++ pyReplaceGo pat rep f (List.drop pat.length (ch :: t))
    else ch :: pyReplaceGo pat rep f t

/-- Python `s.replace(pat, rep)` for a nonempty pattern. -/
def pyReplace (pat rep s : String) : String :=
  String.mk (pyReplaceGo pat.toList rep.toList s.toList.length s.toList)

/-- The `replacements` table of `_patch_styles`, in iteration order. -/
def stylesPairs : List (String × String) :=
  [("Calibri Light", "Calibri"), ("Cambria Math", "Cambria")]

/-- The textual substitution of `_patch_styles` over the decoded part. -/
def patch_styles_str (s : String) : String :=
  stylesPairs.foldl (fun acc p => pyReplace p.1 p.2 acc) s

mutual

/-- Map a string function over every attribute value and text node. -/
def xmlMapStrs (f : String → String) : Xml → Xml
  | .text s => .text (f s)
  | .elem t a c => .elem t (a.map (fun p => (p.1, f p.2))) (xmlMapStrsL f c)

def xmlMapStrsL (f : String → String) : XmlList → XmlList
  | .nil => .nil
  | .cons x xs => .cons (xmlMapStrs f x) (xmlMapStrsL f xs)

end

-- ── Part bytes and the error model ─────────────────────────────────────────

/-- Bytes of one zip entry: an opaque blob, or a serialized XML document
(`decl` records whether the bytes begin with the UTF-8 standalone XML
declaration that `etree.tostring(..., xml_declaration=True)` writes).
A blob is bytes on which `etree.fromstring` fails; parsing a serialized
document recovers its tree.  A textual substitution over serialized XML
rewrites exactly the attribute values and text runs, since the patterns
involved contain no XML metacharacter and names cannot hold spaces. -/
inductive Bytes where
  | raw (s : String)
  | doc (decl : Bool) (root : Xml)
deriving DecidableEq, Repr

inductive PyErr where
  | badZip
  | xmlError
  | valueError
deriving DecidableEq, Repr

/-- Body of the `try` of `_patch_settings`: parse, strip the denylisted
compat flags, and re-serialize (with the XML declaration) even when
nothing was removed. -/
def patch_settings_try (b : Bytes) : Except PyErr Bytes :=
  match b with
  | .raw _ => .error .xmlError
  | .doc _ r => .ok (.doc true (stripRoot settingsBad r))

/-- `_patch_settings`: the bare `except` returns the input unchanged. -/
def patch_settings (b : Bytes) : Bytes :=
  match patch_settings_try b with
  | .ok y => y
  | .error _ => b

/-- The textual substitution of `_patch_styles` over the part bytes. -/
def patch_styles_apply : Bytes → Bytes
  | .raw s => .raw (patch_styles_str s)
  | .doc d r => .doc d (xmlMapStrs patch_styles_str r)

/-- Body of the `try` of `_patch_styles`: decode with `errors='replace'`,
substitute, re-encode; none of these operations can raise. -/
def patch_styles_try (b : Bytes) : Except PyErr Bytes :=
  .ok (patch_styles_apply b)

/-- `_patch_styles`: the bare `except` returns the input unchanged. -/
def patch_styles (b : Bytes) : Bytes :=
  match patch_styles_try b with
  | .ok y => y
  | .error _ => b

-- ── Document patcher (`_patch_document`) ───────────────────────────────────

/-- The fixer sequence of `_patch_document` on the body subtree: the
paragraph walk (always), then the image walk and the table walk when
enabled. -/
def bodyFix (o : FixOptions) (b : Xml) : Xml :=
  let b1 := paraPass o false b
  let b2 := if o.fix_images then imgPass b1 else b1
  if o.fix_tables then tblPass b2 else b2

mutual

/-- Rewrite the first strict descendant tagged `w:body` (document order)
with `f`, the tree shape of `root.find('.//body')` plus in-place
mutation. -/
def rfb (f : Xml → Xml) : Xml → Xml
  | .text s => .text s
  | .elem t a c => .elem t a (rfbL f c)

def rfbL (f : Xml → Xml) : XmlList → XmlList
  | .nil => .nil
  | .cons x xs =>
    if x.hasTag bodyTag then .cons (f x) xs
    else if (findDescTag bodyTag x).isSome then .cons (rfb f x) xs
    else .cons x (rfbL f xs)

end

/-- `_patch_document`: parse (the blob case is the unrecoverable-parse
failure), return the bytes unchanged when no `w:body` is found, raise
`ValueError` when some guarded integer read raises, and otherwise
re-serialize the tree with the body subtree fixed. -/
def patch_document (b : Bytes) (o : FixOptions) : Except PyErr Bytes :=
  match b with
  | .raw _ => .error .xmlError
  | .doc d r =>
    match findDescTag bodyTag r with
    | none => .ok (.doc d r)
    | some bd =>
      if paraRaises o bd then .error .valueError
      else .ok (.doc true (rfb (bodyFix o) r))

-- ── Archive rewriter (`fix_docx`) and the api precheck ─────────────────────

/-- Bytes of a whole request payload: a readable zip archive (ordered
entries), or bytes on which `ZipFile` raises `BadZipFile`. -/
inductive PkgBytes where
  | zip (entries : List (String × Bytes))
  | notzip (s : String)
deriving DecidableEq, Repr

/-- `zin.read(name)`: `zipfile` resolves a name through `NameToInfo`,
which the last entry bearing the name wins. -/
def zipRead (es : List (String × Bytes)) (n : String) : Option Bytes :=
  ((es.filter (fun e => e.1 == n)).getLast?).map (fun e => e.2)

/-- The per-entry dispatch of the `fix_docx` loop. -/
def patchEntry (o : FixOptions) (n : String) (data : Bytes) : Except PyErr Bytes :=
  if n == "word/document.xml" then patch_document data o
  else if n == "word/settings.xml" then .ok (patch_settings data)
  else if n == "word/styles.xml" && o.fix_fonts then .ok (patch_styles data)
  else .ok data

/-- One turn of the `fix_docx` loop: read the entry data by name from the
input archive, patch it according to the dispatch, and name the output
entry after the input entry. -/
def entryStep (o : FixOptions) (es : List (String × Bytes)) (e : String × Bytes) :
    Except PyErr (String × Bytes) :=
  match patchEntry o e.1 ((zipRead es e.1).getD e.2) with
  | .ok d => .ok (e.1, d)
  | .error er => .error er

/-- `fix_docx(input_bytes, options)`: open the archive (raising on bytes
that are not one), and write one output entry per input entry, patching
the three targeted names and copying everything else; any raise inside a
patcher aborts the whole call with no output bytes. -/
def fix_docx (input : PkgBytes) (o : FixOptions) : Except PyErr PkgBytes :=
  match input with
  | .notzip _ => .error .badZip
  | .zip es =>
    match es.mapM (entryStep o es) with
    | .ok out => .ok (.zip out)
    | .error er => .error er

/-- `is_valid_docx` of api/fix.py: the bytes must carry the local-header
zip signature and open as an archive whose name list holds
`word/document.xml`.  In the model a readable archive carries the
signature exactly when it has a first entry, so the check reduces to
membership of the mandatory part (a standard archive without leading
junk is assumed; `zipfile` also accepts self-extracting prefixes, which
are outside the model and outside the claims). -/
def is_valid_docx : PkgBytes → Bool
  | .notzip _ => false
  | .zip es => es.any (fun e => e.1 == "word/document.xml")

-- ── Structural predicates used by the statements ───────────────────────────

mutual

/-- No element of the given tag occurs at this node or below it. -/
def noTag (tgt : String) : Xml → Bool
  | .text _ => true
  | .elem t _ c => !(t == tgt) && noTagL tgt c

def noTagL (tgt : String) : XmlList → Bool
  | .nil => true
  | .cons x xs => noTag tgt x && noTagL tgt xs

end

mutual

/-- Anchor sanity of a document tree: no drawing holds two direct anchor
children, and no anchor subtree holds a drawing.  Well-formed OOXML
satisfies this (an anchor holds exactly one graphic object and drawings
nest only through graphic payloads of other drawings). -/
def anchorSafe : Xml → Bool
  | .text _ => true
  | .elem t _ c =>
    (!(t == drawingTag) || decide (c.countTag anchorTag ≤ 1)) &&
    (!(t == anchorTag) || noTagL drawingTag c) &&
    anchorSafeL c

def anchorSafeL : XmlList → Bool
  | .nil => true
  | .cons x xs => anchorSafe x && anchorSafeL xs

end

/-- The first `w:compat` child of the settings root holds at most one
child per denylisted name (true in particular when there is no compat
element, and in every well-formed settings part). -/
def compatDupFree (r : Xml) : Bool :=
  match (r.childrenOf).findTag compatTag with
  | some cp => settingsBad.all (fun n => decide ((cp.childrenOf).countTag n ≤ 1))
  | none => true

mutual

/-- Every attribute value and text run of the tree satisfies `p`. -/
def allStrs (p : String → Bool) : Xml → Bool
  | .text s => p s
  | .elem _ a c => a.all (fun q => p q.2) && allStrsL p c

def allStrsL (p : String → Bool) : XmlList → Bool
  | .nil => true
  | .cons x xs => allStrs p x && allStrsL p xs

end

/-- Does the pattern occur as a contiguous sublist. -/
def occursL (pat : List Char) : List Char → Bool
  | [] => pat.isEmpty
  | c :: t => pat.isPrefixOf (c :: t) || occursL pat t

/-- Neither styles substitution pattern occurs in the string. -/
def strNoPats (s : String) : Bool :=
  !occursL ("Calibri Light".toList) s.toList && !occursL ("Cambria Math".toList) s.toList

/-- Neither styles substitution pattern occurs anywhere in the bytes. -/
def bytesNoPats : Bytes → Bool
  | .raw s => strNoPats s
  | .doc _ r => allStrs strNoPats r

-- ── Saturation state of the local fixers ───────────────────────────────────

/-- The first direct `w:spacing` child exists and its attributes are a
fixed point of the spacing rewriting. -/
def spacingOkC (c : XmlList) : Bool :=
  match c.findTag spacingTag with
  | some sp => spacingAttrFix sp.attrsOf == sp.attrsOf
  | none => false

/-- The first direct `w:ind` child, when present, has attributes fixed
under the indentation rewriting. -/
def indOkC (c : XmlList) : Bool :=
  match c.findTag indTag with
  | some ind => indAttrFix ind.attrsOf == ind.attrsOf
  | none => true

/-- The per-paragraph-properties step leaves this element unchanged. -/
def pprOk (o : FixOptions) (pp : Xml) : Bool :=
  (!o.fix_spacing || spacingOkC pp.childrenOf) && (!o.fix_margins || indOkC pp.childrenOf)

/-- The per-paragraph step leaves this child list unchanged. -/
def paraOkC (o : FixOptions) (c : XmlList) : Bool :=
  match c.findTag pPrTag with
  | some pp => pprOk o pp
  | none => false

/-- The first direct `w:rFonts` child, when present, has attributes fixed
under the font substitution. -/
def rFontsOkC (c : XmlList) : Bool :=
  match c.findTag rFontsTag with
  | some rf => substFontAttrs rf.attrsOf == rf.attrsOf
  | none => true

/-- The first direct anchor child, when present, holds no graphic, so the
image step skips this drawing. -/
def drawOkC (c : XmlList) : Bool :=
  match c.findTag anchorTag with
  | some anc => (findDescTag graphicTag anc).isNone
  | none => true

/-- The first direct `w:tblPr` exists and holds a `w:tblCellMar`. -/
def tblOkC (c : XmlList) : Bool :=
  match c.findTag tblPrTag with
  | some tp => (tp.childrenOf).anyTag tblCellMarTag
  | none => false

-- ── Fixed-point predicates of the three document walks ─────────────────────

mutual

/-- Node-wise fixed point of the paragraph walk: every paragraph's local
step leaves its children unchanged and raises nowhere, and every fixed
`w:rPr` under a paragraph is already substituted. -/
def pfx (o : FixOptions) (inP : Bool) : Xml → Bool
  | .text _ => true
  | .elem t _ c =>
    (!(t == pTag) || (paraOkC o c && !paraLocalRaise o c)) &&
    (!(t == rPrTag && inP && o.fix_fonts) || rFontsOkC c) &&
    pfxL o (inP || t == pTag) c

def pfxL (o : FixOptions) (inP : Bool) : XmlList → Bool
  | .nil => true
  | .cons x xs => pfx o inP x && pfxL o inP xs

end

mutual

/-- Node-wise fixed point of the image walk: no drawing's first direct
anchor child holds a graphic. -/
def ifx : Xml → Bool
  | .text _ => true
  | .elem t _ c => (!(t == drawingTag) || drawOkC c) && ifxL c

def ifxL : XmlList → Bool
  | .nil => true
  | .cons x xs => ifx x && ifxL xs

end

mutual

/-- Node-wise fixed point of the table walk: every table has a direct
`w:tblPr` whose first occurrence holds a direct `w:tblCellMar`. -/
def tfx : Xml → Bool
  | .text _ => true
  | .elem t _ c => (!(t == tblTag) || tblOkC c) && tfxL c

def tfxL : XmlList → Bool
  | .nil => true
  | .cons x xs => tfx x && tfxL xs

end

/-- Saturation condition of one archive entry, as read by the rewriting
loop (by name): the document tree is anchor sane when image fixing is on,
the settings compat block holds no duplicated denylisted flag, and the
styles substitution output holds no further occurrence of a pattern when
font fixing is on.  Every other entry is unconditioned. -/
def entrySat (o : FixOptions) (n : String) (b : Bytes) : Bool :=
  if n == "word/document.xml" then
    (match b with
     | .doc _ r => !o.fix_images || anchorSafe r
     | .raw _ => true)
  else if n == "word/settings.xml" then
    (match b with
     | .doc _ r => compatDupFree r
     | .raw _ => true)
  else if n == "word/styles.xml" && o.fix_fonts then bytesNoPats (patch_styles_apply b)
  else true

-- ── Statement helpers and concrete data ────────────────────────────────────

def XmlList.headChild : XmlList → Option Xml
  | .nil => none
  | .cons x _ => some x

def XmlList.lastChild : XmlList → Option Xml
  | .nil => none
  | .cons x .nil => some x
  | .cons _ (.cons y ys) => (XmlList.cons y ys).lastChild

/-- Drop every element child whose tag is one of the names. -/
def XmlList.filterNotTags (names : List String) : XmlList → XmlList
  | .nil => .nil
  | .cons x xs =>
    if names.any (fun n => x.hasTag n) then xs.filterNotTags names
    else .cons x (xs.filterNotTags names)

def exOk {ε α : Type} : Except ε α → Bool
  | .ok _ => true
  | .error _ => false

def exD {ε α : Type} (d : α) : Except ε α → α
  | .ok y => y
  | .error _ => d

/-- The value the rewriting loop writes for one entry (meaningful when the
per-entry patch succeeds). -/
def entryOut (o : FixOptions) (es : List (String × Bytes)) (e : String × Bytes) :
    String × Bytes :=
  (e.1, exD e.2 (patchEntry o e.1 ((zipRead es e.1).getD e.2)))

/-- Does the per-entry patch succeed for one entry. -/
def entryOk (o : FixOptions) (es : List (String × Bytes)) (e : String × Bytes) : Bool :=
  exOk (patchEntry o e.1 ((zipRead es e.1).getD e.2))

def optsAll : FixOptions := ⟨true, true, true, true, true⟩

def optsNone : FixOptions := ⟨false, false, false, false, false⟩

def gaTag : String := tag nsW "growAutofit"

def w2003Tag : String := tag nsW "useWord2003FootnoteLineBreakRules"

def w97Tag : String := tag nsW "useWord97LineBreakRules"

-- settings root whose compat block holds exactly the growAutofit flag
def exSettingsRoot : Xml :=
  .elem (tag nsW "settings") []
    (.cons (.elem compatTag [] (.cons (.elem gaTag [] .nil) .nil)) .nil)

-- document whose single spacing element carries before="--5"
def exCrashDoc : Xml :=
  .elem (tag nsW "document") []
    (.cons (.elem bodyTag []
      (.cons (.elem pTag []
        (.cons (.elem pPrTag []
          (.cons (.elem spacingTag [(tag nsW "before", "--5")] .nil) .nil))
          .nil))
        .nil))
      .nil)

-- drawing with one anchor holding extent 500000 by 400000, a docPr and a
-- graphic payload
def exGraphic : Xml :=
  .elem graphicTag [] (.cons (.elem (tag nsA "graphicData") [("uri", "pic")] .nil) .nil)

def exAnchor : Xml :=
  .elem anchorTag [("distT", "0")]
    (.cons (.elem extentTag [("cx", "500000"), ("cy", "400000")] .nil)
      (.cons (.elem docPrTag [("id", "1"), ("name", "Picture")] .nil)
        (.cons exGraphic .nil)))

def exDrawing : Xml := .elem drawingTag [] (.cons exAnchor .nil)

-- table whose tblPr holds one tblW child and no tblCellMar
def tblWTag : String := tag nsW "tblW"

def exTblW : Xml := .elem tblWTag [(tag nsW "w", "5000")] .nil

def exTbl : Xml := .elem tblTag [] (.cons (.elem tblPrTag [] (.cons exTblW .nil)) .nil)

-- document with a body holding one paragraph without paragraph properties
def exPlainDoc : Xml :=
  .elem (tag nsW "document") []
    (.cons (.elem bodyTag []
      (.cons (.elem pTag [] (.cons (.elem (tag nsW "r") [] .nil) .nil)) .nil))
      .nil)

-- the same document after the full fixing pass with every option on
def exFixedDoc : Xml :=
  .elem (tag nsW "document") []
    (.cons (.elem bodyTag []
      (.cons (.elem pTag []
        (.cons (.elem pPrTag [] (.cons (.elem spacingTag [] .nil) .nil))
          (.cons (.elem (tag nsW "r") [] .nil) .nil)))
        .nil))
      .nil)

-- ═══════════════════════════════ Theorems ═════════════════════════════════

-- ── Child-list basics ──────────────────────────────────────────────────────

/-- Induction principle for child lists alone (the mutual recursor has two
motives, so the list-only principle is derived by structural recursion). -/
theorem XmlList.indOn {P : XmlList → Prop} (nil : P .nil)
    (cons : ∀ x xs, P xs → P (.cons x xs)) : ∀ c, P c
  | .nil => nil
  | .cons x xs => cons x xs (XmlList.indOn nil cons xs)

theorem anyTag_iff_findTag (t : String) :
    ∀ c : XmlList, c.anyTag t = (c.findTag t).isSome := by
  intro c
  induction c using XmlList.indOn with
  | nil => rfl
  | cons x xs ih =>
    simp only [XmlList.anyTag, XmlList.findTag]
    by_cases h : x.hasTag t = true
    · simp [h]
    · simp [h, ih]

theorem findTag_some_hasTag {t : String} :
    ∀ {c : XmlList} {x : Xml}, c.findTag t = some x → x.hasTag t = true := by
  intro c
  induction c using XmlList.indOn with
  | nil => intro x h; cases h
  | cons y ys ih =>
    intro x h
    simp only [XmlList.findTag] at h
    by_cases hy : y.hasTag t = true
    · rw [if_pos hy] at h; cases h; exact hy
    · rw [if_neg hy] at h; exact ih h

theorem replaceFirstTag_of_none {t : String} (f : Xml → Xml) :
    ∀ {c : XmlList}, c.findTag t = none → c.replaceFirstTag t f = c := by
  intro c
  induction c using XmlList.indOn with
  | nil => intro _; rfl
  | cons y ys ih =>
    intro h
    simp only [XmlList.findTag] at h
    simp only [XmlList.replaceFirstTag]
    by_cases hy : y.hasTag t = true
    · rw [if_pos hy] at h; cases h
    · rw [if_neg hy] at h; rw [if_neg hy, ih h]

theorem replaceFirstTag_eq_self {t : String} {f : Xml → Xml} :
    ∀ {c : XmlList} {x : Xml}, c.findTag t = some x → f x = x →
      c.replaceFirstTag t f = c := by
  intro c
  induction c using XmlList.indOn with
  | nil => intro x h; cases h
  | cons y ys ih =>
    intro x h hfx
    simp only [XmlList.findTag] at h
    simp only [XmlList.replaceFirstTag]
    by_cases hy : y.hasTag t = true
    · rw [if_pos hy] at h
      cases h
      rw [if_pos hy, hfx]
    · rw [if_neg hy] at h
      rw [if_neg hy, ih h hfx]

theorem findTag_replaceFirstTag {t : String} {f : Xml → Xml} :
    ∀ {c : XmlList} {x : Xml}, c.findTag t = some x → (f x).hasTag t = true →
      (c.replaceFirstTag t f).findTag t = some (f x) := by
  intro c
  induction c using XmlList.indOn with
  | nil => intro x h; cases h
  | cons y ys ih =>
    intro x h hfx
    simp only [XmlList.findTag] at h
    simp only [XmlList.replaceFirstTag]
    by_cases hy : y.hasTag t = true
    · rw [if_pos hy] at h
      cases h
      rw [if_pos hy]
      simp only [XmlList.findTag]
      rw [if_pos hfx]
    · rw [if_neg hy] at h
      rw [if_neg hy]
      simp only [XmlList.findTag]
      rw [if_neg hy]
      exact ih h hfx

theorem replaceFirstTag_comp {t : String} {f g : Xml → Xml} :
    ∀ {c : XmlList} {x : Xml}, c.findTag t = some x → (f x).hasTag t = true →
      (c.replaceFirstTag t f).replaceFirstTag t g =
        c.replaceFirstTag t (fun z => g (f z)) := by
  intro c
  induction c using XmlList.indOn with
  | nil => intro x h; cases h
  | cons y ys ih =>
    intro x h hfx
    simp only [XmlList.findTag] at h
    by_cases hy : y.hasTag t = true
    · rw [if_pos hy] at h
      cases h
      simp only [XmlList.replaceFirstTag, if_pos hy, if_pos hfx]
    · rw [if_neg hy] at h
      simp only [XmlList.replaceFirstTag, if_neg hy]
      rw [ih h hfx]

theorem countTag_append (t : String) :
    ∀ c d : XmlList, (c.append d).countTag t = c.countTag t + d.countTag t := by
  intro c d
  induction c using XmlList.indOn with
  | nil => simp [XmlList.append, XmlList.countTag]
  | cons x xs ih =>
    simp only [XmlList.append, XmlList.countTag, ih]
    omega

theorem countTag_removeFirstTag_self (t : String) :
    ∀ c : XmlList, (c.removeFirstTag t).countTag t = c.countTag t - 1 := by
  intro c
  induction c using XmlList.indOn with
  | nil => rfl
  | cons x xs ih =>
    simp only [XmlList.removeFirstTag, XmlList.countTag]
    by_cases hx : x.hasTag t = true
    · rw [if_pos hx, if_pos hx]
      omega
    · rw [if_neg hx, if_neg hx]
      simp only [XmlList.countTag]
      rw [if_neg hx, ih]
      have : xs.countTag t = 0 ∨ 0 < xs.countTag t := by omega
      omega

theorem countTag_removeFirstTag_other {t u : String} (h : (u == t) = false) :
    ∀ c : XmlList, (c.removeFirstTag t).countTag u = c.countTag u := by
  intro c
  induction c using XmlList.indOn with
  | nil => rfl
  | cons x xs ih =>
    simp only [XmlList.removeFirstTag, XmlList.countTag]
    by_cases hx : x.hasTag t = true
    · rw [if_pos hx]
      have hxu : x.hasTag u = false := by
        cases x with
        | text s => rfl
        | elem tg a c =>
          simp only [Xml.hasTag] at hx ⊢
          have htg : tg = t := by simpa using hx
          subst htg
          simp only [beq_eq_false_iff_ne] at h ⊢
          exact fun hh => h hh.symm
      rw [hxu]
      simp
    · rw [if_neg hx]
      simp only [XmlList.countTag, ih]

theorem removeFirstTag_of_zero {t : String} :
    ∀ {c : XmlList}, c.countTag t = 0 → c.removeFirstTag t = c := by
  intro c
  induction c using XmlList.indOn with
  | nil => intro _; rfl
  | cons x xs ih =>
    intro h
    simp only [XmlList.countTag] at h
    simp only [XmlList.removeFirstTag]
    by_cases hx : x.hasTag t = true
    · rw [if_pos hx] at h; omega
    · rw [if_neg hx] at h
      rw [if_neg hx, ih]
      omega

-- ── Archive-level characterization of `fix_docx` ───────────────────────────

theorem entryStep_ok {o : FixOptions} {es0 : List (String × Bytes)}
    {e : String × Bytes} (h : entryOk o es0 e = true) :
    entryStep o es0 e = .ok (entryOut o es0 e) := by
  unfold entryOk at h
  unfold entryStep entryOut
  rcases hpe : patchEntry o e.1 ((zipRead es0 e.1).getD e.2) with er | y
  · rw [hpe] at h
    cases h
  · rfl

theorem entryStep_ok_elim {o : FixOptions} {es0 : List (String × Bytes)}
    {e : String × Bytes} {y : String × Bytes} (h : entryStep o es0 e = .ok y) :
    entryOk o es0 e = true ∧ y = entryOut o es0 e := by
  unfold entryStep at h
  unfold entryOk entryOut
  rcases hpe : patchEntry o e.1 ((zipRead es0 e.1).getD e.2) with er | d
  · rw [hpe] at h
    cases h
  · rw [hpe] at h
    cases h
    exact ⟨rfl, rfl⟩

theorem mapM_entries (o : FixOptions) (es0 : List (String × Bytes)) :
    ∀ l : List (String × Bytes), (∀ e ∈ l, entryOk o es0 e = true) →
      l.mapM (entryStep o es0) = .ok (l.map (entryOut o es0)) := by
  intro l
  induction l with
  | nil => intro _; rfl
  | cons a as ih =>
    intro h
    rw [List.mapM_cons, entryStep_ok (h a (by simp)), ih (fun e he => h e (by simp [he]))]
    rfl

theorem mapM_entries_elim (o : FixOptions) (es0 : List (String × Bytes)) :
    ∀ (l : List (String × Bytes)) (out : List (String × Bytes)),
      l.mapM (entryStep o es0) = .ok out →
      (∀ e ∈ l, entryOk o es0 e = true) ∧ out = l.map (entryOut o es0) := by
  intro l
  induction l with
  | nil =>
    intro out h
    rw [List.mapM_nil] at h
    cases h
    exact ⟨by simp, rfl⟩
  | cons a as ih =>
    intro out h
    rw [List.mapM_cons] at h
    rcases hstep : entryStep o es0 a with er | y
    · rw [hstep] at h
      cases h
    · rw [hstep] at h
      rcases hmm : as.mapM (entryStep o es0) with er2 | out2
      · rw [hmm] at h
        cases h
      · rw [hmm] at h
        have hout : out = y :: out2 := by
          cases h
          rfl
        obtain ⟨hok, hy⟩ := entryStep_ok_elim hstep
        obtain ⟨h1, h2⟩ := ih out2 hmm
        refine ⟨?_, ?_⟩
        · intro e he
          rcases List.mem_cons.mp he with rfl | hmem
          · exact hok
          · exact h1 e hmem
        · rw [hout, h2, List.map_cons, hy]

theorem fix_docx_zip_ok {es : List (String × Bytes)} {o : FixOptions}
    (h : ∀ e ∈ es, entryOk o es e = true) :
    fix_docx (.zip es) o = .ok (.zip (es.map (entryOut o es))) := by
  simp only [fix_docx]
  rw [mapM_entries o es es h]

theorem fix_docx_zip_elim {es : List (String × Bytes)} {o : FixOptions} {p : PkgBytes}
    (h : fix_docx (.zip es) o = .ok p) :
    (∀ e ∈ es, entryOk o es e = true) ∧ p = .zip (es.map (entryOut o es)) := by
  simp only [fix_docx] at h
  rcases hmm : es.mapM (entryStep o es) with er | out
  · rw [hmm] at h
    cases h
  · rw [hmm] at h
    obtain ⟨h1, h2⟩ := mapM_entries_elim o es es out hmm
    refine ⟨h1, ?_⟩
    cases h
    rw [h2]

-- ── C3: rejection of invalid or incomplete containers ──────────────────────

theorem patchEntry_ok_of_other {o : FixOptions} {n : String} {b : Bytes}
    (h : (n == "word/document.xml") = false) :
    exOk (patchEntry o n b) = true := by
  unfold patchEntry
  rw [h]
  simp only [Bool.false_eq_true, if_false]
  split
  · rfl
  · split
    · rfl
    · rfl

/-- C3, counterexample: a readable container that lacks
`word/document.xml` does not make `fix_docx` fail; the call succeeds and
produces output bytes (the entries pass through), against the claim that
the engine fails with `MalformedPackage` and produces no output. -/
theorem claim3_counterexample :
    fix_docx (.zip [("a.txt", Bytes.raw "x")]) optsAll =
      .ok (.zip [("a.txt", Bytes.raw "x")]) := by
  rfl

/-- C3, amended: bytes that are not a readable container make `fix_docx`
raise (`BadZipFile`), producing no output, and fail the api precheck
`is_valid_docx`; a readable container missing `word/document.xml` is
processed successfully by `fix_docx` itself, and only the api precheck
rejects it (returning false, so the api handler answers 400 before any
engine output exists). -/
theorem claim3_amended :
    (∀ (s : String) (o : FixOptions), fix_docx (.notzip s) o = .error .badZip) ∧
    (∀ s : String, is_valid_docx (.notzip s) = false) ∧
    (∀ (es : List (String × Bytes)) (o : FixOptions),
      (∀ e ∈ es, (e.1 == "word/document.xml") = false) →
      exOk (fix_docx (.zip es) o) = true ∧ is_valid_docx (.zip es) = false) := by
  refine ⟨fun s o => rfl, fun s => rfl, ?_⟩
  intro es o h
  constructor
  · rw [fix_docx_zip_ok (fun e he => patchEntry_ok_of_other (h e he))]
    rfl
  · simp only [is_valid_docx, List.any_eq_false]
    intro e he
    simp [h e he]

/-- C3, witness for the amended statement at a concrete container. -/
theorem claim3_witness :
    exOk (fix_docx (.zip [("a.txt", Bytes.raw "y")]) optsNone) = true ∧
    is_valid_docx (.zip [("a.txt", Bytes.raw "y")]) = false :=
  claim3_amended.2.2 [("a.txt", Bytes.raw "y")] optsNone (by decide)

-- ── C10: the settings and styles patchers never raise ──────────────────────

/-- C10: `_patch_settings` and `_patch_styles` never raise: whenever the
body of their `try` raises (for settings, exactly on bytes that do not
parse as XML), the bare `except` returns the input bytes unchanged; the
styles `try` body cannot raise at all (decode uses `errors='replace'`),
and a whole `fix_docx` run with an unparseable settings part succeeds and
passes that part through as-is. -/
theorem claim10_no_raise :
    (∀ (b : Bytes) (e : PyErr), patch_settings_try b = .error e → patch_settings b = b) ∧
    (∀ (b : Bytes) (e : PyErr), patch_styles_try b = .error e → patch_styles b = b) ∧
    (∀ s : String, patch_settings (.raw s) = .raw s) ∧
    (∀ b : Bytes, patch_styles_try b = .ok (patch_styles_apply b)) ∧
    (∀ (s : String) (o : FixOptions),
      fix_docx (.zip [("word/settings.xml", Bytes.raw s)]) o =
        .ok (.zip [("word/settings.xml", Bytes.raw s)])) := by
  refine ⟨?_, ?_, fun s => rfl, fun b => rfl, fun s o => rfl⟩
  · intro b e h
    unfold patch_settings
    rw [h]
  · intro b e h
    unfold patch_styles
    rw [h]

/-- C10, witness: the settings patcher at a concrete unparseable part. -/
theorem claim10_witness :
    patch_settings (.raw "plain text") = .raw "plain text" :=
  claim10_no_raise.1 (.raw "plain text") .xmlError rfl

-- ── C8: font substitution applied to the styles part ───────────────────────

/-- C8, counterexample: the styles patcher does not apply the run-level
substitution table: `Symbol` maps to `Arial` in the run table, yet the
textual styles substitution leaves `Symbol` unchanged. -/
theorem claim8_counterexample :
    patch_styles_str "Symbol" = "Symbol" ∧
    fontSubst.lookup "Symbol" = some "Arial" ∧ "Symbol" ≠ "Arial" :=
  ⟨rfl, rfl, by decide⟩

/-- C8, amended: the styles patcher applies, as Python `str.replace` in
table order over the raw XML text, exactly the two-entry subset
`Calibri Light to Calibri` and `Cambria Math to Cambria` of the run-level
table; both pairs are entries of the run table, but the remaining
run-table entries (Symbol, the Wingdings family, Webdings) are not
applied to styles. -/
theorem claim8_amended :
    (∀ s : String, patch_styles_str s =
      pyReplace "Cambria Math" "Cambria" (pyReplace "Calibri Light" "Calibri" s)) ∧
    (∀ p ∈ stylesPairs, p ∈ fontSubst) ∧
    (patch_styles_str "Calibri Light" = "Calibri" ∧
      patch_styles_str "Cambria Math" = "Cambria") ∧
    (patch_styles_str "Wingdings" = "Wingdings" ∧
      patch_styles_str "Webdings" = "Webdings" ∧
      fontSubst.lookup "Wingdings" = some "Arial" ∧
      fontSubst.lookup "Webdings" = some "Arial") := by
  refine ⟨fun s => rfl, by decide, ⟨rfl, rfl⟩, ⟨rfl, rfl, rfl, rfl⟩⟩

/-- C8, witness for the membership hypothesis of the amended statement. -/
theorem claim8_witness :
    (("Calibri Light", "Calibri") : String × String) ∈ fontSubst :=
  claim8_amended.2.1 ("Calibri Light", "Calibri") (by decide)

-- ── C5: the spacing clamp at its failing input ─────────────────────────────

/-- C5: evaluation at the failing input.  The spacing guard
`val.lstrip('-').isdigit()` passes for `before="--5"`, then `int` raises
`ValueError`, aborting the whole `fix_docx` call, where the claim says a
non-numeric value is left unchanged. -/
theorem claim5_spacing_crash :
    numGuard "--5" = true ∧ numRaise "--5" = true ∧
    patch_document (.doc true exCrashDoc) optsAll = .error .valueError ∧
    fix_docx (.zip [("word/document.xml", Bytes.doc true exCrashDoc)]) optsAll =
      .error .valueError :=
  ⟨by decide, by decide, rfl, rfl⟩

-- ── C4: the compatibility flag stripper ────────────────────────────────────

theorem filterNotTags_nil_names : ∀ c : XmlList, c.filterNotTags [] = c := by
  intro c
  induction c using XmlList.indOn with
  | nil => rfl
  | cons x xs ih =>
    simp only [XmlList.filterNotTags, List.any_nil]
    simpa using ih

theorem filterNotTags_cons_of_zero {n : String} {ns : List String} :
    ∀ {c : XmlList}, c.countTag n = 0 →
      c.filterNotTags (n :: ns) = c.filterNotTags ns := by
  intro c
  induction c using XmlList.indOn with
  | nil => intro _; rfl
  | cons x xs ih =>
    intro h
    simp only [XmlList.countTag] at h
    have hx : x.hasTag n = false := by
      by_cases hh : x.hasTag n = true
      · exfalso
        rw [if_pos hh] at h
        omega
      · simpa using hh
    have hxs : xs.countTag n = 0 := by
      rw [hx] at h; omega
    simp only [XmlList.filterNotTags, List.any_cons, hx, Bool.false_or]
    rw [ih hxs]

theorem filterNot_removeFirst {n : String} {ns : List String} :
    ∀ {c : XmlList}, c.countTag n ≤ 1 →
      (c.removeFirstTag n).filterNotTags ns = c.filterNotTags (n :: ns) := by
  intro c
  induction c using XmlList.indOn with
  | nil => intro _; rfl
  | cons x xs ih =>
    intro h
    simp only [XmlList.countTag] at h
    by_cases hx : x.hasTag n = true
    · rw [if_pos hx] at h
      have hxs : xs.countTag n = 0 := by omega
      simp only [XmlList.removeFirstTag, if_pos hx]
      simp only [XmlList.filterNotTags, List.any_cons, hx, Bool.true_or, if_pos]
      exact (filterNotTags_cons_of_zero hxs).symm
    · have hx' : x.hasTag n = false := by simpa using hx
      rw [if_neg hx] at h
      simp only [XmlList.removeFirstTag, if_neg hx]
      simp only [XmlList.filterNotTags, List.any_cons, hx', Bool.false_or]
      by_cases hxn : ns.any (fun m => x.hasTag m) = true
      · rw [hxn]
        simp only [if_pos]
        exact ih (by omega)
      · rw [Bool.not_eq_true] at hxn
        rw [hxn]
        simp only [Bool.false_eq_true, if_false]
        rw [ih (by omega)]

theorem stripFold_eq_filter :
    ∀ (ns : List String), ns.Nodup →
      ∀ c : XmlList, (∀ n ∈ ns, c.countTag n ≤ 1) →
      ns.foldl (fun acc n => acc.removeFirstTag n) c = c.filterNotTags ns := by
  intro ns
  induction ns with
  | nil =>
    intro _ c _
    exact (filterNotTags_nil_names c).symm
  | cons n ns ih =>
    intro hnd c hc
    simp only [List.foldl_cons]
    have hnotin : n ∉ ns := (List.nodup_cons.mp hnd).1
    have hnd' : ns.Nodup := (List.nodup_cons.mp hnd).2
    have hcount : ∀ m ∈ ns, (c.removeFirstTag n).countTag m ≤ 1 := by
      intro m hm
      have hne : (m == n) = false := by
        simp only [beq_eq_false_iff_ne]
        intro hh
        exact hnotin (hh ▸ hm)
      rw [countTag_removeFirstTag_other hne]
      exact hc m (by simp [hm])
    rw [ih hnd' (c.removeFirstTag n) hcount]
    exact filterNot_removeFirst (hc n (by simp))

theorem countTag_filterNotTags_other {m : String} {ns : List String}
    (h : ∀ n ∈ ns, (m == n) = false) :
    ∀ c : XmlList, (c.filterNotTags ns).countTag m = c.countTag m := by
  intro c
  induction c using XmlList.indOn with
  | nil => rfl
  | cons x xs ih =>
    simp only [XmlList.filterNotTags]
    by_cases hx : ns.any (fun n => x.hasTag n) = true
    · rw [if_pos hx]
      have hxm : x.hasTag m = false := by
        rcases List.any_eq_true.mp hx with ⟨n, hn, hxn⟩
        cases x with
        | text s => rfl
        | elem tg a cc =>
          simp only [Xml.hasTag] at hxn ⊢
          have : tg = n := by simpa using hxn
          subst this
          simp only [beq_eq_false_iff_ne] at h ⊢
          intro hh
          exact h tg hn hh.symm
      rw [ih, XmlList.countTag, hxm]
      simp
    · rw [Bool.not_eq_true] at hx
      rw [hx]
      simp only [Bool.false_eq_true, if_false, XmlList.countTag, ih]

theorem countTag_filterNotTags_mem {n : String} {ns : List String} (h : n ∈ ns) :
    ∀ c : XmlList, (c.filterNotTags ns).countTag n = 0 := by
  intro c
  induction c using XmlList.indOn with
  | nil => rfl
  | cons x xs ih =>
    simp only [XmlList.filterNotTags]
    by_cases hx : ns.any (fun m => x.hasTag m) = true
    · rw [if_pos hx, ih]
    · rw [Bool.not_eq_true] at hx
      rw [hx]
      simp only [Bool.false_eq_true, if_false, XmlList.countTag, ih]
      have hxn : x.hasTag n = false := by
        by_cases hh : x.hasTag n = true
        · exfalso
          have : ns.any (fun m => x.hasTag m) = true := List.any_eq_true.mpr ⟨n, h, hh⟩
          rw [hx] at this
          cases this
        · simpa using hh
      rw [hxn]
      simp

/-- C4, counterexample: a settings part whose compat block holds
`growAutofit` passes through `_patch_settings` with the flag still
present: `growAutofit` is not in this stripper's denylist, against the
claim that each of the four names is removed when present. -/
theorem claim4_counterexample :
    patch_settings (.doc true exSettingsRoot) = .doc true exSettingsRoot ∧
    (exSettingsRoot.childrenOf).findTag compatTag =
      some (.elem compatTag [] (.cons (.elem gaTag [] .nil) .nil)) ∧
    ((Xml.elem compatTag [] (.cons (.elem gaTag [] .nil) .nil)).childrenOf).countTag gaTag = 1 :=
  ⟨rfl, rfl, rfl⟩

/-- C4, amended: on a compat block holding at most one child per
denylisted name, the fix.py stripper removes exactly its three denylisted
names (`useWord2002TableStyleRules`, `useWord97LineBreakRules`,
`useWord2003FootnoteLineBreakRules`), leaving every other child (in
particular `growAutofit`) untouched and in order; the api variant removes
its own three names (with `growAutofit` in place of
`useWord2003FootnoteLineBreakRules`, which it retains); and the stripper
is a no-op on a root without a compat child. -/
theorem claim4_amended :
    (∀ (ct : String) (ca : List (String × String)) (cc : XmlList),
      (∀ n ∈ settingsBad, cc.countTag n ≤ 1) →
      stripFlags settingsBad (.elem ct ca cc) = .elem ct ca (cc.filterNotTags settingsBad) ∧
      (cc.filterNotTags settingsBad).countTag gaTag = cc.countTag gaTag ∧
      (∀ n ∈ settingsBad, (cc.filterNotTags settingsBad).countTag n = 0)) ∧
    (∀ (ct : String) (ca : List (String × String)) (cc : XmlList),
      (∀ n ∈ apiBad, cc.countTag n ≤ 1) →
      stripFlags apiBad (.elem ct ca cc) = .elem ct ca (cc.filterNotTags apiBad) ∧
      (cc.filterNotTags apiBad).countTag w2003Tag = cc.countTag w2003Tag ∧
      (∀ n ∈ apiBad, (cc.filterNotTags apiBad).countTag n = 0)) ∧
    (∀ r : Xml, (r.childrenOf).findTag compatTag = none → stripRoot settingsBad r = r) := by
  refine ⟨?_, ?_, ?_⟩
  · intro ct ca cc h
    refine ⟨?_, ?_, ?_⟩
    · simp only [stripFlags]
      rw [stripFold_eq_filter settingsBad (by decide) cc h]
    · exact countTag_filterNotTags_other (by decide) cc
    · intro n hn
      exact countTag_filterNotTags_mem hn cc
  · intro ct ca cc h
    refine ⟨?_, ?_, ?_⟩
    · simp only [stripFlags]
      rw [stripFold_eq_filter apiBad (by decide) cc h]
    · exact countTag_filterNotTags_other (by decide) cc
    · intro n hn
      exact countTag_filterNotTags_mem hn cc
  · intro r h
    cases r with
    | text s => rfl
    | elem t a c =>
      simp only [stripRoot]
      have : c.anyTag compatTag = false := by
        rw [anyTag_iff_findTag]
        simp only [Xml.childrenOf] at h
        rw [h]
        rfl
      rw [this]
      simp

/-- C4, witness: the amended statement at a compat block holding one
denylisted flag and one retained flag. -/
theorem claim4_witness :
    stripFlags settingsBad
      (.elem compatTag [] (.cons (.elem w97Tag [] .nil) (.cons (.elem gaTag [] .nil) .nil))) =
      .elem compatTag [] (.cons (.elem gaTag [] .nil) .nil) := by
  have h := (claim4_amended.1 compatTag []
    (.cons (.elem w97Tag [] .nil) (.cons (.elem gaTag [] .nil) .nil)) (by decide)).1
  rw [h]
  rfl

-- ── C7: the table fixer ────────────────────────────────────────────────────

theorem replaceFirstTag_congr {t : String} {f g : Xml → Xml} :
    ∀ {c : XmlList} {x : Xml}, c.findTag t = some x → f x = g x →
      c.replaceFirstTag t f = c.replaceFirstTag t g := by
  intro c
  induction c using XmlList.indOn with
  | nil => intro x h; cases h
  | cons y ys ih =>
    intro x h hfg
    simp only [XmlList.findTag] at h
    simp only [XmlList.replaceFirstTag]
    by_cases hy : y.hasTag t = true
    · rw [if_pos hy] at h
      cases h
      rw [if_pos hy, if_pos hy, hfg]
    · rw [if_neg hy] at h
      rw [if_neg hy, if_neg hy, ih h hfg]

mutual

theorem tblPass_of_noTbl : ∀ x : Xml, noTag tblTag x = true → tblPass x = x
  | .text _ => fun _ => rfl
  | .elem t a c => fun h => by
    simp only [noTag, Bool.and_eq_true] at h
    obtain ⟨ht, hc⟩ := h
    have ht' : (t == tblTag) = false := by
      cases hh : (t == tblTag) with
      | false => rfl
      | true => rw [hh] at ht; cases ht
    simp only [tblPass, tblPassL_of_noTbl c hc, ht']
    simp

theorem tblPassL_of_noTbl : ∀ c : XmlList, noTagL tblTag c = true → tblPassL c = c
  | .nil => fun _ => rfl
  | .cons x xs => fun h => by
    simp only [noTagL, Bool.and_eq_true] at h
    simp only [tblPassL, tblPass_of_noTbl x h.1, tblPassL_of_noTbl xs h.2]

end

/-- C7, counterexample: a table whose `tblPr` holds a `tblW` child and no
`tblCellMar` gains the `tblCellMar` as the LAST child of `tblPr`
(`SubElement` appends), not as its first child as claimed; the first
child stays `tblW`. -/
theorem claim7_counterexample :
    fix_tables exTbl =
      .elem tblTag [] (.cons (.elem tblPrTag []
        (.cons exTblW (.cons mkTblCellMar .nil))) .nil) ∧
    (XmlList.cons exTblW (.cons mkTblCellMar .nil)).headChild = some exTblW ∧
    exTblW.hasTag tblCellMarTag = false :=
  ⟨rfl, rfl, by decide⟩

/-- C7, amended: for every table without nested tables below it, the
fixer inserts a fresh `tblPr` holding the default `tblCellMar` as the
table's first child when no `tblPr` exists; when a `tblPr` exists, that
element keeps its position and, if it lacks a `tblCellMar`, gains one as
its LAST child with the four sides at `w=80`, `type=dxa`; when its first
`tblPr` already holds a `tblCellMar`, the whole table is left byte
identical. -/
theorem claim7_amended :
    ∀ (a : List (String × String)) (c : XmlList),
      noTagL tblTag c = true →
      ((c.findTag tblPrTag = none →
        tblPass (.elem tblTag a c) =
          .elem tblTag a (.cons (.elem tblPrTag [] (.cons mkTblCellMar .nil)) c)) ∧
       (∀ tt ta tc, c.findTag tblPrTag = some (.elem tt ta tc) →
        ((tc.anyTag tblCellMarTag = true → tblPass (.elem tblTag a c) = .elem tblTag a c) ∧
         (tc.anyTag tblCellMarTag = false →
          tblPass (.elem tblTag a c) =
            .elem tblTag a (c.replaceFirstTag tblPrTag
              (fun _ => .elem tt ta (tc.append (.cons mkTblCellMar .nil)))))))) := by
  intro a c hc
  have hpass : tblPassL c = c := tblPassL_of_noTbl c hc
  constructor
  · intro hnone
    have hany : c.anyTag tblPrTag = false := by
      rw [anyTag_iff_findTag, hnone]
      rfl
    have hfix : tblPrFix (Xml.elem tblPrTag [] XmlList.nil) =
        Xml.elem tblPrTag [] (XmlList.cons mkTblCellMar XmlList.nil) := rfl
    simp only [tblPass, hpass, hany]
    simp [hfix]
  · intro tt ta tc hfind
    have hany : c.anyTag tblPrTag = true := by
      rw [anyTag_iff_findTag, hfind]
      rfl
    constructor
    · intro hmar
      simp only [tblPass, hpass, hany]
      simp only [if_pos]
      rw [replaceFirstTag_eq_self hfind]
      · simp
      · simp only [tblPrFix, hmar]
        simp
    · intro hmar
      simp only [tblPass, hpass, hany]
      simp only [if_pos]
      have : c.replaceFirstTag tblPrTag tblPrFix =
          c.replaceFirstTag tblPrTag (fun _ => .elem tt ta (tc.append (.cons mkTblCellMar .nil))) := by
        apply replaceFirstTag_congr hfind
        simp only [tblPrFix, hmar]
        simp
      rw [this]
      simp

/-- C7, witness: a table whose first `tblPr` already holds a
`tblCellMar` passes through unchanged. -/
theorem claim7_witness :
    tblPass (.elem tblTag [] (.cons (.elem tblPrTag [] (.cons mkTblCellMar .nil)) .nil)) =
      .elem tblTag [] (.cons (.elem tblPrTag [] (.cons mkTblCellMar .nil)) .nil) :=
  ((claim7_amended [] (.cons (.elem tblPrTag [] (.cons mkTblCellMar .nil)) .nil)
      (by decide)).2 tblPrTag [] (.cons mkTblCellMar .nil) (by rfl)).1 (by rfl)

-- ── C6: the image fixer ────────────────────────────────────────────────────

theorem imgPass_elem_shape (t : String) (a : List (String × String)) (c : XmlList) :
    ∃ c2, imgPass (.elem t a c) = .elem t a c2 := by
  simp only [imgPass]
  split
  · split
    · exact ⟨_, rfl⟩
    · split
      · exact ⟨_, rfl⟩
      · exact ⟨_, rfl⟩
  · exact ⟨_, rfl⟩

theorem imgPass_hasTag : ∀ (x : Xml) (u : String), (imgPass x).hasTag u = x.hasTag u := by
  intro x u
  cases x with
  | text s => rfl
  | elem t a c =>
    obtain ⟨c2, hc2⟩ := imgPass_elem_shape t a c
    rw [hc2]
    rfl

theorem mkInline_hasTag (anc g : Xml) (u : String) :
    (mkInline anc g).hasTag u = (inlineTag == u) := by
  simp only [mkInline]
  rcases (anc.childrenOf).findTag docPrTag with _ | dp
  · rfl
  · rfl

theorem countTag_imgPassL (u : String) :
    ∀ c : XmlList, (imgPassL c).countTag u = c.countTag u := by
  intro c
  induction c using XmlList.indOn with
  | nil => rfl
  | cons x xs ih =>
    simp only [imgPassL, XmlList.countTag, imgPass_hasTag, ih]

theorem findTag_imgPassL (u : String) :
    ∀ c : XmlList, (imgPassL c).findTag u = (c.findTag u).map imgPass := by
  intro c
  induction c using XmlList.indOn with
  | nil => rfl
  | cons x xs ih =>
    simp only [imgPassL, XmlList.findTag, imgPass_hasTag]
    by_cases hx : x.hasTag u = true
    · rw [if_pos hx, if_pos hx]
      rfl
    · rw [if_neg hx, if_neg hx, ih]

mutual

theorem imgPass_of_noDrawing : ∀ x : Xml, noTag drawingTag x = true → imgPass x = x
  | .text _ => fun _ => rfl
  | .elem t a c => fun h => by
    simp only [noTag, Bool.and_eq_true] at h
    obtain ⟨ht, hc⟩ := h
    have ht' : (t == drawingTag) = false := by
      cases hh : (t == drawingTag) with
      | false => rfl
      | true => rw [hh] at ht; cases ht
    simp only [imgPass, imgPassL_of_noDrawing c hc, ht']
    simp

theorem imgPassL_of_noDrawing : ∀ c : XmlList, noTagL drawingTag c = true → imgPassL c = c
  | .nil => fun _ => rfl
  | .cons x xs => fun h => by
    simp only [noTagL, Bool.and_eq_true] at h
    simp only [imgPassL, imgPass_of_noDrawing x h.1, imgPassL_of_noDrawing xs h.2]

end

theorem lastChild_append_single (g : Xml) :
    ∀ c : XmlList, (c.append (.cons g .nil)).lastChild = some g := by
  intro c
  induction c using XmlList.indOn with
  | nil => rfl
  | cons x xs ih =>
    cases xs with
    | nil => rfl
    | cons y ys =>
      simp only [XmlList.append] at ih ⊢
      simp only [XmlList.lastChild]
      exact ih

theorem headChild_mkInline (anc g : Xml) :
    ((mkInline anc g).childrenOf).headChild =
      some (.elem extentTag
        [("cx", match (anc.childrenOf).findTag extentTag with
                | some e => (getAttr e.attrsOf "cx").getD "3000000"
                | none => "3000000"),
         ("cy", match (anc.childrenOf).findTag extentTag with
                | some e => (getAttr e.attrsOf "cy").getD "2000000"
                | none => "2000000")] .nil) := by
  simp only [mkInline]
  rcases (anc.childrenOf).findTag docPrTag with _ | dp
  · rfl
  · rfl

/-- C6: for every drawing whose single direct anchor child holds a
graphic payload (and that holds no inline child yet), the image fixer
removes the anchor and appends exactly one inline child: the output holds
no direct anchor and exactly one direct inline; the inline ends with the
payload subtree itself (deep equality is equality of trees here), and its
extent child carries the anchor's `cx`/`cy`, with `3000000` by `2000000`
as defaults when `wp:extent` or the attribute is absent.  A drawing whose
anchor holds no graphic payload is not converted, and when the anchor
subtree holds no drawing it is left entirely untouched in place. -/
theorem claim6_image_fixer :
    ∀ (a : List (String × String)) (c : XmlList) (anc : Xml),
      c.findTag anchorTag = some anc →
      c.countTag anchorTag = 1 →
      c.countTag inlineTag = 0 →
      ((∀ g, findDescTag graphicTag anc = some g →
        imgPass (.elem drawingTag a c) =
          .elem drawingTag a (((imgPassL c).removeFirstTag anchorTag).append
            (.cons (mkInline anc g) .nil)) ∧
        (((imgPassL c).removeFirstTag anchorTag).append
          (.cons (mkInline anc g) .nil)).countTag anchorTag = 0 ∧
        (((imgPassL c).removeFirstTag anchorTag).append
          (.cons (mkInline anc g) .nil)).countTag inlineTag = 1 ∧
        ((mkInline anc g).childrenOf).lastChild = some g ∧
        (∀ e, (anc.childrenOf).findTag extentTag = some e →
          ((mkInline anc g).childrenOf).headChild =
            some (.elem extentTag [("cx", (getAttr e.attrsOf "cx").getD "3000000"),
                                   ("cy", (getAttr e.attrsOf "cy").getD "2000000")] .nil)) ∧
        ((anc.childrenOf).findTag extentTag = none →
          ((mkInline anc g).childrenOf).headChild =
            some (.elem extentTag [("cx", "3000000"), ("cy", "2000000")] .nil))) ∧
       (findDescTag graphicTag anc = none →
        imgPass (.elem drawingTag a c) = .elem drawingTag a (imgPassL c) ∧
        (noTag drawingTag anc = true →
          (imgPassL c).findTag anchorTag = some anc))) := by
  intro a c anc hfind hone hzero
  constructor
  · intro g hg
    refine ⟨?_, ?_, ?_, ?_, ?_, ?_⟩
    · simp only [imgPass, hfind, hg]
      simp
    · rw [countTag_append]
      have h1 : ((imgPassL c).removeFirstTag anchorTag).countTag anchorTag = 0 := by
        rw [countTag_removeFirstTag_self, countTag_imgPassL, hone]
      have h2 : (XmlList.cons (mkInline anc g) XmlList.nil).countTag anchorTag = 0 := by
        simp only [XmlList.countTag, mkInline_hasTag]
        rw [show (inlineTag == anchorTag) = false from by decide]
        simp
      rw [h1, h2]
    · rw [countTag_append]
      have h1 : ((imgPassL c).removeFirstTag anchorTag).countTag inlineTag = 0 := by
        rw [countTag_removeFirstTag_other (by decide), countTag_imgPassL, hzero]
      have h2 : (XmlList.cons (mkInline anc g) XmlList.nil).countTag inlineTag = 1 := by
        simp only [XmlList.countTag, mkInline_hasTag]
        rw [show (inlineTag == inlineTag) = true from by decide]
        simp
      rw [h1, h2]
    · simp only [mkInline]
      rcases (anc.childrenOf).findTag docPrTag with _ | dp
      · simp only [Xml.childrenOf]
        exact lastChild_append_single g _
      · simp only [Xml.childrenOf]
        exact lastChild_append_single g _
    · intro e he
      rw [headChild_mkInline, he]
    · intro he
      rw [headChild_mkInline, he]
  · intro hg
    constructor
    · simp only [imgPass, hfind, hg]
      simp
    · intro hsafe
      rw [findTag_imgPassL, hfind]
      simp [imgPass_of_noDrawing anc hsafe]

/-- C6, witness: the conversion at a concrete drawing with extent
`cx=500000`, `cy=400000`, a `docPr` and a graphic payload. -/
theorem claim6_witness :
    imgPass exDrawing =
      .elem drawingTag [] (.cons (mkInline exAnchor exGraphic) .nil) ∧
    ((mkInline exAnchor exGraphic).childrenOf).lastChild = some exGraphic ∧
    ((mkInline exAnchor exGraphic).childrenOf).headChild =
      some (.elem extentTag [("cx", "500000"), ("cy", "400000")] .nil) := by
  have h := claim6_image_fixer [] (.cons exAnchor .nil) exAnchor rfl (by decide) (by decide)
  have h2 := h.1 exGraphic (by rfl)
  refine ⟨?_, h2.2.2.2.1, ?_⟩
  · have := h2.1
    rw [show exDrawing = Xml.elem drawingTag [] (.cons exAnchor .nil) from rfl, this]
    rfl
  · have := h2.2.2.2.2.1 (.elem extentTag [("cx", "500000"), ("cy", "400000")] .nil) (by rfl)
    rw [this]
    rfl

-- ── C9: the paragraph walk with every flag off ─────────────────────────────

theorem replaceFirstTag_idFun {t : String} {f : Xml → Xml} (hf : ∀ x, f x = x) :
    ∀ c : XmlList, c.replaceFirstTag t f = c := by
  intro c
  induction c using XmlList.indOn with
  | nil => rfl
  | cons x xs ih =>
    simp only [XmlList.replaceFirstTag, hf, ih]
    split <;> rfl

theorem paraLocalFix_none : ∀ c : XmlList, paraLocalFix optsNone c =
    (if c.anyTag pPrTag then c else .cons (.elem pPrTag [] .nil) c) := by
  intro c
  simp only [paraLocalFix]
  by_cases h : c.anyTag pPrTag = true
  · rw [if_pos h, if_pos h, @replaceFirstTag_idFun pPrTag (fixPPr optsNone) (fun x => rfl) c]
  · rw [if_neg h, if_neg h]
    rfl

mutual

theorem paraPass_none : ∀ (x : Xml) (inP : Bool), paraPass optsNone inP x = pprInsPass x
  | .text _ => fun _ => rfl
  | .elem t a c => fun inP => by
    have hc : paraPassL optsNone (inP || t == pTag) c = pprInsPassL c :=
      paraPassL_none c (inP || t == pTag)
    simp only [paraPass, pprInsPass, hc, paraLocalFix_none]
    by_cases ht : (t == pTag) = true <;>
      by_cases ha : (pprInsPassL c).anyTag pPrTag = true <;>
        simp [ht, ha, optsNone]

theorem paraPassL_none : ∀ (c : XmlList) (inP : Bool), paraPassL optsNone inP c = pprInsPassL c
  | .nil => fun _ => rfl
  | .cons x xs => fun inP => by
    simp only [paraPassL, pprInsPassL, paraPass_none x inP, paraPassL_none xs inP]

end

theorem paraLocalRaise_none : ∀ c : XmlList, paraLocalRaise optsNone c = false := by
  intro c
  simp only [paraLocalRaise]
  rcases hf : c.findTag pPrTag with _ | pp
  · rfl
  · rfl

mutual

theorem paraRaises_none : ∀ x : Xml, paraRaises optsNone x = false
  | .text _ => rfl
  | .elem t a c => by
    simp only [paraRaises, paraLocalRaise_none, paraRaisesL_none c]
    simp

theorem paraRaisesL_none : ∀ c : XmlList, paraRaisesL optsNone c = false
  | .nil => rfl
  | .cons x xs => by
    simp only [paraRaisesL, paraRaises_none x, paraRaisesL_none xs]
    rfl

end

/-- C9: with every option flag false, `_patch_document` still rewrites
the part: on any tree with a body it inserts an empty `w:pPr` at index 0
of every paragraph lacking one (`pprInsPass`) and re-serializes with the
XML declaration, so the output part is in general not byte identical to
the input, as the concrete conjunct shows. -/
theorem claim9_ppr_insertion :
    (∀ (d : Bool) (r : Xml) (bd : Xml), findDescTag bodyTag r = some bd →
      patch_document (.doc d r) optsNone = .ok (.doc true (rfb pprInsPass r))) ∧
    (patch_document (.doc true exPlainDoc) optsNone =
        .ok (.doc true (rfb pprInsPass exPlainDoc)) ∧
      rfb pprInsPass exPlainDoc ≠ exPlainDoc) := by
  constructor
  · intro d r bd h
    simp only [patch_document, h]
    rw [paraRaises_none bd]
    simp only [Bool.false_eq_true, if_false]
    have hbf : bodyFix optsNone = pprInsPass := by
      funext b
      rw [show bodyFix optsNone b = paraPass optsNone false b from rfl, paraPass_none b false]
    rw [hbf]
  · exact ⟨rfl, by decide⟩

/-- C9, witness: the statement at a concrete document whose paragraph
lacks a `w:pPr`. -/
theorem claim9_witness :
    patch_document (.doc false exPlainDoc) optsNone =
      .ok (.doc true (rfb pprInsPass exPlainDoc)) :=
  claim9_ppr_insertion.1 false exPlainDoc
    (.elem bodyTag [] (.cons (.elem pTag [] (.cons (.elem (tag nsW "r") [] .nil) .nil)) .nil))
    rfl

-- ── C1: entry-set preservation and untouched entries ───────────────────────

theorem zipRead_nodup :
    ∀ {es : List (String × Bytes)}, (es.map Prod.fst).Nodup →
      ∀ {e : String × Bytes}, e ∈ es → zipRead es e.1 = some e.2 := by
  intro es
  induction es with
  | nil =>
    intro _ e he
    cases he
  | cons a as ih =>
    intro hnd e he
    rw [List.map_cons, List.nodup_cons] at hnd
    obtain ⟨hna, hnd'⟩ := hnd
    rcases List.mem_cons.mp he with rfl | hmem
    · have hfil : as.filter (fun x => x.1 == e.1) = [] := by
        rw [List.filter_eq_nil_iff]
        intro x hx
        simp only [beq_iff_eq]
        intro hh
        exact hna (hh ▸ List.mem_map_of_mem Prod.fst hx)
      unfold zipRead
      rw [List.filter_cons_of_pos (by simp), hfil]
      rfl
    · have hne : (a.1 == e.1) = false := by
        simp only [beq_eq_false_iff_ne]
        intro hh
        exact hna (hh ▸ List.mem_map_of_mem Prod.fst hmem)
      unfold zipRead at ih ⊢
      rw [List.filter_cons_of_neg (by simp [hne])]
      exact ih hnd' hmem

theorem patchEntry_untargeted {o : FixOptions} {n : String} {b : Bytes}
    (h1 : (n == "word/document.xml") = false)
    (h2 : (n == "word/settings.xml") = false)
    (h3 : (n == "word/styles.xml") = false) :
    patchEntry o n b = .ok b := by
  unfold patchEntry
  rw [h1, h2, h3]
  simp

/-- C1, counterexample: on a container with a duplicated entry name,
`zin.read(name)` resolves the name to the last entry bearing it, so the
first `a.txt` entry, although its name is not a targeted part, is written
with the second entry's bytes: its content is not byte identical between
input and output. -/
theorem claim1_counterexample :
    fix_docx (.zip [("a.txt", Bytes.raw "x"), ("a.txt", Bytes.raw "y")]) optsAll =
      .ok (.zip [("a.txt", Bytes.raw "y"), ("a.txt", Bytes.raw "y")]) ∧
    Bytes.raw "x" ≠ Bytes.raw "y" :=
  ⟨rfl, by decide⟩

/-- C1, amended: for every container `fix_docx` accepts, the output entry
name list equals the input entry name list position by position (so the
name set is preserved and nothing is lost, duplicated or reordered); and
whenever the entry names are pairwise distinct (the package invariant),
every entry whose name is not one of the three targeted parts is byte
identical between input and output.  With duplicated names, every
duplicate is written with the bytes of the last entry of that name. -/
theorem claim1_amended :
    ∀ (es out : List (String × Bytes)) (o : FixOptions),
      fix_docx (.zip es) o = .ok (.zip out) →
      out.map Prod.fst = es.map Prod.fst ∧
      ((es.map Prod.fst).Nodup →
        ∀ e ∈ es,
          (e.1 == "word/document.xml") = false →
          (e.1 == "word/settings.xml") = false →
          (e.1 == "word/styles.xml") = false →
          e ∈ out ∧ entryOut o es e = e) := by
  intro es out o h
  obtain ⟨hok, hout⟩ := fix_docx_zip_elim h
  have hout' : out = es.map (entryOut o es) := by
    cases hout
    rfl
  constructor
  · rw [hout', List.map_map]
    rfl
  · intro hnd e he h1 h2 h3
    have hread : zipRead es e.1 = some e.2 := zipRead_nodup hnd he
    have hfix : entryOut o es e = e := by
      unfold entryOut
      rw [hread]
      simp only [Option.getD_some]
      rw [patchEntry_untargeted h1 h2 h3]
      rfl
    refine ⟨?_, hfix⟩
    rw [hout']
    have := List.mem_map_of_mem (entryOut o es) he
    rw [hfix] at this
    exact this

/-- C1, witness: the amended statement at a concrete two-entry container
with distinct names, one targeted and one not. -/
theorem claim1_witness :
    ("media/img.png", Bytes.raw "img") ∈
      [("word/styles.xml", Bytes.raw "s"), ("media/img.png", Bytes.raw "img")] ∧
    entryOut optsAll
      [("word/styles.xml", Bytes.raw "s"), ("media/img.png", Bytes.raw "img")]
      ("media/img.png", Bytes.raw "img") = ("media/img.png", Bytes.raw "img") := by
  have h := claim1_amended
    [("word/styles.xml", Bytes.raw "s"), ("media/img.png", Bytes.raw "img")]
    [("word/styles.xml", Bytes.raw "s"), ("media/img.png", Bytes.raw "img")]
    optsAll rfl
  exact h.2 (by decide) ("media/img.png", Bytes.raw "img") (by decide)
    (by decide) (by decide) (by decide)

-- ── C2 groundwork: list and attribute utilities ────────────────────────────

theorem findTag_append_some {t : String} {x : Xml} :
    ∀ {c : XmlList} (d : XmlList), c.findTag t = some x →
      (c.append d).findTag t = some x := by
  intro c
  induction c using XmlList.indOn with
  | nil => intro d h; cases h
  | cons y ys ih =>
    intro d h
    simp only [XmlList.findTag] at h
    simp only [XmlList.append, XmlList.findTag]
    by_cases hy : y.hasTag t = true
    · rw [if_pos hy] at h
      rw [if_pos hy]
      exact h
    · rw [if_neg hy] at h
      rw [if_neg hy]
      exact ih d h

theorem findTag_append_none {t : String} :
    ∀ {c : XmlList} (d : XmlList), c.findTag t = none →
      (c.append d).findTag t = d.findTag t := by
  intro c
  induction c using XmlList.indOn with
  | nil => intro d _; rfl
  | cons y ys ih =>
    intro d h
    simp only [XmlList.findTag] at h
    simp only [XmlList.append, XmlList.findTag]
    by_cases hy : y.hasTag t = true
    · rw [if_pos hy] at h
      cases h
    · rw [if_neg hy] at h
      rw [if_neg hy]
      exact ih d h

theorem anyTag_append (t : String) :
    ∀ c d : XmlList, (c.append d).anyTag t = (c.anyTag t || d.anyTag t) := by
  intro c d
  induction c using XmlList.indOn with
  | nil => rfl
  | cons y ys ih =>
    simp only [XmlList.append, XmlList.anyTag, ih, Bool.or_assoc]

theorem replaceFirstTag_append_right {t : String} {f : Xml → Xml} :
    ∀ {c : XmlList} (d : XmlList), c.findTag t = none →
      (c.append d).replaceFirstTag t f = c.append (d.replaceFirstTag t f) := by
  intro c
  induction c using XmlList.indOn with
  | nil => intro d _; rfl
  | cons y ys ih =>
    intro d h
    simp only [XmlList.findTag] at h
    simp only [XmlList.append, XmlList.replaceFirstTag]
    by_cases hy : y.hasTag t = true
    · rw [if_pos hy] at h
      cases h
    · rw [if_neg hy] at h
      rw [if_neg hy, ih d h]

theorem countTag_zero_findTag {t : String} :
    ∀ {c : XmlList}, c.countTag t = 0 → c.findTag t = none := by
  intro c
  induction c using XmlList.indOn with
  | nil => intro _; rfl
  | cons y ys ih =>
    intro h
    simp only [XmlList.countTag] at h
    simp only [XmlList.findTag]
    by_cases hy : y.hasTag t = true
    · rw [if_pos hy] at h
      omega
    · rw [if_neg hy] at h
      rw [if_neg hy]
      exact ih (by omega)

theorem find_map_set {k v : String} :
    ∀ a : List (String × String), a.any (fun p => p.1 == k) = true →
      ((a.map (fun p => if p.1 == k then (k, v) else p)).find? (fun p => p.1 == k)) =
        some (k, v) := by
  intro a
  induction a with
  | nil => intro h; cases h
  | cons p ps ih =>
    intro h
    simp only [List.any_cons] at h
    simp only [List.map_cons]
    by_cases hp : (p.1 == k) = true
    · rw [if_pos hp]
      rw [List.find?_cons_of_pos _ (by simp)]
    · rw [if_neg hp]
      have hps : ps.any (fun q => q.1 == k) = true := by
        rcases Bool.or_eq_true_iff.mp h with h1 | h2
        · rw [h1] at hp
          exact absurd rfl hp
        · exact h2
      have hp' : (p.1 == k) = false := by simpa using hp
      rw [List.find?_cons_of_neg _ (by simp [hp'])]
      exact ih hps

theorem find_map_set_other {k k' v : String} (hkk : (k' == k) = false) :
    ∀ a : List (String × String),
      ((a.map (fun p => if p.1 == k then (k, v) else p)).find? (fun p => p.1 == k')) =
        a.find? (fun p => p.1 == k') := by
  intro a
  induction a with
  | nil => rfl
  | cons p ps ih =>
    simp only [List.map_cons]
    by_cases hp : (p.1 == k) = true
    · rw [if_pos hp]
      have hp1 : p.1 = k := by simpa using hp
      have h1 : ((k, v).1 == k') = false := by
        simp only [beq_eq_false_iff_ne] at hkk ⊢
        exact fun hh => hkk hh.symm
      have h2 : (p.1 == k') = false := by
        rw [hp1]
        simp only [beq_eq_false_iff_ne] at hkk ⊢
        exact fun hh => hkk hh.symm
      rw [List.find?_cons_of_neg _ (by simp [h1]), List.find?_cons_of_neg _ (by simp [h2])]
      exact ih
    · rw [if_neg hp]
      by_cases hq : (p.1 == k') = true
      · rw [List.find?_cons_of_pos _ (by simp [hq]), List.find?_cons_of_pos _ (by simp [hq])]
      · have hq' : (p.1 == k') = false := by simpa using hq
        rw [List.find?_cons_of_neg _ (by simp [hq']), List.find?_cons_of_neg _ (by simp [hq'])]
        exact ih

theorem getAttr_setAttr_self (a : List (String × String)) (k v : String) :
    getAttr (setAttr a k v) k = some v := by
  unfold setAttr
  by_cases h : a.any (fun p => p.1 == k) = true
  · rw [if_pos h]
    unfold getAttr
    rw [find_map_set a h]
    rfl
  · rw [if_neg h]
    unfold getAttr
    rw [List.find?_append]
    have hnone : a.find? (fun p => p.1 == k) = none := by
      rw [List.find?_eq_none]
      intro p hp
      intro hc
      exact h (List.any_eq_true.mpr ⟨p, hp, hc⟩)
    rw [hnone]
    simp

theorem getAttr_setAttr_other {k k' : String} (hkk : (k' == k) = false)
    (a : List (String × String)) (v : String) :
    getAttr (setAttr a k v) k' = getAttr a k' := by
  unfold setAttr
  by_cases h : a.any (fun p => p.1 == k) = true
  · rw [if_pos h]
    unfold getAttr
    rw [find_map_set_other hkk]
  · rw [if_neg h]
    unfold getAttr
    rw [List.find?_append]
    rcases hf : a.find? (fun p => p.1 == k') with _ | p
    · have hno : ((k, v).1 == k') = false := by
        simp only [beq_eq_false_iff_ne] at hkk ⊢
        exact fun hh => hkk hh.symm
      simp [hf, List.find?, hno]
    · simp [hf]

theorem lookup_mem {α β : Type} [BEq α] [LawfulBEq α] {a : α} {b : β} :
    ∀ {l : List (α × β)}, l.lookup a = some b → (a, b) ∈ l := by
  intro l
  induction l with
  | nil => intro h; cases h
  | cons p ps ih =>
    intro h
    simp only [List.lookup] at h
    by_cases hp : (a == p.1) = true
    · simp only [hp] at h
      cases h
      have hap : a = p.1 := by simpa using hp
      have : (a, p.2) = p := by
        rw [hap]
      rw [this]
      simp
    · have hp' : (a == p.1) = false := by simpa using hp
      simp only [hp'] at h
      exact List.mem_cons.mpr (Or.inr (ih h))

theorem mapSelf {α : Type} {f : α → α} :
    ∀ {l : List α}, (∀ x ∈ l, f x = x) → l.map f = l := by
  intro l
  induction l with
  | nil => intro _; rfl
  | cons a as ih =>
    intro h
    simp only [List.map_cons]
    rw [h a (by simp), ih (fun x hx => h x (by simp [hx]))]

theorem pyReplaceGo_no_occ {pat rep : List Char} :
    ∀ (f : Nat) (s : List Char), occursL pat s = false → pyReplaceGo pat rep f s = s := by
  intro f
  induction f with
  | zero => intro s _; rfl
  | succ f ih =>
    intro s h
    cases s with
    | nil => rfl
    | cons ch t =>
      simp only [occursL, Bool.or_eq_false_iff] at h
      simp only [pyReplaceGo, h.1, Bool.false_and]
      simp only [Bool.false_eq_true, if_false]
      rw [ih t h.2]

theorem string_mk_toList : ∀ s : String, String.mk s.toList = s := by
  intro s
  cases s
  rfl

theorem pyReplace_no_occ {pat rep s : String}
    (h : occursL pat.toList s.toList = false) : pyReplace pat rep s = s := by
  unfold pyReplace
  rw [pyReplaceGo_no_occ _ _ h, string_mk_toList]

theorem strNoPats_id {s : String} (h : strNoPats s = true) : patch_styles_str s = s := by
  unfold strNoPats at h
  simp only [Bool.and_eq_true, Bool.not_eq_true'] at h
  unfold patch_styles_str stylesPairs
  simp only [List.foldl_cons, List.foldl_nil]
  rw [pyReplace_no_occ h.1, pyReplace_no_occ h.2]

-- ── C2 groundwork: attribute-level saturation of the fixers ────────────────

theorem clampAttr_eq_none {a : List (String × String)} {k : String} {m : Nat}
    (hv : getAttr a (tag nsW k) = none) : clampAttr a k m = a := by
  unfold clampAttr
  rw [hv]

theorem clampAttr_eq_pos {a : List (String × String)} {k : String} {m : Nat} {v : String}
    (hv : getAttr a (tag nsW k) = some v)
    (hc : (numOk v && decide ((m : Int) < pyInt v)) = true) :
    clampAttr a k m = setAttr a (tag nsW k) (toString m) := by
  unfold clampAttr
  rw [hv]
  simp [hc]

theorem clampAttr_eq_neg {a : List (String × String)} {k : String} {m : Nat} {v : String}
    (hv : getAttr a (tag nsW k) = some v)
    (hc : (numOk v && decide ((m : Int) < pyInt v)) = false) :
    clampAttr a k m = a := by
  unfold clampAttr
  rw [hv]
  simp [hc]

theorem clampAttr_id {a : List (String × String)} {k : String} {m : Nat}
    (h : ∀ w, getAttr a (tag nsW k) = some w →
      (numOk w && decide ((m : Int) < pyInt w)) = false) :
    clampAttr a k m = a := by
  rcases hv : getAttr a (tag nsW k) with _ | v
  · exact clampAttr_eq_none hv
  · exact clampAttr_eq_neg hv (h v hv)

theorem clampAttr_shape (a : List (String × String)) (k : String) (m : Nat) :
    clampAttr a k m = a ∨
    clampAttr a k m = setAttr a (tag nsW k) (toString m) := by
  rcases hv : getAttr a (tag nsW k) with _ | v
  · exact Or.inl (clampAttr_eq_none hv)
  · cases hc : (numOk v && decide ((m : Int) < pyInt v)) with
    | true => exact Or.inr (clampAttr_eq_pos hv hc)
    | false => exact Or.inl (clampAttr_eq_neg hv hc)

theorem getAttr_clampAttr_other {u : String} {a : List (String × String)}
    {k : String} {m : Nat} (h : (u == tag nsW k) = false) :
    getAttr (clampAttr a k m) u = getAttr a u := by
  rcases clampAttr_shape a k m with hs | hs
  · rw [hs]
  · rw [hs, getAttr_setAttr_other h]

theorem clampAttr_post {a : List (String × String)} {k : String} {m : Nat}
    (hm : (numOk (toString m) && decide ((m : Int) < pyInt (toString m))) = false) :
    ∀ w, getAttr (clampAttr a k m) (tag nsW k) = some w →
      (numOk w && decide ((m : Int) < pyInt w)) = false := by
  intro w hw
  rcases hv : getAttr a (tag nsW k) with _ | v
  · rw [clampAttr_eq_none hv, hv] at hw
    exact Option.noConfusion hw
  · cases hc : (numOk v && decide ((m : Int) < pyInt v)) with
    | true =>
      rw [clampAttr_eq_pos hv hc, getAttr_setAttr_self] at hw
      cases hw
      exact hm
    | false =>
      rw [clampAttr_eq_neg hv hc, hv] at hw
      cases hw
      exact hc

theorem clampAttr_post_noraise {a : List (String × String)} {k : String} {m : Nat}
    (hmr : numRaise (toString m) = false)
    (h : ∀ v, getAttr a (tag nsW k) = some v → numRaise v = false) :
    ∀ w, getAttr (clampAttr a k m) (tag nsW k) = some w → numRaise w = false := by
  intro w hw
  rcases hv : getAttr a (tag nsW k) with _ | v
  · rw [clampAttr_eq_none hv, hv] at hw
    exact Option.noConfusion hw
  · cases hc : (numOk v && decide ((m : Int) < pyInt v)) with
    | true =>
      rw [clampAttr_eq_pos hv hc, getAttr_setAttr_self] at hw
      cases hw
      exact hmr
    | false =>
      rw [clampAttr_eq_neg hv hc, hv] at hw
      cases hw
      exact h _ hv

theorem clampRaise_elim {a : List (String × String)} {k : String}
    (h : clampRaise a k = false) :
    ∀ v, getAttr a (tag nsW k) = some v → numRaise v = false := by
  intro v hv
  unfold clampRaise at h
  rw [hv] at h
  exact h

theorem clampRaise_false_of {b : List (String × String)} {k : String}
    (h : ∀ w, getAttr b (tag nsW k) = some w → numRaise w = false) :
    clampRaise b k = false := by
  unfold clampRaise
  rcases hv : getAttr b (tag nsW k) with _ | v
  · rfl
  · exact h v hv

-- ── Branch equations of the spacing rewriting ──────────────────────────────

theorem spacingAttrFix_eq_base {a : List (String × String)}
    (hl : getAttr (clampAttr (clampAttr a "before" 160) "after" 160) (tag nsW "line") = none) :
    spacingAttrFix a = clampAttr (clampAttr a "before" 160) "after" 160 := by
  simp only [spacingAttrFix]
  rw [hl]

theorem spacingAttrFix_eq_notnum {a : List (String × String)} {lv : String}
    (hl : getAttr (clampAttr (clampAttr a "before" 160) "after" 160) (tag nsW "line") = some lv)
    (hn : numOk lv = false) :
    spacingAttrFix a = clampAttr (clampAttr a "before" 160) "after" 160 := by
  simp only [spacingAttrFix]
  rw [hl]
  simp [hn]

theorem spacingAttrFix_eq_c1 {a : List (String × String)} {lv : String}
    (hl : getAttr (clampAttr (clampAttr a "before" 160) "after" 160) (tag nsW "line") = some lv)
    (hn : numOk lv = true)
    (hc1 : ((getAttr (clampAttr (clampAttr a "before" 160) "after" 160) (tag nsW "lineRule") == some "exact" ||
       getAttr (clampAttr (clampAttr a "before" 160) "after" 160) (tag nsW "lineRule") == some "atLeast") &&
       decide ((480 : Int) < pyInt lv)) = true) :
    spacingAttrFix a = setAttr (setAttr (clampAttr (clampAttr a "before" 160) "after" 160)
      (tag nsW "line") "276") (tag nsW "lineRule") "auto" := by
  simp only [spacingAttrFix]
  rw [hl]
  simp [hn, hc1]

theorem spacingAttrFix_eq_c2 {a : List (String × String)} {lv : String}
    (hl : getAttr (clampAttr (clampAttr a "before" 160) "after" 160) (tag nsW "line") = some lv)
    (hn : numOk lv = true)
    (hc1 : ((getAttr (clampAttr (clampAttr a "before" 160) "after" 160) (tag nsW "lineRule") == some "exact" ||
       getAttr (clampAttr (clampAttr a "before" 160) "after" 160) (tag nsW "lineRule") == some "atLeast") &&
       decide ((480 : Int) < pyInt lv)) = false)
    (hc2 : ((getAttr (clampAttr (clampAttr a "before" 160) "after" 160) (tag nsW "lineRule") == some "auto") &&
       decide ((720 : Int) < pyInt lv)) = true) :
    spacingAttrFix a = setAttr (clampAttr (clampAttr a "before" 160) "after" 160)
      (tag nsW "line") "480" := by
  simp only [spacingAttrFix]
  rw [hl]
  simp [hn, hc1, hc2]

theorem spacingAttrFix_eq_else {a : List (String × String)} {lv : String}
    (hl : getAttr (clampAttr (clampAttr a "before" 160) "after" 160) (tag nsW "line") = some lv)
    (hn : numOk lv = true)
    (hc1 : ((getAttr (clampAttr (clampAttr a "before" 160) "after" 160) (tag nsW "lineRule") == some "exact" ||
       getAttr (clampAttr (clampAttr a "before" 160) "after" 160) (tag nsW "lineRule") == some "atLeast") &&
       decide ((480 : Int) < pyInt lv)) = false)
    (hc2 : ((getAttr (clampAttr (clampAttr a "before" 160) "after" 160) (tag nsW "lineRule") == some "auto") &&
       decide ((720 : Int) < pyInt lv)) = false) :
    spacingAttrFix a = clampAttr (clampAttr a "before" 160) "after" 160 := by
  simp only [spacingAttrFix]
  rw [hl]
  simp [hn, hc1, hc2]

theorem spacingAttrFix_id {b : List (String × String)}
    (h1 : clampAttr b "before" 160 = b)
    (h2 : clampAttr b "after" 160 = b)
    (h3 : ∀ lv, getAttr b (tag nsW "line") = some lv → numOk lv = true →
      (((getAttr b (tag nsW "lineRule") == some "exact" ||
         getAttr b (tag nsW "lineRule") == some "atLeast")) &&
         decide ((480 : Int) < pyInt lv)) = false ∧
      ((getAttr b (tag nsW "lineRule") == some "auto") &&
         decide ((720 : Int) < pyInt lv)) = false) :
    spacingAttrFix b = b := by
  have hA : clampAttr (clampAttr b "before" 160) "after" 160 = b := by rw [h1, h2]
  rcases hl : getAttr b (tag nsW "line") with _ | lv
  · have h0 : getAttr (clampAttr (clampAttr b "before" 160) "after" 160) (tag nsW "line") = none := by
      rw [hA]
      exact hl
    rw [spacingAttrFix_eq_base h0, hA]
  · have h0 : getAttr (clampAttr (clampAttr b "before" 160) "after" 160) (tag nsW "line") = some lv := by
      rw [hA]
      exact hl
    cases hn : numOk lv with
    | false => rw [spacingAttrFix_eq_notnum h0 hn, hA]
    | true =>
      obtain ⟨hc1, hc2⟩ := h3 lv hl hn
      have hc1A : ((getAttr (clampAttr (clampAttr b "before" 160) "after" 160) (tag nsW "lineRule") == some "exact" ||
          getAttr (clampAttr (clampAttr b "before" 160) "after" 160) (tag nsW "lineRule") == some "atLeast") &&
          decide ((480 : Int) < pyInt lv)) = false := by
        rw [hA]
        exact hc1
      have hc2A : ((getAttr (clampAttr (clampAttr b "before" 160) "after" 160) (tag nsW "lineRule") == some "auto") &&
          decide ((720 : Int) < pyInt lv)) = false := by
        rw [hA]
        exact hc2
      rw [spacingAttrFix_eq_else h0 hn hc1A hc2A, hA]

theorem spacingAttrFix_shape (a : List (String × String)) :
    (spacingAttrFix a = clampAttr (clampAttr a "before" 160) "after" 160 ∧
      (getAttr (clampAttr (clampAttr a "before" 160) "after" 160) (tag nsW "line") = none ∨
       (∃ lv, getAttr (clampAttr (clampAttr a "before" 160) "after" 160) (tag nsW "line") = some lv ∧
         numOk lv = false) ∨
       (∃ lv, getAttr (clampAttr (clampAttr a "before" 160) "after" 160) (tag nsW "line") = some lv ∧
         numOk lv = true ∧
         ((getAttr (clampAttr (clampAttr a "before" 160) "after" 160) (tag nsW "lineRule") == some "exact" ||
           getAttr (clampAttr (clampAttr a "before" 160) "after" 160) (tag nsW "lineRule") == some "atLeast") &&
           decide ((480 : Int) < pyInt lv)) = false ∧
         ((getAttr (clampAttr (clampAttr a "before" 160) "after" 160) (tag nsW "lineRule") == some "auto") &&
           decide ((720 : Int) < pyInt lv)) = false))) ∨
    (∃ lv, getAttr (clampAttr (clampAttr a "before" 160) "after" 160) (tag nsW "line") = some lv ∧
      numOk lv = true ∧
      spacingAttrFix a = setAttr (setAttr (clampAttr (clampAttr a "before" 160) "after" 160)
        (tag nsW "line") "276") (tag nsW "lineRule") "auto") ∨
    (∃ lv, getAttr (clampAttr (clampAttr a "before" 160) "after" 160) (tag nsW "line") = some lv ∧
      numOk lv = true ∧
      getAttr (clampAttr (clampAttr a "before" 160) "after" 160) (tag nsW "lineRule") = some "auto" ∧
      spacingAttrFix a = setAttr (clampAttr (clampAttr a "before" 160) "after" 160)
        (tag nsW "line") "480") := by
  rcases hl : getAttr (clampAttr (clampAttr a "before" 160) "after" 160) (tag nsW "line")
    with _ | lv
  · exact Or.inl ⟨spacingAttrFix_eq_base hl, Or.inl rfl⟩
  · cases hn : numOk lv with
    | false => exact Or.inl ⟨spacingAttrFix_eq_notnum hl hn, Or.inr (Or.inl ⟨lv, rfl, hn⟩)⟩
    | true =>
      cases hc1 : ((getAttr (clampAttr (clampAttr a "before" 160) "after" 160) (tag nsW "lineRule") == some "exact" ||
          getAttr (clampAttr (clampAttr a "before" 160) "after" 160) (tag nsW "lineRule") == some "atLeast") &&
          decide ((480 : Int) < pyInt lv)) with
      | true => exact Or.inr (Or.inl ⟨lv, rfl, hn, spacingAttrFix_eq_c1 hl hn hc1⟩)
      | false =>
        cases hc2 : ((getAttr (clampAttr (clampAttr a "before" 160) "after" 160) (tag nsW "lineRule") == some "auto") &&
            decide ((720 : Int) < pyInt lv)) with
        | true =>
          have hrule : getAttr (clampAttr (clampAttr a "before" 160) "after" 160) (tag nsW "lineRule") = some "auto" := by
            have h1 := (Bool.and_eq_true_iff.mp hc2).1
            simpa using h1
          exact Or.inr (Or.inr ⟨lv, rfl, hn, hrule, spacingAttrFix_eq_c2 hl hn hc1 hc2⟩)
        | false =>
          exact Or.inl ⟨spacingAttrFix_eq_else hl hn hc1 hc2, Or.inr (Or.inr ⟨lv, rfl, hn, hc1, hc2⟩)⟩

theorem spacingAttrFix_idem (a : List (String × String)) :
    spacingAttrFix (spacingAttrFix a) = spacingAttrFix a := by
  have dba : ((tag nsW "before") == (tag nsW "after")) = false := by decide
  have dbl : ((tag nsW "before") == (tag nsW "line")) = false := by decide
  have dbr : ((tag nsW "before") == (tag nsW "lineRule")) = false := by decide
  have dal : ((tag nsW "after") == (tag nsW "line")) = false := by decide
  have dar : ((tag nsW "after") == (tag nsW "lineRule")) = false := by decide
  have dlr : ((tag nsW "line") == (tag nsW "lineRule")) = false := by decide
  have drl : ((tag nsW "lineRule") == (tag nsW "line")) = false := by decide
  have hm : (numOk (toString (160 : Nat)) &&
      decide (((160 : Nat) : Int) < pyInt (toString (160 : Nat)))) = false := by decide
  have PB : ∀ w, getAttr (clampAttr (clampAttr a "before" 160) "after" 160) (tag nsW "before") = some w →
      (numOk w && decide ((160 : Int) < pyInt w)) = false := by
    intro w hw
    rw [getAttr_clampAttr_other dba] at hw
    exact clampAttr_post hm w hw
  have PA : ∀ w, getAttr (clampAttr (clampAttr a "before" 160) "after" 160) (tag nsW "after") = some w →
      (numOk w && decide ((160 : Int) < pyInt w)) = false :=
    fun w hw => clampAttr_post hm w hw
  rcases spacingAttrFix_shape a with ⟨hfix, hconds⟩ | ⟨lv, hl, hn, hfix⟩ | ⟨lv, hl, hn, hrule, hfix⟩
  · rw [hfix]
    apply spacingAttrFix_id (clampAttr_id PB) (clampAttr_id PA)
    intro lv2 hlv hnum
    rcases hconds with h0 | ⟨lv3, hl3, hn3⟩ | ⟨lv3, hl3, hn3, hc1, hc2⟩
    · rw [h0] at hlv
      exact Option.noConfusion hlv
    · rw [hl3] at hlv
      cases hlv
      rw [hnum] at hn3
      exact Bool.noConfusion hn3
    · rw [hl3] at hlv
      cases hlv
      exact ⟨hc1, hc2⟩
  · rw [hfix]
    apply spacingAttrFix_id
    · apply clampAttr_id
      intro w hw
      rw [getAttr_setAttr_other dbr, getAttr_setAttr_other dbl] at hw
      exact PB w hw
    · apply clampAttr_id
      intro w hw
      rw [getAttr_setAttr_other dar, getAttr_setAttr_other dal] at hw
      exact PA w hw
    · intro lv2 hlv hnum
      rw [getAttr_setAttr_other dlr, getAttr_setAttr_self] at hlv
      cases hlv
      rw [getAttr_setAttr_self]
      constructor
      · decide
      · decide
  · rw [hfix]
    apply spacingAttrFix_id
    · apply clampAttr_id
      intro w hw
      rw [getAttr_setAttr_other dbl] at hw
      exact PB w hw
    · apply clampAttr_id
      intro w hw
      rw [getAttr_setAttr_other dal] at hw
      exact PA w hw
    · intro lv2 hlv hnum
      rw [getAttr_setAttr_self] at hlv
      cases hlv
      rw [getAttr_setAttr_other drl, hrule]
      constructor
      · decide
      · decide

theorem spacingRaise_after {a : List (String × String)}
    (hr : spacingAttrRaise a = false) :
    spacingAttrRaise (spacingAttrFix a) = false := by
  have dba : ((tag nsW "before") == (tag nsW "after")) = false := by decide
  have dab : ((tag nsW "after") == (tag nsW "before")) = false := by decide
  have dbl : ((tag nsW "before") == (tag nsW "line")) = false := by decide
  have dbr : ((tag nsW "before") == (tag nsW "lineRule")) = false := by decide
  have dal : ((tag nsW "after") == (tag nsW "line")) = false := by decide
  have dar : ((tag nsW "after") == (tag nsW "lineRule")) = false := by decide
  have dlr : ((tag nsW "line") == (tag nsW "lineRule")) = false := by decide
  have drl : ((tag nsW "lineRule") == (tag nsW "line")) = false := by decide
  have dla : ((tag nsW "line") == (tag nsW "after")) = false := by decide
  have dlb : ((tag nsW "line") == (tag nsW "before")) = false := by decide
  have dra : ((tag nsW "lineRule") == (tag nsW "after")) = false := by decide
  have drb : ((tag nsW "lineRule") == (tag nsW "before")) = false := by decide
  simp only [spacingAttrRaise, Bool.or_eq_false_iff] at hr
  obtain ⟨⟨hrB, hrA⟩, hrL⟩ := hr
  have n160 : numRaise (toString (160 : Nat)) = false := by decide
  have NB2 : ∀ w, getAttr (clampAttr (clampAttr a "before" 160) "after" 160) (tag nsW "before") = some w →
      numRaise w = false := by
    intro w hw
    rw [getAttr_clampAttr_other dba] at hw
    exact clampAttr_post_noraise n160 (clampRaise_elim hrB) w hw
  have NA2 : ∀ w, getAttr (clampAttr (clampAttr a "before" 160) "after" 160) (tag nsW "after") = some w →
      numRaise w = false := by
    intro w hw
    refine clampAttr_post_noraise n160 ?_ w hw
    intro v hv
    rw [getAttr_clampAttr_other dab] at hv
    exact clampRaise_elim hrA v hv
  have t1 : getAttr (clampAttr (clampAttr a "before" 160) "after" 160) (tag nsW "line") =
      getAttr a (tag nsW "line") := by
    rw [getAttr_clampAttr_other dla, getAttr_clampAttr_other dlb]
  have t2 : getAttr (clampAttr (clampAttr a "before" 160) "after" 160) (tag nsW "lineRule") =
      getAttr a (tag nsW "lineRule") := by
    rw [getAttr_clampAttr_other dra, getAttr_clampAttr_other drb]
  rcases spacingAttrFix_shape a with ⟨hfix, hcond⟩ | ⟨lv, hl, hn, hfix⟩ | ⟨lv, hl, hn, hrule, hfix⟩
  · rw [hfix]
    simp only [spacingAttrRaise, Bool.or_eq_false_iff]
    refine ⟨⟨clampRaise_false_of NB2, clampRaise_false_of NA2⟩, ?_⟩
    simp only [t1, t2]
    exact hrL
  · rw [hfix]
    simp only [spacingAttrRaise, Bool.or_eq_false_iff]
    refine ⟨⟨?_, ?_⟩, ?_⟩
    · apply clampRaise_false_of
      intro w hw
      rw [getAttr_setAttr_other dbr, getAttr_setAttr_other dbl] at hw
      exact NB2 w hw
    · apply clampRaise_false_of
      intro w hw
      rw [getAttr_setAttr_other dar, getAttr_setAttr_other dal] at hw
      exact NA2 w hw
    · have hline : getAttr (setAttr (setAttr (clampAttr (clampAttr a "before" 160) "after" 160)
          (tag nsW "line") "276") (tag nsW "lineRule") "auto") (tag nsW "line") = some "276" := by
        rw [getAttr_setAttr_other dlr, getAttr_setAttr_self]
      have hruleR : getAttr (setAttr (setAttr (clampAttr (clampAttr a "before" 160) "after" 160)
          (tag nsW "line") "276") (tag nsW "lineRule") "auto") (tag nsW "lineRule") = some "auto" :=
        getAttr_setAttr_self _ _ _
      simp only [hline, hruleR]
      decide
  · rw [hfix]
    simp only [spacingAttrRaise, Bool.or_eq_false_iff]
    refine ⟨⟨?_, ?_⟩, ?_⟩
    · apply clampRaise_false_of
      intro w hw
      rw [getAttr_setAttr_other dbl] at hw
      exact NB2 w hw
    · apply clampRaise_false_of
      intro w hw
      rw [getAttr_setAttr_other dal] at hw
      exact NA2 w hw
    · have hline : getAttr (setAttr (clampAttr (clampAttr a "before" 160) "after" 160)
          (tag nsW "line") "480") (tag nsW "line") = some "480" :=
        getAttr_setAttr_self _ _ _
      have hruleR : getAttr (setAttr (clampAttr (clampAttr a "before" 160) "after" 160)
          (tag nsW "line") "480") (tag nsW "lineRule") = some "auto" := by
        rw [getAttr_setAttr_other drl]
        exact hrule
      simp only [hline, hruleR]
      decide

-- ── Branch equations of the indentation rewriting ──────────────────────────

theorem clampAbs_eq_none {a : List (String × String)} {k : String}
    (hv : getAttr a (tag nsW k) = none) : clampAbsAttr a k = a := by
  unfold clampAbsAttr
  rw [hv]

theorem clampAbs_eq_pos {a : List (String × String)} {k : String} {v : String}
    (hv : getAttr a (tag nsW k) = some v)
    (hc : (numOk v && decide (2880 < (pyInt v).natAbs)) = true) :
    clampAbsAttr a k = setAttr a (tag nsW k) "0" := by
  unfold clampAbsAttr
  rw [hv]
  simp [hc]

theorem clampAbs_eq_neg {a : List (String × String)} {k : String} {v : String}
    (hv : getAttr a (tag nsW k) = some v)
    (hc : (numOk v && decide (2880 < (pyInt v).natAbs)) = false) :
    clampAbsAttr a k = a := by
  unfold clampAbsAttr
  rw [hv]
  simp [hc]

theorem clampAbsAttr_id {a : List (String × String)} {k : String}
    (h : ∀ w, getAttr a (tag nsW k) = some w →
      (numOk w && decide (2880 < (pyInt w).natAbs)) = false) :
    clampAbsAttr a k = a := by
  rcases hv : getAttr a (tag nsW k) with _ | v
  · exact clampAbs_eq_none hv
  · exact clampAbs_eq_neg hv (h v hv)

theorem clampAbsAttr_shape (a : List (String × String)) (k : String) :
    clampAbsAttr a k = a ∨ clampAbsAttr a k = setAttr a (tag nsW k) "0" := by
  rcases hv : getAttr a (tag nsW k) with _ | v
  · exact Or.inl (clampAbs_eq_none hv)
  · cases hc : (numOk v && decide (2880 < (pyInt v).natAbs)) with
    | true => exact Or.inr (clampAbs_eq_pos hv hc)
    | false => exact Or.inl (clampAbs_eq_neg hv hc)

theorem getAttr_clampAbsAttr_other {u : String} {a : List (String × String)}
    {k : String} (h : (u == tag nsW k) = false) :
    getAttr (clampAbsAttr a k) u = getAttr a u := by
  rcases clampAbsAttr_shape a k with hs | hs
  · rw [hs]
  · rw [hs, getAttr_setAttr_other h]

theorem clampAbsAttr_post {a : List (String × String)} {k : String} :
    ∀ w, getAttr (clampAbsAttr a k) (tag nsW k) = some w →
      (numOk w && decide (2880 < (pyInt w).natAbs)) = false := by
  intro w hw
  rcases hv : getAttr a (tag nsW k) with _ | v
  · rw [clampAbs_eq_none hv, hv] at hw
    exact Option.noConfusion hw
  · cases hc : (numOk v && decide (2880 < (pyInt v).natAbs)) with
    | true =>
      rw [clampAbs_eq_pos hv hc, getAttr_setAttr_self] at hw
      cases hw
      decide
    | false =>
      rw [clampAbs_eq_neg hv hc, hv] at hw
      cases hw
      exact hc

theorem clampAbsAttr_post_noraise {a : List (String × String)} {k : String}
    (h : ∀ v, getAttr a (tag nsW k) = some v → numRaise v = false) :
    ∀ w, getAttr (clampAbsAttr a k) (tag nsW k) = some w → numRaise w = false := by
  intro w hw
  rcases hv : getAttr a (tag nsW k) with _ | v
  · rw [clampAbs_eq_none hv, hv] at hw
    exact Option.noConfusion hw
  · cases hc : (numOk v && decide (2880 < (pyInt v).natAbs)) with
    | true =>
      rw [clampAbs_eq_pos hv hc, getAttr_setAttr_self] at hw
      cases hw
      decide
    | false =>
      rw [clampAbs_eq_neg hv hc, hv] at hw
      cases hw
      exact h _ hv

theorem indAttrFix_idem (a : List (String × String)) :
    indAttrFix (indAttrFix a) = indAttrFix a := by
  have dlh : ((tag nsW "left") == (tag nsW "hanging")) = false := by decide
  have dlr : ((tag nsW "left") == (tag nsW "right")) = false := by decide
  have drh : ((tag nsW "right") == (tag nsW "hanging")) = false := by decide
  have PL : ∀ w, getAttr (clampAbsAttr (clampAbsAttr (clampAbsAttr a "left") "right") "hanging")
      (tag nsW "left") = some w → (numOk w && decide (2880 < (pyInt w).natAbs)) = false := by
    intro w hw
    rw [getAttr_clampAbsAttr_other dlh, getAttr_clampAbsAttr_other dlr] at hw
    exact clampAbsAttr_post w hw
  have PR : ∀ w, getAttr (clampAbsAttr (clampAbsAttr (clampAbsAttr a "left") "right") "hanging")
      (tag nsW "right") = some w → (numOk w && decide (2880 < (pyInt w).natAbs)) = false := by
    intro w hw
    rw [getAttr_clampAbsAttr_other drh] at hw
    exact clampAbsAttr_post w hw
  have PH : ∀ w, getAttr (clampAbsAttr (clampAbsAttr (clampAbsAttr a "left") "right") "hanging")
      (tag nsW "hanging") = some w → (numOk w && decide (2880 < (pyInt w).natAbs)) = false := by
    intro w hw
    exact clampAbsAttr_post w hw
  show indAttrFix (indAttrFix a) = indAttrFix a
  conv_lhs => rw [indAttrFix]
  unfold indAttrFix
  rw [clampAbsAttr_id PL, clampAbsAttr_id PR, clampAbsAttr_id PH]

theorem indRaise_after {a : List (String × String)}
    (hr : indAttrRaise a = false) :
    indAttrRaise (indAttrFix a) = false := by
  have dlh : ((tag nsW "left") == (tag nsW "hanging")) = false := by decide
  have dlr : ((tag nsW "left") == (tag nsW "right")) = false := by decide
  have drh : ((tag nsW "right") == (tag nsW "hanging")) = false := by decide
  have drl : ((tag nsW "right") == (tag nsW "left")) = false := by decide
  have dhr : ((tag nsW "hanging") == (tag nsW "right")) = false := by decide
  have dhl : ((tag nsW "hanging") == (tag nsW "left")) = false := by decide
  simp only [indAttrRaise, Bool.or_eq_false_iff] at hr
  obtain ⟨⟨hL, hR⟩, hH⟩ := hr
  have NL : ∀ w, getAttr (clampAbsAttr (clampAbsAttr (clampAbsAttr a "left") "right") "hanging")
      (tag nsW "left") = some w → numRaise w = false := by
    intro w hw
    rw [getAttr_clampAbsAttr_other dlh, getAttr_clampAbsAttr_other dlr] at hw
    exact clampAbsAttr_post_noraise (clampRaise_elim hL) w hw
  have NR : ∀ w, getAttr (clampAbsAttr (clampAbsAttr (clampAbsAttr a "left") "right") "hanging")
      (tag nsW "right") = some w → numRaise w = false := by
    intro w hw
    rw [getAttr_clampAbsAttr_other drh] at hw
    refine clampAbsAttr_post_noraise ?_ w hw
    intro v hv
    rw [getAttr_clampAbsAttr_other drl] at hv
    exact clampRaise_elim hR v hv
  have NH : ∀ w, getAttr (clampAbsAttr (clampAbsAttr (clampAbsAttr a "left") "right") "hanging")
      (tag nsW "hanging") = some w → numRaise w = false := by
    intro w hw
    refine clampAbsAttr_post_noraise ?_ w hw
    intro v hv
    rw [getAttr_clampAbsAttr_other dhr, getAttr_clampAbsAttr_other dhl] at hv
    exact clampRaise_elim hH v hv
  simp only [indAttrRaise, indAttrFix, Bool.or_eq_false_iff]
  exact ⟨⟨clampRaise_false_of NL, clampRaise_false_of NR⟩, clampRaise_false_of NH⟩

-- ── Saturation of the font substitution ────────────────────────────────────

theorem fontSubst_lookup_none {v nv : String}
    (h : fontSubst.lookup v = some nv) : fontSubst.lookup nv = none := by
  have hm : (v, nv) ∈ fontSubst := lookup_mem h
  simp only [fontSubst, List.mem_cons, List.not_mem_nil, or_false, Prod.mk.injEq] at hm
  rcases hm with ⟨h1, h2⟩ | ⟨h1, h2⟩ | ⟨h1, h2⟩ | ⟨h1, h2⟩ | ⟨h1, h2⟩ | ⟨h1, h2⟩ | ⟨h1, h2⟩ <;>
    subst h2 <;> decide

theorem substFontAttrs_idem (a : List (String × String)) :
    substFontAttrs (substFontAttrs a) = substFontAttrs a := by
  induction a with
  | nil => rfl
  | cons p t ih =>
    simp only [substFontAttrs, List.map_cons] at ih ⊢
    rw [ih]
    rcases hp : fontSubst.lookup p.2 with _ | nv
    · simp [hp]
    · simp [hp, fontSubst_lookup_none hp]

-- ── Element-level trivia for the local fixers ──────────────────────────────

theorem beqF_symm {x y : String} (h : (x == y) = false) : (y == x) = false := by
  simp only [beq_eq_false_iff_ne] at h ⊢
  exact fun hh => h hh.symm

theorem hasTag_of_other {x : Xml} {u t : String} (hx : x.hasTag u = true)
    (htu : (t == u) = false) : x.hasTag t = false := by
  cases x with
  | text s => rfl
  | elem tg a c =>
    simp only [Xml.hasTag] at hx ⊢
    have : tg = u := by simpa using hx
    subst this
    exact beqF_symm htu

theorem fixSpacingEl_hasTag (x : Xml) (u : String) :
    (fixSpacingEl x).hasTag u = x.hasTag u := by
  cases x <;> rfl

theorem fixIndEl_hasTag (x : Xml) (u : String) :
    (fixIndEl x).hasTag u = x.hasTag u := by
  cases x <;> rfl

theorem fixRFontsEl_hasTag (x : Xml) (u : String) :
    (fixRFontsEl x).hasTag u = x.hasTag u := by
  cases x <;> rfl

theorem findTag_replaceFirstTag_other {t u : String} {f : Xml → Xml}
    (htu : (t == u) = false) (hf : ∀ x, (f x).hasTag t = x.hasTag t) :
    ∀ c : XmlList, (c.replaceFirstTag u f).findTag t = c.findTag t := by
  intro c
  induction c using XmlList.indOn with
  | nil => rfl
  | cons y ys ih =>
    simp only [XmlList.replaceFirstTag]
    by_cases hy : y.hasTag u = true
    · rw [if_pos hy]
      have hyt : y.hasTag t = false := hasTag_of_other hy htu
      simp only [XmlList.findTag, hf, hyt]
      rfl
    · rw [if_neg hy]
      simp only [XmlList.findTag]
      by_cases hyt : y.hasTag t = true
      · rw [if_pos hyt, if_pos hyt]
      · rw [if_neg hyt, if_neg hyt, ih]

theorem fix_paragraph_spacing_hasTag (x : Xml) (u : String) :
    (fix_paragraph_spacing x).hasTag u = x.hasTag u := by
  cases x with
  | text s => rfl
  | elem t a c =>
    simp only [fix_paragraph_spacing]
    by_cases h : c.anyTag spacingTag = true
    · rw [if_pos h]
      rfl
    · rw [if_neg h]
      rfl

theorem fix_indentation_hasTag (x : Xml) (u : String) :
    (fix_indentation x).hasTag u = x.hasTag u := by
  cases x with
  | text s => rfl
  | elem t a c =>
    simp only [fix_indentation]
    by_cases h : c.anyTag indTag = true
    · rw [if_pos h]
      rfl
    · rw [if_neg h]

theorem fixPPr_hasTag (o : FixOptions) (x : Xml) (u : String) :
    (fixPPr o x).hasTag u = x.hasTag u := by
  unfold fixPPr
  by_cases hm : o.fix_margins = true
  · rw [if_pos hm, fix_indentation_hasTag]
    by_cases hs : o.fix_spacing = true
    · rw [if_pos hs, fix_paragraph_spacing_hasTag]
    · rw [if_neg hs]
  · rw [if_neg hm]
    by_cases hs : o.fix_spacing = true
    · rw [if_pos hs, fix_paragraph_spacing_hasTag]
    · rw [if_neg hs]

-- ── Saturation of the per-element fixers ───────────────────────────────────

theorem spacingOkC_elim {c : XmlList} (h : spacingOkC c = true) :
    ∃ sp, c.findTag spacingTag = some sp ∧ spacingAttrFix sp.attrsOf = sp.attrsOf := by
  unfold spacingOkC at h
  rcases hf : c.findTag spacingTag with _ | sp
  · rw [hf] at h
    exact Bool.noConfusion h
  · rw [hf] at h
    exact ⟨sp, rfl, by simpa using h⟩

theorem fix_paragraph_spacing_sat (t : String) (a : List (String × String)) (c : XmlList) :
    spacingOkC (fix_paragraph_spacing (.elem t a c)).childrenOf = true := by
  simp only [fix_paragraph_spacing]
  by_cases h : c.anyTag spacingTag = true
  · rw [if_pos h]
    rw [anyTag_iff_findTag] at h
    rcases Option.isSome_iff_exists.mp h with ⟨sp, hsp⟩
    have hsp2 : ((c.replaceFirstTag spacingTag fixSpacingEl).findTag spacingTag) =
        some (fixSpacingEl sp) :=
      findTag_replaceFirstTag hsp (by rw [fixSpacingEl_hasTag]; exact findTag_some_hasTag hsp)
    unfold spacingOkC
    simp only [Xml.childrenOf]
    rw [hsp2]
    have htag := findTag_some_hasTag hsp
    cases sp with
    | text s => exact Bool.noConfusion htag
    | elem t2 a2 c2 =>
      simp only [fixSpacingEl, Xml.attrsOf]
      rw [spacingAttrFix_idem]
      simp
  · rw [if_neg h]
    unfold spacingOkC
    simp only [Xml.childrenOf]
    have hnone : c.findTag spacingTag = none := by
      rw [anyTag_iff_findTag] at h
      rcases hf : c.findTag spacingTag with _ | sp
      · rfl
      · rw [hf] at h
        simp at h
    rw [findTag_append_none _ hnone]
    simp only [XmlList.findTag]
    rw [if_pos (by simp [Xml.hasTag])]
    simp only [Xml.attrsOf]
    decide

theorem fix_indentation_sat (t : String) (a : List (String × String)) (c : XmlList) :
    indOkC (fix_indentation (.elem t a c)).childrenOf = true := by
  simp only [fix_indentation]
  by_cases h : c.anyTag indTag = true
  · rw [if_pos h]
    rw [anyTag_iff_findTag] at h
    rcases Option.isSome_iff_exists.mp h with ⟨ind, hind⟩
    have hind2 : ((c.replaceFirstTag indTag fixIndEl).findTag indTag) = some (fixIndEl ind) :=
      findTag_replaceFirstTag hind (by rw [fixIndEl_hasTag]; exact findTag_some_hasTag hind)
    unfold indOkC
    simp only [Xml.childrenOf]
    rw [hind2]
    have htag := findTag_some_hasTag hind
    cases ind with
    | text s => exact Bool.noConfusion htag
    | elem t2 a2 c2 =>
      simp only [fixIndEl, Xml.attrsOf]
      rw [indAttrFix_idem]
      simp
  · rw [if_neg h]
    unfold indOkC
    simp only [Xml.childrenOf]
    have hnone : c.findTag indTag = none := by
      rw [anyTag_iff_findTag] at h
      rcases hf : c.findTag indTag with _ | sp
      · rfl
      · rw [hf] at h
        simp at h
    rw [hnone]

theorem spacingOkC_fix_indentation (x : Xml) :
    spacingOkC (fix_indentation x).childrenOf = spacingOkC x.childrenOf := by
  cases x with
  | text s => rfl
  | elem t a c =>
    simp only [fix_indentation]
    by_cases h : c.anyTag indTag = true
    · rw [if_pos h]
      unfold spacingOkC
      simp only [Xml.childrenOf]
      rw [findTag_replaceFirstTag_other (by decide) (fun x => fixIndEl_hasTag x _)]
    · rw [if_neg h]

theorem indOkC_fix_paragraph_spacing (x : Xml) :
    indOkC (fix_paragraph_spacing x).childrenOf = indOkC x.childrenOf := by
  cases x with
  | text s => rfl
  | elem t a c =>
    simp only [fix_paragraph_spacing]
    by_cases h : c.anyTag spacingTag = true
    · rw [if_pos h]
      unfold indOkC
      simp only [Xml.childrenOf]
      rw [findTag_replaceFirstTag_other (by decide) (fun x => fixSpacingEl_hasTag x _)]
    · rw [if_neg h]
      unfold indOkC
      simp only [Xml.childrenOf]
      rcases hf : c.findTag indTag with _ | ind
      · rw [findTag_append_none _ hf]
        have hsingle : (XmlList.cons (Xml.elem spacingTag [] XmlList.nil) XmlList.nil).findTag indTag = none := by decide
        rw [hsingle]
      · rw [findTag_append_some _ hf]

theorem fp_elem_spacing (x : Xml) :
    spacingOkC (fix_paragraph_spacing x).childrenOf = true ∨ x = fix_paragraph_spacing x := by
  cases x with
  | text s => exact Or.inr rfl
  | elem t a c => exact Or.inl (fix_paragraph_spacing_sat t a c)

theorem pprOk_fixPPr (o : FixOptions) (t : String) (a : List (String × String)) (c : XmlList) :
    pprOk o (fixPPr o (.elem t a c)) = true := by
  unfold pprOk fixPPr
  by_cases hs : o.fix_spacing = true
  · rw [if_pos hs]
    by_cases hm : o.fix_margins = true
    · rw [if_pos hm]
      have hsp : spacingOkC (fix_indentation (fix_paragraph_spacing (.elem t a c))).childrenOf = true := by
        rw [spacingOkC_fix_indentation]
        exact fix_paragraph_spacing_sat t a c
      have hfsp : ∃ c2, fix_paragraph_spacing (.elem t a c) = .elem t a c2 := by
        simp only [fix_paragraph_spacing]
        by_cases hx : c.anyTag spacingTag = true
        · rw [if_pos hx]
          exact ⟨_, rfl⟩
        · rw [if_neg hx]
          exact ⟨_, rfl⟩
      rcases hfsp with ⟨c2, hc2⟩
      rw [hc2] at hsp ⊢
      rw [hsp, fix_indentation_sat]
      simp
    · rw [if_neg hm]
      rw [fix_paragraph_spacing_sat]
      simp [hm]
  · rw [if_neg hs]
    by_cases hm : o.fix_margins = true
    · rw [if_pos hm, fix_indentation_sat]
      simp [hs]
    · rw [if_neg hm]
      simp [hs, hm]

theorem fix_paragraph_spacing_id {pp : Xml} (h : spacingOkC pp.childrenOf = true) :
    fix_paragraph_spacing pp = pp := by
  cases pp with
  | text s => rfl
  | elem t a c =>
    obtain ⟨sp, hsp, hfix⟩ := spacingOkC_elim h
    simp only [Xml.childrenOf] at hsp
    simp only [fix_paragraph_spacing]
    rw [if_pos (by rw [anyTag_iff_findTag, hsp]; rfl)]
    have hid : fixSpacingEl sp = sp := by
      have htag := findTag_some_hasTag hsp
      cases sp with
      | text s => exact Bool.noConfusion htag
      | elem t2 a2 c2 =>
        simp only [fixSpacingEl]
        simp only [Xml.attrsOf] at hfix
        rw [hfix]
    rw [replaceFirstTag_eq_self hsp hid]

theorem fix_indentation_id {pp : Xml} (h : indOkC pp.childrenOf = true) :
    fix_indentation pp = pp := by
  cases pp with
  | text s => rfl
  | elem t a c =>
    unfold indOkC at h
    simp only [Xml.childrenOf] at h
    rcases hf : c.findTag indTag with _ | ind
    · simp only [fix_indentation]
      rw [if_neg (by rw [anyTag_iff_findTag, hf]; simp)]
    · rw [hf] at h
      have hfix : indAttrFix ind.attrsOf = ind.attrsOf := by simpa using h
      simp only [fix_indentation]
      rw [if_pos (by rw [anyTag_iff_findTag, hf]; rfl)]
      have hid : fixIndEl ind = ind := by
        have htag := findTag_some_hasTag hf
        cases ind with
        | text s => exact Bool.noConfusion htag
        | elem t2 a2 c2 =>
          simp only [fixIndEl]
          simp only [Xml.attrsOf] at hfix
          rw [hfix]
      rw [replaceFirstTag_eq_self hf hid]

theorem pprOk_id {o : FixOptions} {pp : Xml} (h : pprOk o pp = true) :
    fixPPr o pp = pp := by
  unfold pprOk at h
  simp only [Bool.and_eq_true] at h
  obtain ⟨h1, h2⟩ := h
  unfold fixPPr
  by_cases hs : o.fix_spacing = true
  · rw [if_pos hs]
    rw [hs] at h1
    have hsp : spacingOkC pp.childrenOf = true := by simpa using h1
    rw [fix_paragraph_spacing_id hsp]
    by_cases hm : o.fix_margins = true
    · rw [if_pos hm]
      rw [hm] at h2
      exact fix_indentation_id (by simpa using h2)
    · rw [if_neg hm]
  · rw [if_neg hs]
    by_cases hm : o.fix_margins = true
    · rw [if_pos hm]
      rw [hm] at h2
      exact fix_indentation_id (by simpa using h2)
    · rw [if_neg hm]

-- ── Raise preservation at the paragraph-properties level ───────────────────

theorem fp_raise_fix_indentation (pp : Xml) :
    fix_paragraph_spacing_raise (fix_indentation pp) = fix_paragraph_spacing_raise pp := by
  cases pp with
  | text s => rfl
  | elem t a c =>
    simp only [fix_indentation]
    by_cases h : c.anyTag indTag = true
    · rw [if_pos h]
      unfold fix_paragraph_spacing_raise
      simp only [Xml.childrenOf]
      rw [findTag_replaceFirstTag_other (by decide) (fun x => fixIndEl_hasTag x _)]
    · rw [if_neg h]

theorem fi_raise_fix_paragraph_spacing (pp : Xml) :
    fix_indentation_raise (fix_paragraph_spacing pp) = fix_indentation_raise pp := by
  cases pp with
  | text s => rfl
  | elem t a c =>
    simp only [fix_paragraph_spacing]
    by_cases h : c.anyTag spacingTag = true
    · rw [if_pos h]
      unfold fix_indentation_raise
      simp only [Xml.childrenOf]
      rw [findTag_replaceFirstTag_other (by decide) (fun x => fixSpacingEl_hasTag x _)]
    · rw [if_neg h]
      unfold fix_indentation_raise
      simp only [Xml.childrenOf]
      rcases hf : c.findTag indTag with _ | ind
      · rw [findTag_append_none _ hf]
        have hsingle : (XmlList.cons (Xml.elem spacingTag [] XmlList.nil) XmlList.nil).findTag indTag = none := by decide
        rw [hsingle]
      · rw [findTag_append_some _ hf]

theorem fp_raise_after {pp : Xml} (h : fix_paragraph_spacing_raise pp = false) :
    fix_paragraph_spacing_raise (fix_paragraph_spacing pp) = false := by
  cases pp with
  | text s => rfl
  | elem t a c =>
    unfold fix_paragraph_spacing_raise at h
    simp only [Xml.childrenOf] at h
    simp only [fix_paragraph_spacing]
    by_cases hx : c.anyTag spacingTag = true
    · rw [if_pos hx]
      rw [anyTag_iff_findTag] at hx
      rcases Option.isSome_iff_exists.mp hx with ⟨sp, hsp⟩
      rw [hsp] at h
      unfold fix_paragraph_spacing_raise
      simp only [Xml.childrenOf]
      rw [findTag_replaceFirstTag hsp (by rw [fixSpacingEl_hasTag]; exact findTag_some_hasTag hsp)]
      have htag := findTag_some_hasTag hsp
      cases sp with
      | text s => exact Bool.noConfusion htag
      | elem t2 a2 c2 =>
        simp only [fixSpacingEl, Xml.attrsOf]
        simp only [Xml.attrsOf] at h
        exact spacingRaise_after h
    · rw [if_neg hx]
      unfold fix_paragraph_spacing_raise
      simp only [Xml.childrenOf]
      have hnone : c.findTag spacingTag = none := by
        rw [anyTag_iff_findTag] at hx
        rcases hc : c.findTag spacingTag with _ | sp
        · rfl
        · rw [hc] at hx
          simp at hx
      rw [findTag_append_none _ hnone]
      simp only [XmlList.findTag]
      rw [if_pos (by simp [Xml.hasTag])]
      simp only [Xml.attrsOf]
      decide

theorem fi_raise_after {pp : Xml} (h : fix_indentation_raise pp = false) :
    fix_indentation_raise (fix_indentation pp) = false := by
  cases pp with
  | text s => rfl
  | elem t a c =>
    unfold fix_indentation_raise at h
    simp only [Xml.childrenOf] at h
    simp only [fix_indentation]
    by_cases hx : c.anyTag indTag = true
    · rw [if_pos hx]
      rw [anyTag_iff_findTag] at hx
      rcases Option.isSome_iff_exists.mp hx with ⟨ind, hind⟩
      rw [hind] at h
      unfold fix_indentation_raise
      simp only [Xml.childrenOf]
      rw [findTag_replaceFirstTag hind (by rw [fixIndEl_hasTag]; exact findTag_some_hasTag hind)]
      have htag := findTag_some_hasTag hind
      cases ind with
      | text s => exact Bool.noConfusion htag
      | elem t2 a2 c2 =>
        simp only [fixIndEl, Xml.attrsOf]
        simp only [Xml.attrsOf] at h
        exact indRaise_after h
    · rw [if_neg hx]
      unfold fix_indentation_raise
      simp only [Xml.childrenOf]
      exact h

theorem ppr_raise_fixPPr {o : FixOptions} {pp : Xml}
    (h : ((o.fix_spacing && fix_paragraph_spacing_raise pp) ||
          (o.fix_margins && fix_indentation_raise pp)) = false) :
    ((o.fix_spacing && fix_paragraph_spacing_raise (fixPPr o pp)) ||
     (o.fix_margins && fix_indentation_raise (fixPPr o pp))) = false := by
  simp only [Bool.or_eq_false_iff] at h ⊢
  obtain ⟨h1, h2⟩ := h
  unfold fixPPr
  by_cases hs : o.fix_spacing = true
  · rw [hs] at h1
    have hsp : fix_paragraph_spacing_raise pp = false := by simpa using h1
    rw [if_pos hs]
    by_cases hm : o.fix_margins = true
    · rw [hm] at h2
      have hin : fix_indentation_raise pp = false := by simpa using h2
      rw [if_pos hm]
      constructor
      · rw [fp_raise_fix_indentation, fp_raise_after hsp]
        simp
      · rw [fi_raise_after (by rw [fi_raise_fix_paragraph_spacing]; exact hin)]
        simp
    · rw [if_neg hm]
      constructor
      · rw [fp_raise_after hsp]
        simp
      · simp [Bool.eq_false_iff.mpr hm]
  · rw [if_neg hs]
    by_cases hm : o.fix_margins = true
    · rw [hm] at h2
      have hin : fix_indentation_raise pp = false := by simpa using h2
      rw [if_pos hm]
      constructor
      · simp [Bool.eq_false_iff.mpr hs]
      · rw [fi_raise_after hin]
        simp
    · rw [if_neg hm]
      exact ⟨by simp [Bool.eq_false_iff.mpr hs], by simp [Bool.eq_false_iff.mpr hm]⟩

-- ── The per-paragraph step saturates and preserves the no-raise state ──────

theorem paraOkC_localFix (o : FixOptions) (c : XmlList) :
    paraOkC o (paraLocalFix o c) = true := by
  unfold paraLocalFix
  by_cases h : c.anyTag pPrTag = true
  · rw [if_pos h]
    rw [anyTag_iff_findTag] at h
    rcases Option.isSome_iff_exists.mp h with ⟨pp, hpp⟩
    unfold paraOkC
    rw [findTag_replaceFirstTag hpp (by rw [fixPPr_hasTag]; exact findTag_some_hasTag hpp)]
    have htag := findTag_some_hasTag hpp
    cases pp with
    | text s => exact Bool.noConfusion htag
    | elem t2 a2 c2 => exact pprOk_fixPPr o t2 a2 c2
  · rw [if_neg h]
    unfold paraOkC
    simp only [XmlList.findTag]
    rw [if_pos (by rw [fixPPr_hasTag]; simp [Xml.hasTag])]
    exact pprOk_fixPPr o pPrTag [] .nil

theorem paraLocalRaise_elim {o : FixOptions} {c : XmlList} {pp : Xml}
    (h : paraLocalRaise o c = false) (hpp : c.findTag pPrTag = some pp) :
    ((o.fix_spacing && fix_paragraph_spacing_raise pp) ||
     (o.fix_margins && fix_indentation_raise pp)) = false := by
  unfold paraLocalRaise at h
  rw [hpp] at h
  exact h

theorem paraLocalRaise_localFix {o : FixOptions} {c : XmlList}
    (h : paraLocalRaise o c = false) :
    paraLocalRaise o (paraLocalFix o c) = false := by
  unfold paraLocalFix
  by_cases hx : c.anyTag pPrTag = true
  · rw [if_pos hx]
    rw [anyTag_iff_findTag] at hx
    rcases Option.isSome_iff_exists.mp hx with ⟨pp, hpp⟩
    unfold paraLocalRaise
    rw [findTag_replaceFirstTag hpp (by rw [fixPPr_hasTag]; exact findTag_some_hasTag hpp)]
    exact ppr_raise_fixPPr (paraLocalRaise_elim h hpp)
  · rw [if_neg hx]
    unfold paraLocalRaise
    simp only [XmlList.findTag]
    rw [if_pos (by rw [fixPPr_hasTag]; simp [Xml.hasTag])]
    refine ppr_raise_fixPPr ?_
    have hfp : fix_paragraph_spacing_raise (Xml.elem pPrTag [] .nil) = false := by decide
    have hfi : fix_indentation_raise (Xml.elem pPrTag [] .nil) = false := by decide
    rw [hfp, hfi]
    simp

theorem paraOkC_id {o : FixOptions} {c : XmlList} (h : paraOkC o c = true) :
    paraLocalFix o c = c := by
  unfold paraOkC at h
  rcases hpp : c.findTag pPrTag with _ | pp
  · rw [hpp] at h
    exact Bool.noConfusion h
  · rw [hpp] at h
    unfold paraLocalFix
    rw [if_pos (by rw [anyTag_iff_findTag, hpp]; rfl)]
    exact replaceFirstTag_eq_self hpp (pprOk_id h)

-- ── The per-run-properties step saturates ──────────────────────────────────

theorem rFontsOkC_localFix (c : XmlList) : rFontsOkC (rPrLocalFix c) = true := by
  unfold rPrLocalFix
  by_cases h : c.anyTag rFontsTag = true
  · rw [if_pos h]
    rw [anyTag_iff_findTag] at h
    rcases Option.isSome_iff_exists.mp h with ⟨rf, hrf⟩
    unfold rFontsOkC
    rw [findTag_replaceFirstTag hrf (by rw [fixRFontsEl_hasTag]; exact findTag_some_hasTag hrf)]
    have htag := findTag_some_hasTag hrf
    cases rf with
    | text s => exact Bool.noConfusion htag
    | elem t2 a2 c2 =>
      simp only [fixRFontsEl, Xml.attrsOf]
      rw [substFontAttrs_idem]
      simp
  · rw [if_neg h]
    unfold rFontsOkC
    have hnone : c.findTag rFontsTag = none := by
      rw [anyTag_iff_findTag] at h
      rcases hc : c.findTag rFontsTag with _ | rf
      · rfl
      · rw [hc] at h
        simp at h
    rw [hnone]

theorem rFontsOkC_id {c : XmlList} (h : rFontsOkC c = true) : rPrLocalFix c = c := by
  unfold rFontsOkC at h
  rcases hrf : c.findTag rFontsTag with _ | rf
  · unfold rPrLocalFix
    rw [if_neg (by rw [anyTag_iff_findTag, hrf]; simp)]
  · rw [hrf] at h
    have hfix : substFontAttrs rf.attrsOf = rf.attrsOf := by simpa using h
    unfold rPrLocalFix
    rw [if_pos (by rw [anyTag_iff_findTag, hrf]; rfl)]
    have hid : fixRFontsEl rf = rf := by
      have htag := findTag_some_hasTag hrf
      cases rf with
      | text s => exact Bool.noConfusion htag
      | elem t2 a2 c2 =>
        simp only [fixRFontsEl]
        simp only [Xml.attrsOf] at hfix
        rw [hfix]
    rw [replaceFirstTag_eq_self hrf hid]

-- ── Shape of the three walks at one node ───────────────────────────────────

theorem paraPass_elem_shape (o : FixOptions) (b : Bool) (t : String)
    (a : List (String × String)) (c : XmlList) :
    ∃ c2, paraPass o b (.elem t a c) = .elem t a c2 := by
  simp only [paraPass]
  split
  · exact ⟨_, rfl⟩
  · split
    · exact ⟨_, rfl⟩
    · exact ⟨_, rfl⟩

theorem paraPass_hasTag (o : FixOptions) (b : Bool) (x : Xml) (u : String) :
    (paraPass o b x).hasTag u = x.hasTag u := by
  cases x with
  | text s => rfl
  | elem t a c =>
    obtain ⟨c2, hc2⟩ := paraPass_elem_shape o b t a c
    rw [hc2]
    rfl

theorem paraPass_attrs (o : FixOptions) (b : Bool) (x : Xml) :
    (paraPass o b x).attrsOf = x.attrsOf := by
  cases x with
  | text s => rfl
  | elem t a c =>
    obtain ⟨c2, hc2⟩ := paraPass_elem_shape o b t a c
    rw [hc2]
    rfl

theorem findTag_paraPassL (o : FixOptions) (b : Bool) (u : String) :
    ∀ c : XmlList, (paraPassL o b c).findTag u = (c.findTag u).map (paraPass o b) := by
  intro c
  induction c using XmlList.indOn with
  | nil => rfl
  | cons x xs ih =>
    simp only [paraPassL, XmlList.findTag, paraPass_hasTag]
    by_cases hx : x.hasTag u = true
    · rw [if_pos hx, if_pos hx]
      rfl
    · rw [if_neg hx, if_neg hx, ih]

theorem paraPass_pprChild (o : FixOptions) (b : Bool) (a : List (String × String)) (c : XmlList) :
    paraPass o b (.elem pPrTag a c) = .elem pPrTag a (paraPassL o b c) := by
  simp [paraPass, show (pPrTag == pTag) = false from by decide,
    show (pPrTag == rPrTag) = false from by decide]

theorem tblPass_elem_shape (t : String) (a : List (String × String)) (c : XmlList) :
    ∃ c2, tblPass (.elem t a c) = .elem t a c2 := by
  simp only [tblPass]
  split
  · split
    · exact ⟨_, rfl⟩
    · exact ⟨_, rfl⟩
  · exact ⟨_, rfl⟩

theorem tblPass_hasTag (x : Xml) (u : String) :
    (tblPass x).hasTag u = x.hasTag u := by
  cases x with
  | text s => rfl
  | elem t a c =>
    obtain ⟨c2, hc2⟩ := tblPass_elem_shape t a c
    rw [hc2]
    rfl

theorem tblPass_attrs (x : Xml) : (tblPass x).attrsOf = x.attrsOf := by
  cases x with
  | text s => rfl
  | elem t a c =>
    obtain ⟨c2, hc2⟩ := tblPass_elem_shape t a c
    rw [hc2]
    rfl

theorem findTag_tblPassL (u : String) :
    ∀ c : XmlList, (tblPassL c).findTag u = (c.findTag u).map tblPass := by
  intro c
  induction c using XmlList.indOn with
  | nil => rfl
  | cons x xs ih =>
    simp only [tblPassL, XmlList.findTag, tblPass_hasTag]
    by_cases hx : x.hasTag u = true
    · rw [if_pos hx, if_pos hx]
      rfl
    · rw [if_neg hx, if_neg hx, ih]

theorem tblPass_pprChild (a : List (String × String)) (c : XmlList) :
    tblPass (.elem pPrTag a c) = .elem pPrTag a (tblPassL c) := by
  simp [tblPass, show (pPrTag == tblTag) = false from by decide]

theorem imgPass_attrs (x : Xml) : (imgPass x).attrsOf = x.attrsOf := by
  cases x with
  | text s => rfl
  | elem t a c =>
    obtain ⟨c2, hc2⟩ := imgPass_elem_shape t a c
    rw [hc2]
    rfl

theorem imgPass_pprChild (a : List (String × String)) (c : XmlList) :
    imgPass (.elem pPrTag a c) = .elem pPrTag a (imgPassL c) := by
  simp [imgPass, show (pPrTag == drawingTag) = false from by decide]

-- ── Generic transport of the saturation state through a tag-preserving map ─

theorem gen_spacingOkC {F : Xml → Xml} {FL : XmlList → XmlList}
    (hmap : ∀ u c, (FL c).findTag u = (c.findTag u).map F)
    (hattr : ∀ x, (F x).attrsOf = x.attrsOf) (c : XmlList) :
    spacingOkC (FL c) = spacingOkC c := by
  unfold spacingOkC
  rw [hmap]
  rcases hf : c.findTag spacingTag with _ | sp
  · rfl
  · show (spacingAttrFix (F sp).attrsOf == (F sp).attrsOf) = (spacingAttrFix sp.attrsOf == sp.attrsOf)
    rw [hattr]

theorem gen_indOkC {F : Xml → Xml} {FL : XmlList → XmlList}
    (hmap : ∀ u c, (FL c).findTag u = (c.findTag u).map F)
    (hattr : ∀ x, (F x).attrsOf = x.attrsOf) (c : XmlList) :
    indOkC (FL c) = indOkC c := by
  unfold indOkC
  rw [hmap]
  rcases hf : c.findTag indTag with _ | ind
  · rfl
  · show (indAttrFix (F ind).attrsOf == (F ind).attrsOf) = (indAttrFix ind.attrsOf == ind.attrsOf)
    rw [hattr]

theorem gen_rFontsOkC {F : Xml → Xml} {FL : XmlList → XmlList}
    (hmap : ∀ u c, (FL c).findTag u = (c.findTag u).map F)
    (hattr : ∀ x, (F x).attrsOf = x.attrsOf) (c : XmlList) :
    rFontsOkC (FL c) = rFontsOkC c := by
  unfold rFontsOkC
  rw [hmap]
  rcases hf : c.findTag rFontsTag with _ | rf
  · rfl
  · show (substFontAttrs (F rf).attrsOf == (F rf).attrsOf) = (substFontAttrs rf.attrsOf == rf.attrsOf)
    rw [hattr]

theorem gen_pprOk {F : Xml → Xml} {FL : XmlList → XmlList}
    (hmap : ∀ u c, (FL c).findTag u = (c.findTag u).map F)
    (hattr : ∀ x, (F x).attrsOf = x.attrsOf)
    (hppr : ∀ a c, F (.elem pPrTag a c) = .elem pPrTag a (FL c))
    {pp : Xml} (htag : pp.hasTag pPrTag = true) (o : FixOptions) :
    pprOk o (F pp) = pprOk o pp := by
  cases pp with
  | text s => exact Bool.noConfusion htag
  | elem t a c =>
    have ht : t = pPrTag := by simpa [Xml.hasTag] using htag
    subst ht
    rw [hppr]
    unfold pprOk
    simp only [Xml.childrenOf]
    rw [gen_spacingOkC hmap hattr, gen_indOkC hmap hattr]

theorem gen_paraOkC {F : Xml → Xml} {FL : XmlList → XmlList}
    (hmap : ∀ u c, (FL c).findTag u = (c.findTag u).map F)
    (hattr : ∀ x, (F x).attrsOf = x.attrsOf)
    (hppr : ∀ a c, F (.elem pPrTag a c) = .elem pPrTag a (FL c))
    (o : FixOptions) (c : XmlList) :
    paraOkC o (FL c) = paraOkC o c := by
  unfold paraOkC
  rw [hmap]
  rcases hf : c.findTag pPrTag with _ | pp
  · rfl
  · show pprOk o (F pp) = pprOk o pp
    exact gen_pprOk hmap hattr hppr (findTag_some_hasTag hf) o

theorem gen_fp_raise {F : Xml → Xml} {FL : XmlList → XmlList}
    (hmap : ∀ u c, (FL c).findTag u = (c.findTag u).map F)
    (hattr : ∀ x, (F x).attrsOf = x.attrsOf)
    (hppr : ∀ a c, F (.elem pPrTag a c) = .elem pPrTag a (FL c))
    {pp : Xml} (htag : pp.hasTag pPrTag = true) :
    fix_paragraph_spacing_raise (F pp) = fix_paragraph_spacing_raise pp := by
  cases pp with
  | text s => exact Bool.noConfusion htag
  | elem t a c =>
    have ht : t = pPrTag := by simpa [Xml.hasTag] using htag
    subst ht
    rw [hppr]
    unfold fix_paragraph_spacing_raise
    simp only [Xml.childrenOf]
    rw [hmap]
    rcases hf : c.findTag spacingTag with _ | sp
    · rfl
    · show spacingAttrRaise (F sp).attrsOf = spacingAttrRaise sp.attrsOf
      rw [hattr]

theorem gen_fi_raise {F : Xml → Xml} {FL : XmlList → XmlList}
    (hmap : ∀ u c, (FL c).findTag u = (c.findTag u).map F)
    (hattr : ∀ x, (F x).attrsOf = x.attrsOf)
    (hppr : ∀ a c, F (.elem pPrTag a c) = .elem pPrTag a (FL c))
    {pp : Xml} (htag : pp.hasTag pPrTag = true) :
    fix_indentation_raise (F pp) = fix_indentation_raise pp := by
  cases pp with
  | text s => exact Bool.noConfusion htag
  | elem t a c =>
    have ht : t = pPrTag := by simpa [Xml.hasTag] using htag
    subst ht
    rw [hppr]
    unfold fix_indentation_raise
    simp only [Xml.childrenOf]
    rw [hmap]
    rcases hf : c.findTag indTag with _ | ind
    · rfl
    · show indAttrRaise (F ind).attrsOf = indAttrRaise ind.attrsOf
      rw [hattr]

theorem gen_paraLocalRaise {F : Xml → Xml} {FL : XmlList → XmlList}
    (hmap : ∀ u c, (FL c).findTag u = (c.findTag u).map F)
    (hattr : ∀ x, (F x).attrsOf = x.attrsOf)
    (hppr : ∀ a c, F (.elem pPrTag a c) = .elem pPrTag a (FL c))
    (o : FixOptions) (c : XmlList) :
    paraLocalRaise o (FL c) = paraLocalRaise o c := by
  unfold paraLocalRaise
  rw [hmap]
  rcases hf : c.findTag pPrTag with _ | pp
  · rfl
  · show ((o.fix_spacing && fix_paragraph_spacing_raise (F pp)) ||
        (o.fix_margins && fix_indentation_raise (F pp))) = _
    rw [gen_fp_raise hmap hattr hppr (findTag_some_hasTag hf),
      gen_fi_raise hmap hattr hppr (findTag_some_hasTag hf)]

-- ── The paragraph-walk fixed point ─────────────────────────────────────────

theorem pfx_cond {o : FixOptions} {b : Bool} {t : String} {a : List (String × String)}
    {c : XmlList} (h1 : (t == pTag) = false)
    (h2 : ((t == rPrTag) && b && o.fix_fonts) = false) :
    pfx o b (.elem t a c) = pfxL o b c := by
  simp only [pfx, h1, h2]
  simp

theorem pfxL_append (o : FixOptions) (b : Bool) :
    ∀ c d : XmlList, pfxL o b (c.append d) = (pfxL o b c && pfxL o b d) := by
  intro c d
  induction c using XmlList.indOn with
  | nil => simp [XmlList.append, pfxL]
  | cons x xs ih =>
    simp only [XmlList.append, pfxL, ih, Bool.and_assoc]

theorem pfxL_removeFirstTag {o : FixOptions} {b : Bool} {u : String} :
    ∀ {c : XmlList}, pfxL o b c = true → pfxL o b (c.removeFirstTag u) = true := by
  intro c
  induction c using XmlList.indOn with
  | nil => intro _; rfl
  | cons x xs ih =>
    intro h
    simp only [pfxL, Bool.and_eq_true] at h
    simp only [XmlList.removeFirstTag]
    by_cases hx : x.hasTag u = true
    · rw [if_pos hx]
      exact h.2
    · rw [if_neg hx]
      simp only [pfxL, Bool.and_eq_true]
      exact ⟨h.1, ih h.2⟩

theorem pfxL_replaceFirstTag {o : FixOptions} {b : Bool} {u : String} {f : Xml → Xml}
    (hf : ∀ x, x.hasTag u = true → pfx o b x = true → pfx o b (f x) = true) :
    ∀ {c : XmlList}, pfxL o b c = true → pfxL o b (c.replaceFirstTag u f) = true := by
  intro c
  induction c using XmlList.indOn with
  | nil => intro _; rfl
  | cons x xs ih =>
    intro h
    simp only [pfxL, Bool.and_eq_true] at h
    simp only [XmlList.replaceFirstTag]
    by_cases hx : x.hasTag u = true
    · rw [if_pos hx]
      simp only [pfxL, Bool.and_eq_true]
      exact ⟨hf x hx h.1, h.2⟩
    · rw [if_neg hx]
      simp only [pfxL, Bool.and_eq_true]
      exact ⟨h.1, ih h.2⟩

theorem pfxL_findTag {o : FixOptions} {b : Bool} {u : String} :
    ∀ {c : XmlList} {x : Xml}, pfxL o b c = true → c.findTag u = some x →
      pfx o b x = true := by
  intro c
  induction c using XmlList.indOn with
  | nil => intro x _ hf; cases hf
  | cons y ys ih =>
    intro x h hf
    simp only [pfxL, Bool.and_eq_true] at h
    simp only [XmlList.findTag] at hf
    by_cases hy : y.hasTag u = true
    · rw [if_pos hy] at hf
      cases hf
      exact h.1
    · rw [if_neg hy] at hf
      exact ih h.2 hf

theorem pfx_fixSpacingEl (o : FixOptions) (b : Bool) (x : Xml) :
    pfx o b (fixSpacingEl x) = pfx o b x := by
  cases x <;> rfl

theorem pfx_fixIndEl (o : FixOptions) (b : Bool) (x : Xml) :
    pfx o b (fixIndEl x) = pfx o b x := by
  cases x <;> rfl

theorem pfx_fixRFontsEl (o : FixOptions) (b : Bool) (x : Xml) :
    pfx o b (fixRFontsEl x) = pfx o b x := by
  cases x <;> rfl

theorem pfx_emptySpacing (o : FixOptions) (b : Bool) :
    pfx o b (.elem spacingTag [] .nil) = true := by
  rw [pfx_cond (by decide) (by rw [show (spacingTag == rPrTag) = false from by decide]; rfl)]
  rfl

theorem pfx_fp {o : FixOptions} {b : Bool} {pp : Xml} (htag : pp.hasTag pPrTag = true)
    (h : pfx o b pp = true) : pfx o b (fix_paragraph_spacing pp) = true := by
  cases pp with
  | text s => exact Bool.noConfusion htag
  | elem t a c =>
    have ht : t = pPrTag := by simpa [Xml.hasTag] using htag
    subst ht
    have h1 : (pPrTag == pTag) = false := by decide
    have h2 : ∀ b2 : Bool, ((pPrTag == rPrTag) && b2 && o.fix_fonts) = false := by
      intro b2
      rw [show (pPrTag == rPrTag) = false from by decide]
      rfl
    rw [pfx_cond h1 (h2 b)] at h
    simp only [fix_paragraph_spacing]
    by_cases hx : c.anyTag spacingTag = true
    · rw [if_pos hx, pfx_cond h1 (h2 b)]
      exact pfxL_replaceFirstTag (fun x _ hx2 => by rw [pfx_fixSpacingEl]; exact hx2) h
    · rw [if_neg hx, pfx_cond h1 (h2 b), pfxL_append]
      rw [h]
      simp only [pfxL, Bool.and_eq_true, Bool.true_and]
      rw [pfx_emptySpacing]
      exact ⟨rfl, trivial⟩

theorem fp_hasTag_ppr {pp : Xml} (htag : pp.hasTag pPrTag = true) :
    (fix_paragraph_spacing pp).hasTag pPrTag = true := by
  rw [fix_paragraph_spacing_hasTag]
  exact htag

theorem pfx_fi {o : FixOptions} {b : Bool} {pp : Xml} (htag : pp.hasTag pPrTag = true)
    (h : pfx o b pp = true) : pfx o b (fix_indentation pp) = true := by
  cases pp with
  | text s => exact Bool.noConfusion htag
  | elem t a c =>
    have ht : t = pPrTag := by simpa [Xml.hasTag] using htag
    subst ht
    have h1 : (pPrTag == pTag) = false := by decide
    have h2 : ∀ b2 : Bool, ((pPrTag == rPrTag) && b2 && o.fix_fonts) = false := by
      intro b2
      rw [show (pPrTag == rPrTag) = false from by decide]
      rfl
    rw [pfx_cond h1 (h2 b)] at h
    simp only [fix_indentation]
    by_cases hx : c.anyTag indTag = true
    · rw [if_pos hx, pfx_cond h1 (h2 b)]
      exact pfxL_replaceFirstTag (fun x _ hx2 => by rw [pfx_fixIndEl]; exact hx2) h
    · rw [if_neg hx, pfx_cond h1 (h2 b)]
      exact h

theorem pfx_fixPPr {o : FixOptions} {b : Bool} {pp : Xml} (htag : pp.hasTag pPrTag = true)
    (h : pfx o b pp = true) : pfx o b (fixPPr o pp) = true := by
  unfold fixPPr
  by_cases hs : o.fix_spacing = true
  · rw [if_pos hs]
    by_cases hm : o.fix_margins = true
    · rw [if_pos hm]
      exact pfx_fi (fp_hasTag_ppr htag) (pfx_fp htag h)
    · rw [if_neg hm]
      exact pfx_fp htag h
  · rw [if_neg hs]
    by_cases hm : o.fix_margins = true
    · rw [if_pos hm]
      exact pfx_fi htag h
    · rw [if_neg hm]
      exact h

theorem pfx_emptyPPr (o : FixOptions) (b : Bool) :
    pfx o b (.elem pPrTag [] .nil) = true := by
  rw [pfx_cond (by decide) (by rw [show (pPrTag == rPrTag) = false from by decide]; rfl)]
  rfl

theorem pfxL_localFix {o : FixOptions} {b : Bool} {c : XmlList}
    (h : pfxL o b c = true) : pfxL o b (paraLocalFix o c) = true := by
  unfold paraLocalFix
  by_cases hx : c.anyTag pPrTag = true
  · rw [if_pos hx]
    exact pfxL_replaceFirstTag (fun x hxt hx2 => pfx_fixPPr hxt hx2) h
  · rw [if_neg hx]
    simp only [pfxL, Bool.and_eq_true]
    refine ⟨?_, h⟩
    exact pfx_fixPPr (by simp [Xml.hasTag]) (pfx_emptyPPr o b)

mutual

/-- After the paragraph walk, every node satisfies the paragraph fixed
point, provided the walk did not raise. -/
theorem paraPass_pfx : ∀ (x : Xml) (o : FixOptions) (inP : Bool),
    paraRaises o x = false → pfx o inP (paraPass o inP x) = true
  | .text _ => fun _ _ _ => rfl
  | .elem t a c => fun o inP hr => by
    simp only [paraRaises, Bool.or_eq_false_iff] at hr
    obtain ⟨hr1, hr2⟩ := hr
    have hlist := paraPassL_pfx c o (inP || (t == pTag)) hr2
    cases ht : (t == pTag) with
    | true =>
      have htp : t = pTag := by simpa using ht
      subst htp
      rw [ht, Bool.or_true] at hlist
      have hloc : paraLocalRaise o c = false := by
        rw [ht] at hr1
        simpa using hr1
      simp only [paraPass, ht, if_true]
      rw [Bool.or_true]
      simp only [pfx, ht, Bool.and_eq_true]
      refine ⟨⟨?_, ?_⟩, ?_⟩
      · simp only [Bool.not_true, Bool.false_or, Bool.and_eq_true]
        refine ⟨paraOkC_localFix o _, ?_⟩
        have htr : paraLocalRaise o (paraPassL o true c) = paraLocalRaise o c :=
          gen_paraLocalRaise (findTag_paraPassL o true) (paraPass_attrs o true)
            (paraPass_pprChild o true) o c
        rw [paraLocalRaise_localFix (by rw [htr]; exact hloc)]
        rfl
      · rw [show (pTag == rPrTag) = false from by decide]
        rfl
      · rw [Bool.or_true]
        exact pfxL_localFix hlist
    | false =>
      rw [ht, Bool.or_false] at hlist
      simp only [paraPass, ht]
      simp only [Bool.false_eq_true, if_false, Bool.or_false]
      cases hcond : ((t == rPrTag) && inP && o.fix_fonts) with
      | true =>
        rw [if_pos rfl]
        simp only [pfx, ht, hcond, Bool.and_eq_true]
        refine ⟨⟨?_, ?_⟩, ?_⟩
        · rfl
        · simp only [Bool.not_true, Bool.false_or]
          exact rFontsOkC_localFix _
        · rw [Bool.or_false]
          unfold rPrLocalFix
          by_cases hany : (paraPassL o inP c).anyTag rFontsTag = true
          · rw [if_pos hany]
            exact pfxL_replaceFirstTag (fun x _ hx2 => by rw [pfx_fixRFontsEl]; exact hx2) hlist
          · rw [if_neg hany]
            exact hlist
      | false =>
        rw [if_neg Bool.false_ne_true]
        simp only [pfx, ht, hcond, Bool.and_eq_true]
        exact ⟨⟨rfl, rfl⟩, by rw [Bool.or_false]; exact hlist⟩

theorem paraPassL_pfx : ∀ (c : XmlList) (o : FixOptions) (inP : Bool),
    paraRaisesL o c = false → pfxL o inP (paraPassL o inP c) = true
  | .nil => fun _ _ _ => rfl
  | .cons x xs => fun o inP h => by
    simp only [paraRaisesL, Bool.or_eq_false_iff] at h
    simp only [paraPassL, pfxL, Bool.and_eq_true]
    exact ⟨paraPass_pfx x o inP h.1, paraPassL_pfx xs o inP h.2⟩

end

mutual

/-- A tree satisfying the paragraph fixed point is unchanged by the
paragraph walk. -/
theorem paraPass_id : ∀ (x : Xml) (o : FixOptions) (inP : Bool),
    pfx o inP x = true → paraPass o inP x = x
  | .text _ => fun _ _ _ => rfl
  | .elem t a c => fun o inP h => by
    simp only [pfx, Bool.and_eq_true] at h
    obtain ⟨⟨hA, hB⟩, hC⟩ := h
    have hcl : paraPassL o (inP || (t == pTag)) c = c := paraPassL_id c o _ hC
    cases ht : (t == pTag) with
    | true =>
      rw [ht, Bool.or_true] at hcl
      simp only [paraPass, ht, if_true, Bool.or_true]
      rw [hcl]
      rw [ht] at hA
      simp only [Bool.not_true, Bool.false_or, Bool.and_eq_true] at hA
      rw [paraOkC_id hA.1]
    | false =>
      rw [ht] at hcl
      simp only [paraPass, ht, Bool.false_eq_true, if_false, Bool.or_false]
      rw [Bool.or_false] at hcl
      cases hcond : ((t == rPrTag) && inP && o.fix_fonts) with
      | true =>
        rw [if_pos rfl, hcl]
        rw [hcond] at hB
        simp only [Bool.not_true, Bool.false_or] at hB
        rw [rFontsOkC_id hB]
      | false =>
        rw [if_neg Bool.false_ne_true, hcl]

theorem paraPassL_id : ∀ (c : XmlList) (o : FixOptions) (inP : Bool),
    pfxL o inP c = true → paraPassL o inP c = c
  | .nil => fun _ _ _ => rfl
  | .cons x xs => fun o inP h => by
    simp only [pfxL, Bool.and_eq_true] at h
    simp only [paraPassL]
    rw [paraPass_id x o inP h.1, paraPassL_id xs o inP h.2]

end

mutual

/-- A tree satisfying the paragraph fixed point raises nowhere. -/
theorem pfx_noRaises : ∀ (x : Xml) (o : FixOptions) (inP : Bool),
    pfx o inP x = true → paraRaises o x = false
  | .text _ => fun _ _ _ => rfl
  | .elem t a c => fun o inP h => by
    simp only [pfx, Bool.and_eq_true] at h
    obtain ⟨⟨hA, hB⟩, hC⟩ := h
    simp only [paraRaises, Bool.or_eq_false_iff]
    refine ⟨?_, pfxL_noRaises c o _ hC⟩
    cases ht : (t == pTag) with
    | false => rfl
    | true =>
      rw [ht] at hA
      simp only [Bool.not_true, Bool.false_or, Bool.and_eq_true] at hA
      have hloc : paraLocalRaise o c = false := by simpa using hA.2
      rw [hloc]
      rfl

theorem pfxL_noRaises : ∀ (c : XmlList) (o : FixOptions) (inP : Bool),
    pfxL o inP c = true → paraRaisesL o c = false
  | .nil => fun _ _ _ => rfl
  | .cons x xs => fun o inP h => by
    simp only [pfxL, Bool.and_eq_true] at h
    simp only [paraRaisesL, Bool.or_eq_false_iff]
    exact ⟨pfx_noRaises x o inP h.1, pfxL_noRaises xs o inP h.2⟩

end

-- ── Anchor sanity is preserved by the paragraph walk ───────────────────────

theorem countTag_paraPassL (o : FixOptions) (b : Bool) (u : String) :
    ∀ c : XmlList, (paraPassL o b c).countTag u = c.countTag u := by
  intro c
  induction c using XmlList.indOn with
  | nil => rfl
  | cons x xs ih =>
    simp only [paraPassL, XmlList.countTag, paraPass_hasTag, ih]

theorem noTagL_append (u : String) :
    ∀ c d : XmlList, noTagL u (c.append d) = (noTagL u c && noTagL u d) := by
  intro c d
  induction c using XmlList.indOn with
  | nil => simp [XmlList.append, noTagL]
  | cons x xs ih =>
    simp only [XmlList.append, noTagL, ih, Bool.and_assoc]

theorem noTagL_replaceFirstTag {u t : String} {f : Xml → Xml}
    (hf : ∀ x, x.hasTag t = true → noTag u x = true → noTag u (f x) = true) :
    ∀ {c : XmlList}, noTagL u c = true → noTagL u (c.replaceFirstTag t f) = true := by
  intro c
  induction c using XmlList.indOn with
  | nil => intro _; rfl
  | cons x xs ih =>
    intro h
    simp only [noTagL, Bool.and_eq_true] at h
    simp only [XmlList.replaceFirstTag]
    by_cases hx : x.hasTag t = true
    · rw [if_pos hx]
      simp only [noTagL, Bool.and_eq_true]
      exact ⟨hf x hx h.1, h.2⟩
    · rw [if_neg hx]
      simp only [noTagL, Bool.and_eq_true]
      exact ⟨h.1, ih h.2⟩

theorem noTag_fixSpacingEl (u : String) (x : Xml) :
    noTag u (fixSpacingEl x) = noTag u x := by
  cases x <;> rfl

theorem noTag_fixIndEl (u : String) (x : Xml) :
    noTag u (fixIndEl x) = noTag u x := by
  cases x <;> rfl

theorem noTag_fixRFontsEl (u : String) (x : Xml) :
    noTag u (fixRFontsEl x) = noTag u x := by
  cases x <;> rfl

theorem noTag_fp (u : String) (hu : (spacingTag == u) = false) {pp : Xml}
    (h : noTag u pp = true) : noTag u (fix_paragraph_spacing pp) = true := by
  cases pp with
  | text s => exact h
  | elem t a c =>
    simp only [noTag, Bool.and_eq_true] at h
    simp only [fix_paragraph_spacing]
    by_cases hx : c.anyTag spacingTag = true
    · rw [if_pos hx]
      simp only [noTag, Bool.and_eq_true]
      refine ⟨h.1, ?_⟩
      exact noTagL_replaceFirstTag (fun x _ hx2 => by rw [noTag_fixSpacingEl]; exact hx2) h.2
    · rw [if_neg hx]
      simp only [noTag, Bool.and_eq_true]
      refine ⟨h.1, ?_⟩
      rw [noTagL_append, h.2]
      simp only [Bool.true_and, noTagL, noTag, Bool.and_eq_true]
      exact ⟨⟨by rw [hu]; rfl, trivial⟩, trivial⟩

theorem noTag_fi (u : String) {pp : Xml}
    (h : noTag u pp = true) : noTag u (fix_indentation pp) = true := by
  cases pp with
  | text s => exact h
  | elem t a c =>
    simp only [noTag, Bool.and_eq_true] at h
    simp only [fix_indentation]
    by_cases hx : c.anyTag indTag = true
    · rw [if_pos hx]
      simp only [noTag, Bool.and_eq_true]
      refine ⟨h.1, ?_⟩
      exact noTagL_replaceFirstTag (fun x _ hx2 => by rw [noTag_fixIndEl]; exact hx2) h.2
    · rw [if_neg hx]
      simp only [noTag, Bool.and_eq_true]
      exact h

theorem noTag_fixPPr (u : String) (hu : (spacingTag == u) = false) (o : FixOptions) {pp : Xml}
    (h : noTag u pp = true) : noTag u (fixPPr o pp) = true := by
  unfold fixPPr
  by_cases hs : o.fix_spacing = true
  · rw [if_pos hs]
    by_cases hm : o.fix_margins = true
    · rw [if_pos hm]
      exact noTag_fi u (noTag_fp u hu h)
    · rw [if_neg hm]
      exact noTag_fp u hu h
  · rw [if_neg hs]
    by_cases hm : o.fix_margins = true
    · rw [if_pos hm]
      exact noTag_fi u h
    · rw [if_neg hm]
      exact h

theorem noTag_localFix (u : String) (hu1 : (spacingTag == u) = false)
    (hu2 : (pPrTag == u) = false) (o : FixOptions) {c : XmlList}
    (h : noTagL u c = true) : noTagL u (paraLocalFix o c) = true := by
  unfold paraLocalFix
  by_cases hx : c.anyTag pPrTag = true
  · rw [if_pos hx]
    exact noTagL_replaceFirstTag (fun x _ hx2 => noTag_fixPPr u hu1 o hx2) h
  · rw [if_neg hx]
    simp only [noTagL, Bool.and_eq_true]
    refine ⟨noTag_fixPPr u hu1 o ?_, h⟩
    simp only [noTag, Bool.and_eq_true]
    exact ⟨by rw [hu2]; rfl, rfl⟩

theorem noTag_rPrLocalFix (u : String) {c : XmlList}
    (h : noTagL u c = true) : noTagL u (rPrLocalFix c) = true := by
  unfold rPrLocalFix
  by_cases hx : c.anyTag rFontsTag = true
  · rw [if_pos hx]
    exact noTagL_replaceFirstTag (fun x _ hx2 => by rw [noTag_fixRFontsEl]; exact hx2) h
  · rw [if_neg hx]
    exact h

mutual

theorem noTag_paraPass (u : String) (hu1 : (spacingTag == u) = false)
    (hu2 : (pPrTag == u) = false) :
    ∀ (x : Xml) (o : FixOptions) (b : Bool),
      noTag u x = true → noTag u (paraPass o b x) = true
  | .text _ => fun _ _ h => h
  | .elem t a c => fun o b h => by
    simp only [noTag, Bool.and_eq_true] at h
    have hlist := noTagL_paraPassL u hu1 hu2 c o (b || (t == pTag)) h.2
    simp only [paraPass]
    cases ht : (t == pTag) with
    | true =>
      rw [ht] at hlist
      rw [if_pos rfl]
      simp only [noTag, Bool.and_eq_true]
      exact ⟨h.1, noTag_localFix u hu1 hu2 o hlist⟩
    | false =>
      rw [ht] at hlist
      rw [if_neg Bool.false_ne_true]
      cases hcond : ((t == rPrTag) && b && o.fix_fonts) with
      | true =>
        rw [if_pos rfl]
        simp only [noTag, Bool.and_eq_true]
        exact ⟨h.1, noTag_rPrLocalFix u hlist⟩
      | false =>
        rw [if_neg Bool.false_ne_true]
        simp only [noTag, Bool.and_eq_true]
        exact ⟨h.1, hlist⟩

theorem noTagL_paraPassL (u : String) (hu1 : (spacingTag == u) = false)
    (hu2 : (pPrTag == u) = false) :
    ∀ (c : XmlList) (o : FixOptions) (b : Bool),
      noTagL u c = true → noTagL u (paraPassL o b c) = true
  | .nil => fun _ _ h => h
  | .cons x xs => fun o b h => by
    simp only [noTagL, Bool.and_eq_true] at h
    simp only [paraPassL, noTagL, Bool.and_eq_true]
    exact ⟨noTag_paraPass u hu1 hu2 x o b h.1, noTagL_paraPassL u hu1 hu2 xs o b h.2⟩

end

theorem anchorSafeL_append (c d : XmlList) :
    anchorSafeL (c.append d) = (anchorSafeL c && anchorSafeL d) := by
  induction c using XmlList.indOn with
  | nil => simp [XmlList.append, anchorSafeL]
  | cons x xs ih =>
    simp only [XmlList.append, anchorSafeL, ih, Bool.and_assoc]

theorem anchorSafeL_replaceFirstTag {t : String} {f : Xml → Xml}
    (hf : ∀ x, x.hasTag t = true → anchorSafe x = true → anchorSafe (f x) = true) :
    ∀ {c : XmlList}, anchorSafeL c = true → anchorSafeL (c.replaceFirstTag t f) = true := by
  intro c
  induction c using XmlList.indOn with
  | nil => intro _; rfl
  | cons x xs ih =>
    intro h
    simp only [anchorSafeL, Bool.and_eq_true] at h
    simp only [XmlList.replaceFirstTag]
    by_cases hx : x.hasTag t = true
    · rw [if_pos hx]
      simp only [anchorSafeL, Bool.and_eq_true]
      exact ⟨hf x hx h.1, h.2⟩
    · rw [if_neg hx]
      simp only [anchorSafeL, Bool.and_eq_true]
      exact ⟨h.1, ih h.2⟩

theorem anchorSafe_fixSpacingEl (x : Xml) :
    anchorSafe (fixSpacingEl x) = anchorSafe x := by
  cases x <;> rfl

theorem anchorSafe_fixIndEl (x : Xml) :
    anchorSafe (fixIndEl x) = anchorSafe x := by
  cases x <;> rfl

theorem anchorSafe_fixRFontsEl (x : Xml) :
    anchorSafe (fixRFontsEl x) = anchorSafe x := by
  cases x <;> rfl

theorem anchorSafe_fp {pp : Xml} (htag : pp.hasTag pPrTag = true)
    (h : anchorSafe pp = true) : anchorSafe (fix_paragraph_spacing pp) = true := by
  cases pp with
  | text s => exact h
  | elem t a c =>
    have ht : t = pPrTag := by simpa [Xml.hasTag] using htag
    subst ht
    simp only [anchorSafe, Bool.and_eq_true] at h
    obtain ⟨⟨h1, h2⟩, h3⟩ := h
    simp only [fix_paragraph_spacing]
    by_cases hx : c.anyTag spacingTag = true
    · rw [if_pos hx]
      simp only [anchorSafe, Bool.and_eq_true]
      refine ⟨⟨?_, ?_⟩, ?_⟩
      · rw [show (pPrTag == drawingTag) = false from by decide]
        rfl
      · rw [show (pPrTag == anchorTag) = false from by decide]
        rfl
      · exact anchorSafeL_replaceFirstTag
          (fun x _ hx2 => by rw [anchorSafe_fixSpacingEl]; exact hx2) h3
    · rw [if_neg hx]
      simp only [anchorSafe, Bool.and_eq_true]
      refine ⟨⟨?_, ?_⟩, ?_⟩
      · rw [show (pPrTag == drawingTag) = false from by decide]
        rfl
      · rw [show (pPrTag == anchorTag) = false from by decide]
        rfl
      · rw [anchorSafeL_append, h3]
        simp only [Bool.true_and]
        decide

theorem anchorSafe_fi {pp : Xml} (htag : pp.hasTag pPrTag = true)
    (h : anchorSafe pp = true) : anchorSafe (fix_indentation pp) = true := by
  cases pp with
  | text s => exact h
  | elem t a c =>
    have ht : t = pPrTag := by simpa [Xml.hasTag] using htag
    subst ht
    simp only [anchorSafe, Bool.and_eq_true] at h
    obtain ⟨⟨h1, h2⟩, h3⟩ := h
    simp only [fix_indentation]
    by_cases hx : c.anyTag indTag = true
    · rw [if_pos hx]
      simp only [anchorSafe, Bool.and_eq_true]
      refine ⟨⟨h1, h2⟩, ?_⟩
      exact anchorSafeL_replaceFirstTag
        (fun x _ hx2 => by rw [anchorSafe_fixIndEl]; exact hx2) h3
    · rw [if_neg hx]
      simp only [anchorSafe, Bool.and_eq_true]
      exact ⟨⟨h1, h2⟩, h3⟩

theorem anchorSafe_fixPPr (o : FixOptions) {pp : Xml} (htag : pp.hasTag pPrTag = true)
    (h : anchorSafe pp = true) : anchorSafe (fixPPr o pp) = true := by
  unfold fixPPr
  by_cases hs : o.fix_spacing = true
  · rw [if_pos hs]
    by_cases hm : o.fix_margins = true
    · rw [if_pos hm]
      exact anchorSafe_fi (fp_hasTag_ppr htag) (anchorSafe_fp htag h)
    · rw [if_neg hm]
      exact anchorSafe_fp htag h
  · rw [if_neg hs]
    by_cases hm : o.fix_margins = true
    · rw [if_pos hm]
      exact anchorSafe_fi htag h
    · rw [if_neg hm]
      exact h

theorem anchorSafe_localFix (o : FixOptions) {c : XmlList}
    (h : anchorSafeL c = true) : anchorSafeL (paraLocalFix o c) = true := by
  unfold paraLocalFix
  by_cases hx : c.anyTag pPrTag = true
  · rw [if_pos hx]
    exact anchorSafeL_replaceFirstTag (fun x hxt hx2 => anchorSafe_fixPPr o hxt hx2) h
  · rw [if_neg hx]
    simp only [anchorSafeL, Bool.and_eq_true]
    refine ⟨anchorSafe_fixPPr o (by simp [Xml.hasTag]) (by decide), h⟩

theorem anchorSafe_rPrLocalFix {c : XmlList}
    (h : anchorSafeL c = true) : anchorSafeL (rPrLocalFix c) = true := by
  unfold rPrLocalFix
  by_cases hx : c.anyTag rFontsTag = true
  · rw [if_pos hx]
    exact anchorSafeL_replaceFirstTag
      (fun x _ hx2 => by rw [anchorSafe_fixRFontsEl]; exact hx2) h
  · rw [if_neg hx]
    exact h

mutual

/-- The paragraph walk preserves anchor sanity: it inserts only
paragraph-property and spacing elements and rewrites attributes. -/
theorem anchorSafe_paraPass : ∀ (x : Xml) (o : FixOptions) (b : Bool),
    anchorSafe x = true → anchorSafe (paraPass o b x) = true
  | .text _ => fun _ _ h => h
  | .elem t a c => fun o b h => by
    simp only [anchorSafe, Bool.and_eq_true] at h
    obtain ⟨⟨h1, h2⟩, h3⟩ := h
    have hlist := anchorSafeL_paraPassL c o (b || (t == pTag)) h3
    simp only [paraPass]
    cases ht : (t == pTag) with
    | true =>
      have htp : t = pTag := by simpa using ht
      subst htp
      rw [ht] at hlist
      rw [if_pos rfl]
      simp only [anchorSafe, Bool.and_eq_true]
      refine ⟨⟨?_, ?_⟩, anchorSafe_localFix o hlist⟩
      · rw [show (pTag == drawingTag) = false from by decide]
        rfl
      · rw [show (pTag == anchorTag) = false from by decide]
        rfl
    | false =>
      rw [ht] at hlist
      rw [if_neg Bool.false_ne_true]
      cases hcond : ((t == rPrTag) && b && o.fix_fonts) with
      | true =>
        rw [if_pos rfl]
        have htr : t = rPrTag := by
          have := (Bool.and_eq_true_iff.mp (Bool.and_eq_true_iff.mp hcond).1).1
          simpa using this
        subst htr
        simp only [anchorSafe, Bool.and_eq_true]
        refine ⟨⟨?_, ?_⟩, anchorSafe_rPrLocalFix hlist⟩
        · rw [show (rPrTag == drawingTag) = false from by decide]
          rfl
        · rw [show (rPrTag == anchorTag) = false from by decide]
          rfl
      | false =>
        rw [if_neg Bool.false_ne_true]
        simp only [anchorSafe, Bool.and_eq_true]
        refine ⟨⟨?_, ?_⟩, hlist⟩
        · cases hd : (t == drawingTag) with
          | false => rfl
          | true =>
            rw [hd] at h1
            simp only [Bool.not_true, Bool.false_or] at h1
            rw [countTag_paraPassL]
            simp [h1]
        · cases hd : (t == anchorTag) with
          | false => rfl
          | true =>
            rw [hd] at h2
            simp only [Bool.not_true, Bool.false_or] at h2
            have := noTagL_paraPassL drawingTag (by decide) (by decide) c o b h2
            simp [this]

theorem anchorSafeL_paraPassL : ∀ (c : XmlList) (o : FixOptions) (b : Bool),
    anchorSafeL c = true → anchorSafeL (paraPassL o b c) = true
  | .nil => fun _ _ h => h
  | .cons x xs => fun o b h => by
    simp only [anchorSafeL, Bool.and_eq_true] at h
    simp only [paraPassL, anchorSafeL, Bool.and_eq_true]
    exact ⟨anchorSafe_paraPass x o b h.1, anchorSafeL_paraPassL xs o b h.2⟩

end

-- ── Flag monotonicity and descent of the paragraph fixed point ─────────────

mutual

theorem pfx_mono : ∀ (x : Xml) (o : FixOptions) (b : Bool),
    pfx o true x = true → pfx o b x = true
  | .text _ => fun _ _ _ => rfl
  | .elem t a c => fun o b h => by
    simp only [pfx, Bool.and_eq_true] at h ⊢
    obtain ⟨⟨hA, hB⟩, hC⟩ := h
    rw [Bool.true_or] at hC
    refine ⟨⟨hA, ?_⟩, ?_⟩
    · cases hcond : ((t == rPrTag) && b && o.fix_fonts) with
      | false => rfl
      | true =>
        have ht : (t == rPrTag) = true :=
          (Bool.and_eq_true_iff.mp (Bool.and_eq_true_iff.mp hcond).1).1
        have hf : o.fix_fonts = true := (Bool.and_eq_true_iff.mp hcond).2
        rw [ht, hf] at hB
        simpa using hB
    · cases ht : (t == pTag) with
      | true =>
        rw [Bool.or_true]
        exact hC
      | false =>
        rw [Bool.or_false]
        exact pfxL_mono c o b hC

theorem pfxL_mono : ∀ (c : XmlList) (o : FixOptions) (b : Bool),
    pfxL o true c = true → pfxL o b c = true
  | .nil => fun _ _ _ => rfl
  | .cons x xs => fun o b h => by
    simp only [pfxL, Bool.and_eq_true] at h ⊢
    exact ⟨pfx_mono x o b h.1, pfxL_mono xs o b h.2⟩

end

theorem pfx_down {x : Xml} {o : FixOptions} {b1 b2 : Bool}
    (h : pfx o b1 x = true) : pfx o (b2 && b1) x = true := by
  cases b1 with
  | true =>
    cases b2 with
    | true => exact h
    | false => exact pfx_mono x o false h
  | false =>
    cases b2 with
    | true => exact h
    | false => exact h

mutual

theorem pfx_findDesc : ∀ (x : Xml) (o : FixOptions) (b : Bool) (t : String) (g : Xml),
    pfx o b x = true → findDescTag t x = some g → pfx o b g = true
  | .text _ => fun _ _ _ g _ hf => by cases hf
  | .elem tg a c => fun o b t g h hf => by
    simp only [pfx, Bool.and_eq_true] at h
    obtain ⟨⟨hA, hB⟩, hC⟩ := h
    simp only [findDescTag] at hf
    have hg := pfxL_findDesc c o (b || (tg == pTag)) t g hC hf
    cases ht : (tg == pTag) with
    | false =>
      rw [ht, Bool.or_false] at hg
      exact hg
    | true =>
      rw [ht, Bool.or_true] at hg
      cases b with
      | true => exact hg
      | false => exact pfx_mono g o false hg

theorem pfxL_findDesc : ∀ (c : XmlList) (o : FixOptions) (b : Bool) (t : String) (g : Xml),
    pfxL o b c = true → findDescTagL t c = some g → pfx o b g = true
  | .nil => fun _ _ _ g _ hf => by cases hf
  | .cons x xs => fun o b t g h hf => by
    simp only [pfxL, Bool.and_eq_true] at h
    simp only [findDescTagL] at hf
    by_cases hx : x.hasTag t = true
    · rw [if_pos hx] at hf
      cases hf
      exact h.1
    · rw [if_neg hx] at hf
      rcases hd : findDescTag t x with _ | r
      · rw [hd] at hf
        exact pfxL_findDesc xs o b t g h.2 hf
      · rw [hd] at hf
        cases hf
        exact pfx_findDesc x o b t g h.1 hd

end

-- ── The image-walk fixed point: utilities ──────────────────────────────────

theorem ifxL_append (c d : XmlList) : ifxL (c.append d) = (ifxL c && ifxL d) := by
  induction c using XmlList.indOn with
  | nil => simp [XmlList.append, ifxL]
  | cons x xs ih =>
    simp only [XmlList.append, ifxL, ih, Bool.and_assoc]

theorem ifxL_removeFirstTag {u : String} :
    ∀ {c : XmlList}, ifxL c = true → ifxL (c.removeFirstTag u) = true := by
  intro c
  induction c using XmlList.indOn with
  | nil => intro _; rfl
  | cons x xs ih =>
    intro h
    simp only [ifxL, Bool.and_eq_true] at h
    simp only [XmlList.removeFirstTag]
    by_cases hx : x.hasTag u = true
    · rw [if_pos hx]
      exact h.2
    · rw [if_neg hx]
      simp only [ifxL, Bool.and_eq_true]
      exact ⟨h.1, ih h.2⟩

theorem ifxL_replaceFirstTag {u : String} {f : Xml → Xml}
    (hf : ∀ x, x.hasTag u = true → ifx x = true → ifx (f x) = true) :
    ∀ {c : XmlList}, ifxL c = true → ifxL (c.replaceFirstTag u f) = true := by
  intro c
  induction c using XmlList.indOn with
  | nil => intro _; rfl
  | cons x xs ih =>
    intro h
    simp only [ifxL, Bool.and_eq_true] at h
    simp only [XmlList.replaceFirstTag]
    by_cases hx : x.hasTag u = true
    · rw [if_pos hx]
      simp only [ifxL, Bool.and_eq_true]
      exact ⟨hf x hx h.1, h.2⟩
    · rw [if_neg hx]
      simp only [ifxL, Bool.and_eq_true]
      exact ⟨h.1, ih h.2⟩

theorem ifxL_findTag {u : String} :
    ∀ {c : XmlList} {x : Xml}, ifxL c = true → c.findTag u = some x → ifx x = true := by
  intro c
  induction c using XmlList.indOn with
  | nil => intro x _ hf; cases hf
  | cons y ys ih =>
    intro x h hf
    simp only [ifxL, Bool.and_eq_true] at h
    simp only [XmlList.findTag] at hf
    by_cases hy : y.hasTag u = true
    · rw [if_pos hy] at hf
      cases hf
      exact h.1
    · rw [if_neg hy] at hf
      exact ih h.2 hf

theorem anchorSafeL_findTag {u : String} :
    ∀ {c : XmlList} {x : Xml}, anchorSafeL c = true → c.findTag u = some x →
      anchorSafe x = true := by
  intro c
  induction c using XmlList.indOn with
  | nil => intro x _ hf; cases hf
  | cons y ys ih =>
    intro x h hf
    simp only [anchorSafeL, Bool.and_eq_true] at h
    simp only [XmlList.findTag] at hf
    by_cases hy : y.hasTag u = true
    · rw [if_pos hy] at hf
      cases hf
      exact h.1
    · rw [if_neg hy] at hf
      exact ih h.2 hf

theorem noTagL_findTag {u t : String} :
    ∀ {c : XmlList} {x : Xml}, noTagL u c = true → c.findTag t = some x →
      noTag u x = true := by
  intro c
  induction c using XmlList.indOn with
  | nil => intro x _ hf; cases hf
  | cons y ys ih =>
    intro x h hf
    simp only [noTagL, Bool.and_eq_true] at h
    simp only [XmlList.findTag] at hf
    by_cases hy : y.hasTag t = true
    · rw [if_pos hy] at hf
      cases hf
      exact h.1
    · rw [if_neg hy] at hf
      exact ih h.2 hf

mutual

theorem noTag_findDesc : ∀ (x : Xml) (u t : String) (g : Xml),
    noTag u x = true → findDescTag t x = some g → noTag u g = true
  | .text _ => fun _ _ g _ hf => by cases hf
  | .elem tg a c => fun u t g h hf => by
    simp only [noTag, Bool.and_eq_true] at h
    simp only [findDescTag] at hf
    exact noTagL_findDesc c u t g h.2 hf

theorem noTagL_findDesc : ∀ (c : XmlList) (u t : String) (g : Xml),
    noTagL u c = true → findDescTagL t c = some g → noTag u g = true
  | .nil => fun _ _ g _ hf => by cases hf
  | .cons x xs => fun u t g h hf => by
    simp only [noTagL, Bool.and_eq_true] at h
    simp only [findDescTagL] at hf
    by_cases hx : x.hasTag t = true
    · rw [if_pos hx] at hf
      cases hf
      exact h.1
    · rw [if_neg hx] at hf
      rcases hd : findDescTag t x with _ | r
      · rw [hd] at hf
        exact noTagL_findDesc xs u t g h.2 hf
      · rw [hd] at hf
        cases hf
        exact noTag_findDesc x u t g h.1 hd

end

mutual

/-- A subtree without drawings trivially satisfies the image fixed point. -/
theorem noTag_ifx : ∀ x : Xml, noTag drawingTag x = true → ifx x = true
  | .text _ => fun _ => rfl
  | .elem t a c => fun h => by
    simp only [noTag, Bool.and_eq_true] at h
    simp only [ifx, Bool.and_eq_true]
    refine ⟨?_, noTagL_ifxL c h.2⟩
    cases hd : (t == drawingTag) with
    | false => rfl
    | true =>
      rw [hd] at h
      exact absurd h.1 (by simp)

theorem noTagL_ifxL : ∀ c : XmlList, noTagL drawingTag c = true → ifxL c = true
  | .nil => fun _ => rfl
  | .cons x xs => fun h => by
    simp only [noTagL, Bool.and_eq_true] at h
    simp only [ifxL, Bool.and_eq_true]
    exact ⟨noTag_ifx x h.1, noTagL_ifxL xs h.2⟩

end

mutual

theorem findDescL_none_of_noTagL : ∀ (c : XmlList) (t : String),
    noTagL t c = true → findDescTagL t c = none
  | .nil => fun _ _ => rfl
  | .cons x xs => fun t h => by
    simp only [noTagL, Bool.and_eq_true] at h
    obtain ⟨h1, h2⟩ := h
    simp only [findDescTagL]
    cases x with
    | text s =>
      simp only [Xml.hasTag]
      rw [if_neg (by exact Bool.false_ne_true)]
      simp only [findDescTag]
      exact findDescL_none_of_noTagL xs t h2
    | elem tg a cc =>
      simp only [noTag, Bool.and_eq_true] at h1
      have htg : ((Xml.elem tg a cc).hasTag t) = false := by
        simp only [Xml.hasTag]
        simpa using h1.1
      rw [if_neg (by rw [htg]; exact Bool.false_ne_true)]
      simp only [findDescTag]
      rw [findDescL_none_of_noTagL cc t h1.2]
      exact findDescL_none_of_noTagL xs t h2

end

mutual

theorem noTag_of_findDesc_none : ∀ (x : Xml) (t : String),
    findDescTag t x = none → x.hasTag t = false → noTag t x = true
  | .text _ => fun _ _ _ => rfl
  | .elem tg a c => fun t hf htg => by
    simp only [findDescTag] at hf
    simp only [noTag, Bool.and_eq_true]
    constructor
    · simp only [Xml.hasTag] at htg
      rw [htg]
      rfl
    · exact noTagL_of_findDescL_none c t hf

theorem noTagL_of_findDescL_none : ∀ (c : XmlList) (t : String),
    findDescTagL t c = none → noTagL t c = true
  | .nil => fun _ _ => rfl
  | .cons x xs => fun t hf => by
    simp only [findDescTagL] at hf
    by_cases hx : x.hasTag t = true
    · rw [if_pos hx] at hf
      cases hf
    · rw [if_neg hx] at hf
      rcases hd : findDescTag t x with _ | r
      · rw [hd] at hf
        simp only [noTagL, Bool.and_eq_true]
        refine ⟨noTag_of_findDesc_none x t hd ?_, noTagL_of_findDescL_none xs t hf⟩
        cases hxx : x.hasTag t with
        | false => rfl
        | true => exact absurd hxx hx
      · rw [hd] at hf
        cases hf

end

theorem findTag_some_countTag_pos {t : String} :
    ∀ {c : XmlList} {x : Xml}, c.findTag t = some x → 1 ≤ c.countTag t := by
  intro c
  induction c using XmlList.indOn with
  | nil => intro x h; cases h
  | cons y ys ih =>
    intro x h
    simp only [XmlList.findTag] at h
    simp only [XmlList.countTag]
    by_cases hy : y.hasTag t = true
    · rw [if_pos hy]
      omega
    · rw [if_neg hy] at h
      rw [if_neg hy]
      have := ih h
      omega

theorem ifx_nondrawing {t : String} {a : List (String × String)} {c : XmlList}
    (h : (t == drawingTag) = false) : ifx (.elem t a c) = ifxL c := by
  simp [ifx, h]

theorem pfx_mkInline {o : FixOptions} {b : Bool} {anc g : Xml}
    (htag : anc.hasTag anchorTag = true) (hanc : pfx o b anc = true)
    (hg : pfx o b g = true) : pfx o b (mkInline anc g) = true := by
  have hca : pfxL o b anc.childrenOf = true := by
    cases anc with
    | text s => exact Bool.noConfusion htag
    | elem ta aa ca =>
      have hta : ta = anchorTag := by simpa [Xml.hasTag] using htag
      subst hta
      rw [pfx_cond (by decide)
        (by rw [show (anchorTag == rPrTag) = false from by decide]; rfl)] at hanc
      exact hanc
  have hext : ∀ A : List (String × String), pfx o b (.elem extentTag A XmlList.nil) = true := by
    intro A
    rw [pfx_cond (by decide) (by rw [show (extentTag == rPrTag) = false from by decide]; rfl)]
    rfl
  have heff : ∀ A : List (String × String),
      pfx o b (.elem effectExtentTag A XmlList.nil) = true := by
    intro A
    rw [pfx_cond (by decide)
      (by rw [show (effectExtentTag == rPrTag) = false from by decide]; rfl)]
    rfl
  simp only [mkInline]
  rcases hdp : (anc.childrenOf).findTag docPrTag with _ | dp
  · rw [pfx_cond (by decide) (by rw [show (inlineTag == rPrTag) = false from by decide]; rfl)]
    rw [pfxL_append]
    simp only [pfxL, Bool.and_eq_true]
    exact ⟨⟨hext _, heff _, trivial⟩, hg, trivial⟩
  · rw [pfx_cond (by decide) (by rw [show (inlineTag == rPrTag) = false from by decide]; rfl)]
    rw [pfxL_append, pfxL_append]
    simp only [pfxL, Bool.and_eq_true]
    exact ⟨⟨⟨hext _, heff _, trivial⟩, pfxL_findTag hca hdp, trivial⟩, hg, trivial⟩

theorem ifx_mkInline {anc g : Xml}
    (hnd : noTagL drawingTag anc.childrenOf = true) (hg : ifx g = true) :
    ifx (mkInline anc g) = true := by
  have hext : ∀ A : List (String × String), ifx (.elem extentTag A XmlList.nil) = true := by
    intro A
    rw [ifx_nondrawing (by decide)]
    rfl
  have heff : ∀ A : List (String × String),
      ifx (.elem effectExtentTag A XmlList.nil) = true := by
    intro A
    rw [ifx_nondrawing (by decide)]
    rfl
  simp only [mkInline]
  rcases hdp : (anc.childrenOf).findTag docPrTag with _ | dp
  · rw [ifx_nondrawing (by decide)]
    rw [ifxL_append]
    simp only [ifxL, Bool.and_eq_true]
    exact ⟨⟨hext _, heff _, trivial⟩, hg, trivial⟩
  · rw [ifx_nondrawing (by decide)]
    rw [ifxL_append, ifxL_append]
    simp only [ifxL, Bool.and_eq_true]
    exact ⟨⟨⟨hext _, heff _, trivial⟩, noTag_ifx dp (noTagL_findTag hnd hdp), trivial⟩,
      hg, trivial⟩

theorem imgPass_nondrawing {t : String} {a : List (String × String)} {c : XmlList}
    (h : (t == drawingTag) = false) :
    imgPass (.elem t a c) = .elem t a (imgPassL c) := by
  simp [imgPass, h]

theorem imgPass_drawing_none {a : List (String × String)} {c : XmlList}
    (hanc : c.findTag anchorTag = none) :
    imgPass (.elem drawingTag a c) = .elem drawingTag a (imgPassL c) := by
  simp [imgPass, hanc]

theorem imgPass_drawing_nog {a : List (String × String)} {c : XmlList} {anc : Xml}
    (hanc : c.findTag anchorTag = some anc)
    (hg : findDescTag graphicTag anc = none) :
    imgPass (.elem drawingTag a c) = .elem drawingTag a (imgPassL c) := by
  simp [imgPass, hanc, hg]

theorem imgPass_drawing_conv {a : List (String × String)} {c : XmlList} {anc g : Xml}
    (hanc : c.findTag anchorTag = some anc)
    (hg : findDescTag graphicTag anc = some g) :
    imgPass (.elem drawingTag a c) = .elem drawingTag a
      (((imgPassL c).removeFirstTag anchorTag).append (.cons (mkInline anc g) .nil)) := by
  simp [imgPass, hanc, hg]

mutual

/-- After the image walk over an anchor-sane tree, every drawing satisfies
the image fixed point. -/
theorem imgPass_ifx : ∀ x : Xml, anchorSafe x = true → ifx (imgPass x) = true
  | .text _ => fun _ => rfl
  | .elem t a c => fun h => by
    simp only [anchorSafe, Bool.and_eq_true] at h
    obtain ⟨⟨h1, h2⟩, h3⟩ := h
    have hlist := imgPassL_ifxL c h3
    cases ht : (t == drawingTag) with
    | false =>
      rw [imgPass_nondrawing ht, ifx_nondrawing ht]
      exact hlist
    | true =>
      have htd : t = drawingTag := by simpa using ht
      subst htd
      rw [ht] at h1
      simp only [Bool.not_true, Bool.false_or] at h1
      rcases hanc : c.findTag anchorTag with _ | anc
      · rw [imgPass_drawing_none hanc]
        simp only [ifx, Bool.and_eq_true]
        refine ⟨?_, hlist⟩
        simp only [ht, Bool.not_true, Bool.false_or]
        unfold drawOkC
        rw [findTag_imgPassL, hanc]
        rfl
      · have hsafe := anchorSafeL_findTag h3 hanc
        have hat := findTag_some_hasTag hanc
        have hndfull : noTag drawingTag anc = true := by
          cases anc with
          | text s => exact Bool.noConfusion hat
          | elem ta aa ca =>
            have hta : ta = anchorTag := by simpa [Xml.hasTag] using hat
            subst hta
            simp only [anchorSafe, Bool.and_eq_true] at hsafe
            obtain ⟨⟨_, s2⟩, _⟩ := hsafe
            simp only [beq_self_eq_true, Bool.not_true, Bool.false_or] at s2
            simp only [noTag, Bool.and_eq_true]
            exact ⟨by rw [show (anchorTag == drawingTag) = false from by decide]; rfl, s2⟩
        rcases hg : findDescTag graphicTag anc with _ | g
        · rw [imgPass_drawing_nog hanc hg]
          simp only [ifx, Bool.and_eq_true]
          refine ⟨?_, hlist⟩
          simp only [ht, Bool.not_true, Bool.false_or]
          unfold drawOkC
          rw [findTag_imgPassL, hanc]
          show (findDescTag graphicTag (imgPass anc)).isNone = true
          rw [imgPass_of_noDrawing anc hndfull, hg]
          rfl
        · rw [imgPass_drawing_conv hanc hg]
          have hnd2 : noTagL drawingTag anc.childrenOf = true := by
            cases anc with
            | text s => exact Bool.noConfusion hat
            | elem ta aa ca =>
              simp only [noTag, Bool.and_eq_true] at hndfull
              exact hndfull.2
          simp only [ifx, Bool.and_eq_true]
          constructor
          · simp only [ht, Bool.not_true, Bool.false_or]
            unfold drawOkC
            have hz : (((imgPassL c).removeFirstTag anchorTag).append
                (.cons (mkInline anc g) .nil)).countTag anchorTag = 0 := by
              rw [countTag_append, countTag_removeFirstTag_self, countTag_imgPassL]
              have hle : c.countTag anchorTag ≤ 1 := of_decide_eq_true h1
              have hge := findTag_some_countTag_pos hanc
              simp only [XmlList.countTag]
              rw [mkInline_hasTag]
              rw [show (inlineTag == anchorTag) = false from by decide]
              rw [if_neg Bool.false_ne_true]
              omega
            rw [countTag_zero_findTag hz]
          · rw [ifxL_append]
            simp only [ifxL, Bool.and_eq_true]
            refine ⟨ifxL_removeFirstTag hlist, ?_, trivial⟩
            exact ifx_mkInline hnd2
              (noTag_ifx g (noTag_findDesc anc drawingTag graphicTag g hndfull hg))

theorem imgPassL_ifxL : ∀ c : XmlList, anchorSafeL c = true → ifxL (imgPassL c) = true
  | .nil => fun _ => rfl
  | .cons x xs => fun h => by
    simp only [anchorSafeL, Bool.and_eq_true] at h
    simp only [imgPassL, ifxL, Bool.and_eq_true]
    exact ⟨imgPass_ifx x h.1, imgPassL_ifxL xs h.2⟩

end

mutual

/-- A tree satisfying the image fixed point is unchanged by the image
walk. -/
theorem imgPass_id : ∀ x : Xml, ifx x = true → imgPass x = x
  | .text _ => fun _ => rfl
  | .elem t a c => fun h => by
    simp only [ifx, Bool.and_eq_true] at h
    obtain ⟨hA, hC⟩ := h
    cases ht : (t == drawingTag) with
    | false =>
      rw [imgPass_nondrawing ht, imgPassL_id c hC]
    | true =>
      have htd : t = drawingTag := by simpa using ht
      subst htd
      rw [ht] at hA
      simp only [Bool.not_true, Bool.false_or] at hA
      unfold drawOkC at hA
      rcases hanc : c.findTag anchorTag with _ | anc
      · rw [imgPass_drawing_none hanc, imgPassL_id c hC]
      · rw [hanc] at hA
        have hA2 : (findDescTag graphicTag anc).isNone = true := hA
        have hgnone : findDescTag graphicTag anc = none :=
          Option.isNone_iff_eq_none.mp hA2
        rw [imgPass_drawing_nog hanc hgnone, imgPassL_id c hC]

theorem imgPassL_id : ∀ c : XmlList, ifxL c = true → imgPassL c = c
  | .nil => fun _ => rfl
  | .cons x xs => fun h => by
    simp only [ifxL, Bool.and_eq_true] at h
    simp only [imgPassL]
    rw [imgPass_id x h.1, imgPassL_id xs h.2]

end

mutual

/-- The image walk preserves the paragraph fixed point. -/
theorem pfx_imgPass : ∀ (x : Xml) (o : FixOptions) (b : Bool),
    pfx o b x = true → pfx o b (imgPass x) = true
  | .text _ => fun _ _ h => h
  | .elem t a c => fun o b h => by
    simp only [pfx, Bool.and_eq_true] at h
    obtain ⟨⟨hA, hB⟩, hC⟩ := h
    have hlist := pfxL_imgPassL c o (b || (t == pTag)) hC
    cases ht : (t == drawingTag) with
    | false =>
      rw [imgPass_nondrawing ht]
      simp only [pfx, Bool.and_eq_true]
      refine ⟨⟨?_, ?_⟩, hlist⟩
      · cases hp : (t == pTag) with
        | false => rfl
        | true =>
          rw [hp] at hA
          simp only [Bool.not_true, Bool.false_or, Bool.and_eq_true] at hA
          simp only [Bool.not_true, Bool.false_or, Bool.and_eq_true]
          rw [gen_paraOkC (fun u c2 => findTag_imgPassL u c2) imgPass_attrs imgPass_pprChild,
            gen_paraLocalRaise (fun u c2 => findTag_imgPassL u c2) imgPass_attrs imgPass_pprChild]
          exact hA
      · cases hcond : ((t == rPrTag) && b && o.fix_fonts) with
        | false => rfl
        | true =>
          rw [hcond] at hB
          simp only [Bool.not_true, Bool.false_or] at hB
          simp only [Bool.not_true, Bool.false_or]
          rw [gen_rFontsOkC (fun u c2 => findTag_imgPassL u c2) imgPass_attrs]
          exact hB
    | true =>
      have htd : t = drawingTag := by simpa using ht
      subst htd
      rw [show (drawingTag == pTag) = false from by decide, Bool.or_false] at hlist hC
      rcases hanc : c.findTag anchorTag with _ | anc
      · rw [imgPass_drawing_none hanc]
        rw [pfx_cond (by decide)
          (by rw [show (drawingTag == rPrTag) = false from by decide]; rfl)]
        exact hlist
      · rcases hg : findDescTag graphicTag anc with _ | g
        · rw [imgPass_drawing_nog hanc hg]
          rw [pfx_cond (by decide)
            (by rw [show (drawingTag == rPrTag) = false from by decide]; rfl)]
          exact hlist
        · rw [imgPass_drawing_conv hanc hg]
          rw [pfx_cond (by decide)
            (by rw [show (drawingTag == rPrTag) = false from by decide]; rfl)]
          rw [pfxL_append]
          simp only [pfxL, Bool.and_eq_true]
          have hancp : pfx o b anc = true := pfxL_findTag hC hanc
          refine ⟨pfxL_removeFirstTag hlist, ?_, trivial⟩
          exact pfx_mkInline (findTag_some_hasTag hanc) hancp
            (pfx_findDesc anc o b graphicTag g hancp hg)

theorem pfxL_imgPassL : ∀ (c : XmlList) (o : FixOptions) (b : Bool),
    pfxL o b c = true → pfxL o b (imgPassL c) = true
  | .nil => fun _ _ h => h
  | .cons x xs => fun o b h => by
    simp only [pfxL, Bool.and_eq_true] at h
    simp only [imgPassL, pfxL, Bool.and_eq_true]
    exact ⟨pfx_imgPass x o b h.1, pfxL_imgPassL xs o b h.2⟩

end

-- ── The table walk: branch equations and fixed point ───────────────────────

theorem tblPass_nontbl {t : String} {a : List (String × String)} {c : XmlList}
    (h : (t == tblTag) = false) :
    tblPass (.elem t a c) = .elem t a (tblPassL c) := by
  simp [tblPass, h]

theorem tblPass_tbl_repl {a : List (String × String)} {c : XmlList}
    (h : (tblPassL c).anyTag tblPrTag = true) :
    tblPass (.elem tblTag a c) =
      .elem tblTag a ((tblPassL c).replaceFirstTag tblPrTag tblPrFix) := by
  simp [tblPass, h]

theorem tblPass_tbl_fresh {a : List (String × String)} {c : XmlList}
    (h : (tblPassL c).anyTag tblPrTag = false) :
    tblPass (.elem tblTag a c) =
      .elem tblTag a (.cons (tblPrFix (.elem tblPrTag [] .nil)) (tblPassL c)) := by
  simp [tblPass, h]

theorem tblPrFix_hasTag (x : Xml) (u : String) :
    (tblPrFix x).hasTag u = x.hasTag u := by
  cases x with
  | text s => rfl
  | elem t a c =>
    simp only [tblPrFix]
    by_cases h : c.anyTag tblCellMarTag = true
    · rw [if_pos h]
    · rw [if_neg h]
      rfl

theorem tfx_nontbl {t : String} {a : List (String × String)} {c : XmlList}
    (h : (t == tblTag) = false) : tfx (.elem t a c) = tfxL c := by
  simp [tfx, h]

theorem tfxL_append (c d : XmlList) : tfxL (c.append d) = (tfxL c && tfxL d) := by
  induction c using XmlList.indOn with
  | nil => simp [XmlList.append, tfxL]
  | cons x xs ih =>
    simp only [XmlList.append, tfxL, ih, Bool.and_assoc]

theorem tfxL_replaceFirstTag {u : String} {f : Xml → Xml}
    (hf : ∀ x, x.hasTag u = true → tfx x = true → tfx (f x) = true) :
    ∀ {c : XmlList}, tfxL c = true → tfxL (c.replaceFirstTag u f) = true := by
  intro c
  induction c using XmlList.indOn with
  | nil => intro _; rfl
  | cons x xs ih =>
    intro h
    simp only [tfxL, Bool.and_eq_true] at h
    simp only [XmlList.replaceFirstTag]
    by_cases hx : x.hasTag u = true
    · rw [if_pos hx]
      simp only [tfxL, Bool.and_eq_true]
      exact ⟨hf x hx h.1, h.2⟩
    · rw [if_neg hx]
      simp only [tfxL, Bool.and_eq_true]
      exact ⟨h.1, ih h.2⟩

theorem tfxL_findTag {u : String} :
    ∀ {c : XmlList} {x : Xml}, tfxL c = true → c.findTag u = some x → tfx x = true := by
  intro c
  induction c using XmlList.indOn with
  | nil => intro x _ hf; cases hf
  | cons y ys ih =>
    intro x h hf
    simp only [tfxL, Bool.and_eq_true] at h
    simp only [XmlList.findTag] at hf
    by_cases hy : y.hasTag u = true
    · rw [if_pos hy] at hf
      cases hf
      exact h.1
    · rw [if_neg hy] at hf
      exact ih h.2 hf

theorem tfx_mkTblCellMar : tfx mkTblCellMar = true := by decide

theorem pfx_mkTblCellMar (o : FixOptions) (b : Bool) : pfx o b mkTblCellMar = true := by
  unfold mkTblCellMar
  rw [pfx_cond (by decide)
    (by rw [show (tblCellMarTag == rPrTag) = false from by decide]; rfl)]
  simp only [pfxL, Bool.and_eq_true]
  refine ⟨?_, ?_, ?_, ?_, trivial⟩
  · rw [pfx_cond (by decide)
      (by rw [show ((tag nsW "top") == rPrTag) = false from by decide]; rfl)]
    rfl
  · rw [pfx_cond (by decide)
      (by rw [show ((tag nsW "left") == rPrTag) = false from by decide]; rfl)]
    rfl
  · rw [pfx_cond (by decide)
      (by rw [show ((tag nsW "bottom") == rPrTag) = false from by decide]; rfl)]
    rfl
  · rw [pfx_cond (by decide)
      (by rw [show ((tag nsW "right") == rPrTag) = false from by decide]; rfl)]
    rfl

theorem tfx_tblPrFix {tp : Xml} (htag : tp.hasTag tblPrTag = true)
    (h : tfx tp = true) : tfx (tblPrFix tp) = true := by
  cases tp with
  | text s => exact Bool.noConfusion htag
  | elem t2 a2 c2 =>
    have ht2 : t2 = tblPrTag := by simpa [Xml.hasTag] using htag
    subst ht2
    simp only [tblPrFix]
    by_cases hx : c2.anyTag tblCellMarTag = true
    · rw [if_pos hx]
      exact h
    · rw [if_neg hx]
      rw [tfx_nontbl (by decide)] at h ⊢
      rw [tfxL_append, h]
      simp only [Bool.true_and, tfxL, Bool.and_eq_true]
      exact ⟨tfx_mkTblCellMar, trivial⟩

theorem tblPrFix_cellmar {tp : Xml} (htag : tp.hasTag tblPrTag = true) :
    ((tblPrFix tp).childrenOf).anyTag tblCellMarTag = true := by
  cases tp with
  | text s => exact Bool.noConfusion htag
  | elem t2 a2 c2 =>
    simp only [tblPrFix]
    by_cases hx : c2.anyTag tblCellMarTag = true
    · rw [if_pos hx]
      exact hx
    · rw [if_neg hx]
      simp only [Xml.childrenOf]
      rw [anyTag_append]
      simp only [XmlList.anyTag]
      rw [show mkTblCellMar.hasTag tblCellMarTag = true from by decide]
      simp

theorem tblOkC_elim {c : XmlList} (h : tblOkC c = true) :
    ∃ tp, c.findTag tblPrTag = some tp ∧ (tp.childrenOf).anyTag tblCellMarTag = true := by
  unfold tblOkC at h
  rcases hf : c.findTag tblPrTag with _ | tp
  · rw [hf] at h
    exact Bool.noConfusion h
  · rw [hf] at h
    exact ⟨tp, rfl, h⟩

theorem tblPrFix_id {tp : Xml}
    (h : (tp.childrenOf).anyTag tblCellMarTag = true) : tblPrFix tp = tp := by
  cases tp with
  | text s => rfl
  | elem t2 a2 c2 =>
    simp only [Xml.childrenOf] at h
    simp only [tblPrFix]
    rw [if_pos h]

mutual

/-- After the table walk, every table satisfies the table fixed point. -/
theorem tblPass_tfx : ∀ x : Xml, tfx (tblPass x) = true
  | .text _ => rfl
  | .elem t a c => by
    have hlist := tblPassL_tfxL c
    cases ht : (t == tblTag) with
    | false =>
      rw [tblPass_nontbl ht, tfx_nontbl ht]
      exact hlist
    | true =>
      have htd : t = tblTag := by simpa using ht
      subst htd
      cases hany : (tblPassL c).anyTag tblPrTag with
      | true =>
        rw [tblPass_tbl_repl hany]
        simp only [tfx, Bool.and_eq_true]
        constructor
        · simp only [ht, Bool.not_true, Bool.false_or]
          rw [anyTag_iff_findTag] at hany
          rcases Option.isSome_iff_exists.mp hany with ⟨tp, htp⟩
          unfold tblOkC
          rw [findTag_replaceFirstTag htp
            (by rw [tblPrFix_hasTag]; exact findTag_some_hasTag htp)]
          exact tblPrFix_cellmar (findTag_some_hasTag htp)
        · exact tfxL_replaceFirstTag (fun x hxt hx => tfx_tblPrFix hxt hx) hlist
      | false =>
        rw [tblPass_tbl_fresh hany]
        simp only [tfx, Bool.and_eq_true]
        constructor
        · simp only [ht, Bool.not_true, Bool.false_or]
          unfold tblOkC
          simp only [XmlList.findTag]
          rw [if_pos (by rw [tblPrFix_hasTag]; simp [Xml.hasTag])]
          exact tblPrFix_cellmar (by simp [Xml.hasTag])
        · simp only [tfxL, Bool.and_eq_true]
          refine ⟨?_, hlist⟩
          exact tfx_tblPrFix (by simp [Xml.hasTag]) (by decide)

theorem tblPassL_tfxL : ∀ c : XmlList, tfxL (tblPassL c) = true
  | .nil => rfl
  | .cons x xs => by
    simp only [tblPassL, tfxL, Bool.and_eq_true]
    exact ⟨tblPass_tfx x, tblPassL_tfxL xs⟩

end

mutual

/-- A tree satisfying the table fixed point is unchanged by the table
walk. -/
theorem tblPass_id : ∀ x : Xml, tfx x = true → tblPass x = x
  | .text _ => fun _ => rfl
  | .elem t a c => fun h => by
    simp only [tfx, Bool.and_eq_true] at h
    obtain ⟨hA, hC⟩ := h
    have hcl : tblPassL c = c := tblPassL_id c hC
    cases ht : (t == tblTag) with
    | false =>
      rw [tblPass_nontbl ht, hcl]
    | true =>
      have htd : t = tblTag := by simpa using ht
      subst htd
      rw [ht] at hA
      simp only [Bool.not_true, Bool.false_or] at hA
      obtain ⟨tp, htp, hmar⟩ := tblOkC_elim hA
      have hany : (tblPassL c).anyTag tblPrTag = true := by
        rw [hcl, anyTag_iff_findTag, htp]
        rfl
      rw [tblPass_tbl_repl hany, hcl]
      rw [replaceFirstTag_eq_self htp (tblPrFix_id hmar)]

theorem tblPassL_id : ∀ c : XmlList, tfxL c = true → tblPassL c = c
  | .nil => fun _ => rfl
  | .cons x xs => fun h => by
    simp only [tfxL, Bool.and_eq_true] at h
    simp only [tblPassL]
    rw [tblPass_id x h.1, tblPassL_id xs h.2]

end

theorem pfx_emptyTblPr (o : FixOptions) (b : Bool) :
    pfx o b (.elem tblPrTag [] .nil) = true := by
  rw [pfx_cond (by decide) (by rw [show (tblPrTag == rPrTag) = false from by decide]; rfl)]
  rfl

theorem pfx_tblPrFix {o : FixOptions} {b : Bool} {tp : Xml}
    (htag : tp.hasTag tblPrTag = true) (h : pfx o b tp = true) :
    pfx o b (tblPrFix tp) = true := by
  cases tp with
  | text s => exact Bool.noConfusion htag
  | elem t2 a2 c2 =>
    have ht2 : t2 = tblPrTag := by simpa [Xml.hasTag] using htag
    subst ht2
    simp only [tblPrFix]
    by_cases hx : c2.anyTag tblCellMarTag = true
    · rw [if_pos hx]
      exact h
    · rw [if_neg hx]
      rw [pfx_cond (by decide)
        (by rw [show (tblPrTag == rPrTag) = false from by decide]; rfl)] at h ⊢
      rw [pfxL_append, h]
      simp only [Bool.true_and, pfxL, Bool.and_eq_true]
      exact ⟨pfx_mkTblCellMar o b, trivial⟩

mutual

/-- The table walk preserves the paragraph fixed point. -/
theorem pfx_tblPass : ∀ (x : Xml) (o : FixOptions) (b : Bool),
    pfx o b x = true → pfx o b (tblPass x) = true
  | .text _ => fun _ _ h => h
  | .elem t a c => fun o b h => by
    simp only [pfx, Bool.and_eq_true] at h
    obtain ⟨⟨hA, hB⟩, hC⟩ := h
    have hlist := pfxL_tblPassL c o (b || (t == pTag)) hC
    cases ht : (t == tblTag) with
    | false =>
      rw [tblPass_nontbl ht]
      simp only [pfx, Bool.and_eq_true]
      refine ⟨⟨?_, ?_⟩, hlist⟩
      · cases hp : (t == pTag) with
        | false => rfl
        | true =>
          rw [hp] at hA
          simp only [Bool.not_true, Bool.false_or, Bool.and_eq_true] at hA
          simp only [Bool.not_true, Bool.false_or, Bool.and_eq_true]
          rw [gen_paraOkC (fun u c2 => findTag_tblPassL u c2) tblPass_attrs tblPass_pprChild,
            gen_paraLocalRaise (fun u c2 => findTag_tblPassL u c2) tblPass_attrs tblPass_pprChild]
          exact hA
      · cases hcond : ((t == rPrTag) && b && o.fix_fonts) with
        | false => rfl
        | true =>
          rw [hcond] at hB
          simp only [Bool.not_true, Bool.false_or] at hB
          simp only [Bool.not_true, Bool.false_or]
          rw [gen_rFontsOkC (fun u c2 => findTag_tblPassL u c2) tblPass_attrs]
          exact hB
    | true =>
      have htd : t = tblTag := by simpa using ht
      subst htd
      rw [show (tblTag == pTag) = false from by decide, Bool.or_false] at hlist
      cases hany : (tblPassL c).anyTag tblPrTag with
      | true =>
        rw [tblPass_tbl_repl hany]
        rw [pfx_cond (by decide)
          (by rw [show (tblTag == rPrTag) = false from by decide]; rfl)]
        exact pfxL_replaceFirstTag (fun x hxt hx => pfx_tblPrFix hxt hx) hlist
      | false =>
        rw [tblPass_tbl_fresh hany]
        rw [pfx_cond (by decide)
          (by rw [show (tblTag == rPrTag) = false from by decide]; rfl)]
        simp only [pfxL, Bool.and_eq_true]
        refine ⟨?_, hlist⟩
        exact pfx_tblPrFix (by simp [Xml.hasTag]) (pfx_emptyTblPr o b)

theorem pfxL_tblPassL : ∀ (c : XmlList) (o : FixOptions) (b : Bool),
    pfxL o b c = true → pfxL o b (tblPassL c) = true
  | .nil => fun _ _ h => h
  | .cons x xs => fun o b h => by
    simp only [pfxL, Bool.and_eq_true] at h
    simp only [tblPassL, pfxL, Bool.and_eq_true]
    exact ⟨pfx_tblPass x o b h.1, pfxL_tblPassL xs o b h.2⟩

end

theorem findDesc_none_of_noTag {x : Xml} {t : String}
    (h : noTag t x = true) : findDescTag t x = none := by
  cases x with
  | text s => rfl
  | elem tg a c =>
    simp only [noTag, Bool.and_eq_true] at h
    simp only [findDescTag]
    exact findDescL_none_of_noTagL c t h.2

mutual

/-- The table walk introduces no graphic elements. -/
theorem noTag_tblPass (u : String) (hu1 : (tblPrTag == u) = false)
    (hu2 : noTag u mkTblCellMar = true) :
    ∀ x : Xml, noTag u x = true → noTag u (tblPass x) = true
  | .text _ => fun h => h
  | .elem t a c => fun h => by
    simp only [noTag, Bool.and_eq_true] at h
    have hlist := noTagL_tblPassL u hu1 hu2 c h.2
    cases ht : (t == tblTag) with
    | false =>
      rw [tblPass_nontbl ht]
      simp only [noTag, Bool.and_eq_true]
      exact ⟨h.1, hlist⟩
    | true =>
      have htd : t = tblTag := by simpa using ht
      subst htd
      have hfix : ∀ y, noTag u y = true → noTag u (tblPrFix y) = true := by
        intro y hy
        cases y with
        | text s => exact hy
        | elem t2 a2 c2 =>
          simp only [noTag, Bool.and_eq_true] at hy
          simp only [tblPrFix]
          by_cases hx : c2.anyTag tblCellMarTag = true
          · rw [if_pos hx]
            simp only [noTag, Bool.and_eq_true]
            exact hy
          · rw [if_neg hx]
            simp only [noTag, Bool.and_eq_true]
            refine ⟨hy.1, ?_⟩
            rw [noTagL_append, hy.2]
            simp only [Bool.true_and, noTagL, Bool.and_eq_true]
            exact ⟨hu2, trivial⟩
      cases hany : (tblPassL c).anyTag tblPrTag with
      | true =>
        rw [tblPass_tbl_repl hany]
        simp only [noTag, Bool.and_eq_true]
        refine ⟨h.1, ?_⟩
        exact noTagL_replaceFirstTag (fun x _ hx2 => hfix x hx2) hlist
      | false =>
        rw [tblPass_tbl_fresh hany]
        simp only [noTag, Bool.and_eq_true]
        refine ⟨h.1, ?_⟩
        simp only [noTagL, Bool.and_eq_true]
        refine ⟨hfix _ ?_, hlist⟩
        simp only [noTag, Bool.and_eq_true]
        exact ⟨by rw [hu1]; rfl, rfl⟩

theorem noTagL_tblPassL (u : String) (hu1 : (tblPrTag == u) = false)
    (hu2 : noTag u mkTblCellMar = true) :
    ∀ c : XmlList, noTagL u c = true → noTagL u (tblPassL c) = true
  | .nil => fun h => h
  | .cons x xs => fun h => by
    simp only [noTagL, Bool.and_eq_true] at h
    simp only [tblPassL, noTagL, Bool.and_eq_true]
    exact ⟨noTag_tblPass u hu1 hu2 x h.1, noTagL_tblPassL u hu1 hu2 xs h.2⟩

end

theorem drawOk_elim {c : XmlList} {anc : Xml} (h : drawOkC c = true)
    (hanc : c.findTag anchorTag = some anc) :
    findDescTag graphicTag anc = none := by
  unfold drawOkC at h
  rw [hanc] at h
  have h2 : (findDescTag graphicTag anc).isNone = true := h
  exact Option.isNone_iff_eq_none.mp h2

theorem drawOk_tblPassL {c : XmlList} (h : drawOkC c = true) :
    drawOkC (tblPassL c) = true := by
  unfold drawOkC
  rw [findTag_tblPassL]
  rcases hanc : c.findTag anchorTag with _ | anc
  · rfl
  · show (findDescTag graphicTag (tblPass anc)).isNone = true
    have hg := drawOk_elim h hanc
    have hat := findTag_some_hasTag hanc
    have hnog : noTag graphicTag anc = true := by
      refine noTag_of_findDesc_none anc graphicTag hg ?_
      exact hasTag_of_other hat (by decide)
    have := noTag_tblPass graphicTag (by decide) (by decide) anc hnog
    rw [findDesc_none_of_noTag this]
    rfl

theorem ifx_tblPrFix {tp : Xml} (htag : tp.hasTag tblPrTag = true)
    (h : ifx tp = true) : ifx (tblPrFix tp) = true := by
  cases tp with
  | text s => exact Bool.noConfusion htag
  | elem t2 a2 c2 =>
    have ht2 : t2 = tblPrTag := by simpa [Xml.hasTag] using htag
    subst ht2
    simp only [tblPrFix]
    by_cases hx : c2.anyTag tblCellMarTag = true
    · rw [if_pos hx]
      exact h
    · rw [if_neg hx]
      rw [ifx_nondrawing (by decide)] at h ⊢
      rw [ifxL_append, h]
      simp only [Bool.true_and, ifxL, Bool.and_eq_true]
      exact ⟨noTag_ifx mkTblCellMar (by decide), trivial⟩

mutual

/-- The table walk preserves the image fixed point. -/
theorem ifx_tblPass : ∀ x : Xml, ifx x = true → ifx (tblPass x) = true
  | .text _ => fun h => h
  | .elem t a c => fun h => by
    simp only [ifx, Bool.and_eq_true] at h
    obtain ⟨hA, hC⟩ := h
    have hlist := ifxL_tblPassL c hC
    cases ht : (t == tblTag) with
    | false =>
      rw [tblPass_nontbl ht]
      simp only [ifx, Bool.and_eq_true]
      refine ⟨?_, hlist⟩
      cases hd : (t == drawingTag) with
      | false => rfl
      | true =>
        rw [hd] at hA
        simp only [Bool.not_true, Bool.false_or] at hA
        simp only [Bool.not_true, Bool.false_or]
        exact drawOk_tblPassL hA
    | true =>
      have htd : t = tblTag := by simpa using ht
      subst htd
      cases hany : (tblPassL c).anyTag tblPrTag with
      | true =>
        rw [tblPass_tbl_repl hany, ifx_nondrawing (by decide)]
        exact ifxL_replaceFirstTag (fun x hxt hx => ifx_tblPrFix hxt hx) hlist
      | false =>
        rw [tblPass_tbl_fresh hany, ifx_nondrawing (by decide)]
        simp only [ifxL, Bool.and_eq_true]
        refine ⟨?_, hlist⟩
        exact ifx_tblPrFix (by simp [Xml.hasTag]) (by decide)

theorem ifxL_tblPassL : ∀ c : XmlList, ifxL c = true → ifxL (tblPassL c) = true
  | .nil => fun h => h
  | .cons x xs => fun h => by
    simp only [ifxL, Bool.and_eq_true] at h
    simp only [tblPassL, ifxL, Bool.and_eq_true]
    exact ⟨ifx_tblPass x h.1, ifxL_tblPassL xs h.2⟩

end

-- ── Assembly: the body fixer saturates in one application ──────────────────

mutual

theorem anchorSafe_findDesc : ∀ (x : Xml) (t : String) (g : Xml),
    anchorSafe x = true → findDescTag t x = some g → anchorSafe g = true
  | .text _ => fun _ g _ hf => by cases hf
  | .elem tg a c => fun t g h hf => by
    simp only [anchorSafe, Bool.and_eq_true] at h
    simp only [findDescTag] at hf
    exact anchorSafeL_findDesc c t g h.2 hf

theorem anchorSafeL_findDesc : ∀ (c : XmlList) (t : String) (g : Xml),
    anchorSafeL c = true → findDescTagL t c = some g → anchorSafe g = true
  | .nil => fun _ g _ hf => by cases hf
  | .cons x xs => fun t g h hf => by
    simp only [anchorSafeL, Bool.and_eq_true] at h
    simp only [findDescTagL] at hf
    by_cases hx : x.hasTag t = true
    · rw [if_pos hx] at hf
      cases hf
      exact h.1
    · rw [if_neg hx] at hf
      rcases hd : findDescTag t x with _ | r
      · rw [hd] at hf
        exact anchorSafeL_findDesc xs t g h.2 hf
      · rw [hd] at hf
        cases hf
        exact anchorSafe_findDesc x t g h.1 hd

end

theorem bodyFix_fix {o : FixOptions} {bd : Xml} (hr : paraRaises o bd = false)
    (him : o.fix_images = true → anchorSafe bd = true) :
    paraRaises o (bodyFix o bd) = false ∧ bodyFix o (bodyFix o bd) = bodyFix o bd := by
  have hp1 : pfx o false (paraPass o false bd) = true := paraPass_pfx bd o false hr
  by_cases hi : o.fix_images = true
  · by_cases htb : o.fix_tables = true
    · have hF : bodyFix o bd = tblPass (imgPass (paraPass o false bd)) := by
        simp [bodyFix, hi, htb]
      have hpfxF : pfx o false (bodyFix o bd) = true := by
        rw [hF]
        exact pfx_tblPass _ o false (pfx_imgPass _ o false hp1)
      have hifxF : ifx (bodyFix o bd) = true := by
        rw [hF]
        exact ifx_tblPass _ (imgPass_ifx _ (anchorSafe_paraPass bd o false (him hi)))
      have htfxF : tfx (bodyFix o bd) = true := by
        rw [hF]
        exact tblPass_tfx _
      refine ⟨pfx_noRaises _ o false hpfxF, ?_⟩
      conv_lhs => rw [show bodyFix o (bodyFix o bd) =
        tblPass (imgPass (paraPass o false (bodyFix o bd))) from by
          simp [bodyFix, hi, htb]]
      rw [paraPass_id _ o false hpfxF, imgPass_id _ hifxF, tblPass_id _ htfxF]
    · have hF : bodyFix o bd = imgPass (paraPass o false bd) := by
        simp [bodyFix, hi, htb]
      have hpfxF : pfx o false (bodyFix o bd) = true := by
        rw [hF]
        exact pfx_imgPass _ o false hp1
      have hifxF : ifx (bodyFix o bd) = true := by
        rw [hF]
        exact imgPass_ifx _ (anchorSafe_paraPass bd o false (him hi))
      refine ⟨pfx_noRaises _ o false hpfxF, ?_⟩
      conv_lhs => rw [show bodyFix o (bodyFix o bd) =
        imgPass (paraPass o false (bodyFix o bd)) from by
          simp [bodyFix, hi, htb]]
      rw [paraPass_id _ o false hpfxF, imgPass_id _ hifxF]
  · by_cases htb : o.fix_tables = true
    · have hF : bodyFix o bd = tblPass (paraPass o false bd) := by
        simp [bodyFix, hi, htb]
      have hpfxF : pfx o false (bodyFix o bd) = true := by
        rw [hF]
        exact pfx_tblPass _ o false hp1
      have htfxF : tfx (bodyFix o bd) = true := by
        rw [hF]
        exact tblPass_tfx _
      refine ⟨pfx_noRaises _ o false hpfxF, ?_⟩
      conv_lhs => rw [show bodyFix o (bodyFix o bd) =
        tblPass (paraPass o false (bodyFix o bd)) from by
          simp [bodyFix, hi, htb]]
      rw [paraPass_id _ o false hpfxF, tblPass_id _ htfxF]
    · have hF : bodyFix o bd = paraPass o false bd := by
        simp [bodyFix, hi, htb]
      have hpfxF : pfx o false (bodyFix o bd) = true := by
        rw [hF]
        exact hp1
      refine ⟨pfx_noRaises _ o false hpfxF, ?_⟩
      conv_lhs => rw [show bodyFix o (bodyFix o bd) =
        paraPass o false (bodyFix o bd) from by
          simp [bodyFix, hi, htb]]
      rw [paraPass_id _ o false hpfxF]

theorem bodyFix_shape (o : FixOptions) (t : String) (a : List (String × String))
    (c : XmlList) : ∃ c2, bodyFix o (.elem t a c) = .elem t a c2 := by
  obtain ⟨c1, h1⟩ := paraPass_elem_shape o false t a c
  simp only [bodyFix]
  rw [h1]
  by_cases hi : o.fix_images = true
  · rw [if_pos hi]
    obtain ⟨c2, h2⟩ := imgPass_elem_shape t a c1
    rw [h2]
    by_cases htb : o.fix_tables = true
    · rw [if_pos htb]
      exact tblPass_elem_shape t a c2
    · rw [if_neg htb]
      exact ⟨c2, rfl⟩
  · rw [if_neg hi]
    by_cases htb : o.fix_tables = true
    · rw [if_pos htb]
      exact tblPass_elem_shape t a c1
    · rw [if_neg htb]
      exact ⟨c1, rfl⟩

-- ── The body-replacement tree edit ─────────────────────────────────────────

theorem rfb_root_shape (f : Xml → Xml) (t : String) (a : List (String × String))
    (c : XmlList) : rfb f (.elem t a c) = .elem t a (rfbL f c) := rfl

theorem rfb_hasTag (f : Xml → Xml) (x : Xml) (u : String) :
    (rfb f x).hasTag u = x.hasTag u := by
  cases x <;> rfl

mutual

theorem findDesc_rfb (f : Xml → Xml)
    (hf : ∀ t2 a2 c2, ∃ c3, f (.elem t2 a2 c2) = .elem t2 a2 c3) :
    ∀ r : Xml, findDescTag bodyTag (rfb f r) = (findDescTag bodyTag r).map f
  | .text _ => rfl
  | .elem t a c => by
    simp only [rfb, findDescTag]
    exact findDescL_rfbL f hf c

theorem findDescL_rfbL (f : Xml → Xml)
    (hf : ∀ t2 a2 c2, ∃ c3, f (.elem t2 a2 c2) = .elem t2 a2 c3) :
    ∀ c : XmlList, findDescTagL bodyTag (rfbL f c) = (findDescTagL bodyTag c).map f
  | .nil => rfl
  | .cons x xs => by
    simp only [rfbL]
    by_cases hx : x.hasTag bodyTag = true
    · rw [if_pos hx]
      have hfx : (f x).hasTag bodyTag = true := by
        cases x with
        | text s => exact Bool.noConfusion hx
        | elem t2 a2 c2 =>
          obtain ⟨c3, hc3⟩ := hf t2 a2 c2
          rw [hc3]
          exact hx
      simp only [findDescTagL]
      rw [if_pos hfx, if_pos hx]
      rfl
    · rw [if_neg hx]
      by_cases hd : (findDescTag bodyTag x).isSome = true
      · rw [if_pos hd]
        simp only [findDescTagL]
        rw [if_neg (by rw [rfb_hasTag]; exact fun hh => hx hh)]
        rw [if_neg (by exact fun hh => hx hh)]
        rw [findDesc_rfb f hf x]
        rcases hgx : findDescTag bodyTag x with _ | bd
        · rw [hgx] at hd
          cases hd
        · rfl
      · rw [if_neg hd]
        simp only [findDescTagL]
        rw [if_neg (by exact fun hh => hx hh), if_neg (by exact fun hh => hx hh)]
        have hnone : findDescTag bodyTag x = none := by
          rcases hgx : findDescTag bodyTag x with _ | bd
          · rfl
          · rw [hgx] at hd
            simp at hd
        rw [hnone]
        exact findDescL_rfbL f hf xs

end

mutual

theorem rfb_id (f : Xml → Xml) :
    ∀ r : Xml, (∀ g, findDescTag bodyTag r = some g → f g = g) → rfb f r = r
  | .text _ => fun _ => rfl
  | .elem t a c => fun h => by
    simp only [rfb]
    rw [rfbL_id f c (fun g hg => h g (by simp only [findDescTag]; exact hg))]

theorem rfbL_id (f : Xml → Xml) :
    ∀ c : XmlList, (∀ g, findDescTagL bodyTag c = some g → f g = g) → rfbL f c = c
  | .nil => fun _ => rfl
  | .cons x xs => fun h => by
    simp only [rfbL]
    by_cases hx : x.hasTag bodyTag = true
    · rw [if_pos hx]
      rw [h x (by simp only [findDescTagL]; rw [if_pos hx])]
    · rw [if_neg hx]
      by_cases hd : (findDescTag bodyTag x).isSome = true
      · rw [if_pos hd]
        rcases hgx : findDescTag bodyTag x with _ | bd
        · rw [hgx] at hd
          cases hd
        · rw [rfb_id f x (fun g hg => by
            rw [hgx] at hg
            cases hg
            exact h _ (by
              simp only [findDescTagL]
              rw [if_neg (by exact fun hh => hx hh), hgx]))]
      · rw [if_neg hd]
        have hnone : findDescTag bodyTag x = none := by
          rcases hgx : findDescTag bodyTag x with _ | bd
          · rfl
          · rw [hgx] at hd
            simp at hd
        rw [rfbL_id f xs (fun g hg => h g (by
          simp only [findDescTagL]
          rw [if_neg (by exact fun hh => hx hh), hnone]
          exact hg))]

end

-- ── Idempotence of the document patcher ────────────────────────────────────

theorem patch_document_nobody {d : Bool} {r : Xml} {o : FixOptions}
    (hbd : findDescTag bodyTag r = none) :
    patch_document (.doc d r) o = .ok (.doc d r) := by
  simp only [patch_document]
  rw [hbd]

theorem patch_document_body {d : Bool} {r bd : Xml} {o : FixOptions}
    (hbd : findDescTag bodyTag r = some bd) (hr : paraRaises o bd = false) :
    patch_document (.doc d r) o = .ok (.doc true (rfb (bodyFix o) r)) := by
  simp only [patch_document]
  rw [hbd]
  simp [hr]

theorem patch_document_body_raise {d : Bool} {r bd : Xml} {o : FixOptions}
    (hbd : findDescTag bodyTag r = some bd) (hr : paraRaises o bd = true) :
    patch_document (.doc d r) o = .error .valueError := by
  simp only [patch_document]
  rw [hbd]
  simp [hr]

theorem patch_document_idem {b w : Bytes} {o : FixOptions}
    (hok : patch_document b o = .ok w)
    (hsafe : ∀ d r, b = Bytes.doc d r → (!o.fix_images || anchorSafe r) = true) :
    patch_document w o = .ok w := by
  cases b with
  | raw s => exact Except.noConfusion hok
  | doc d r =>
    have hs2 : (!o.fix_images || anchorSafe r) = true := hsafe d r rfl
    rcases hbd : findDescTag bodyTag r with _ | bd
    · rw [patch_document_nobody hbd] at hok
      cases hok
      exact patch_document_nobody hbd
    · cases hrr : paraRaises o bd with
      | true =>
        rw [patch_document_body_raise hbd hrr] at hok
        exact Except.noConfusion hok
      | false =>
        rw [patch_document_body hbd hrr] at hok
        cases hok
        have him : o.fix_images = true → anchorSafe bd = true := by
          intro hi
          rw [hi] at hs2
          simp only [Bool.not_true, Bool.false_or] at hs2
          exact anchorSafe_findDesc r bodyTag bd hs2 hbd
        obtain ⟨hrF, hfixF⟩ := bodyFix_fix hrr him
        have hdesc2 : findDescTag bodyTag (rfb (bodyFix o) r) = some (bodyFix o bd) := by
          rw [findDesc_rfb (bodyFix o) (bodyFix_shape o), hbd]
          rfl
        rw [patch_document_body hdesc2 hrF]
        rw [rfb_id (bodyFix o) (rfb (bodyFix o) r) (fun g hg => by
          rw [hdesc2] at hg
          cases hg
          exact hfixF)]

-- ── Idempotence of the compat stripper ─────────────────────────────────────

theorem countTag_removeFirstTag_le (n m : String) (c : XmlList) :
    (c.removeFirstTag m).countTag n ≤ c.countTag n := by
  by_cases hnm : (n == m) = true
  · have : n = m := by simpa using hnm
    subst this
    rw [countTag_removeFirstTag_self]
    omega
  · rw [countTag_removeFirstTag_other (by
      cases hx : (n == m) with
      | true => exact absurd hx hnm
      | false => rfl) c]

theorem countTag_fold_le (names : List String) :
    ∀ (c : XmlList) (n : String),
      (names.foldl (fun acc m => acc.removeFirstTag m) c).countTag n ≤ c.countTag n := by
  induction names with
  | nil => intro c n; exact Nat.le_refl _
  | cons m rest ih =>
    intro c n
    simp only [List.foldl_cons]
    exact Nat.le_trans (ih (c.removeFirstTag m) n) (countTag_removeFirstTag_le n m c)

theorem countTag_fold_zero (names : List String) :
    ∀ (c : XmlList) (n : String), n ∈ names → c.countTag n ≤ 1 →
      (names.foldl (fun acc m => acc.removeFirstTag m) c).countTag n = 0 := by
  induction names with
  | nil => intro c n hn; cases hn
  | cons m rest ih =>
    intro c n hn hle
    simp only [List.foldl_cons]
    rcases List.mem_cons.mp hn with rfl | hmem
    · have h1 : (c.removeFirstTag n).countTag n = 0 := by
        rw [countTag_removeFirstTag_self]
        omega
      have := countTag_fold_le rest (c.removeFirstTag n) n
      omega
    · refine ih (c.removeFirstTag m) n hmem ?_
      exact Nat.le_trans (countTag_removeFirstTag_le n m c) hle

theorem fold_remove_of_zero (names : List String) :
    ∀ c : XmlList, (∀ n ∈ names, c.countTag n = 0) →
      names.foldl (fun acc m => acc.removeFirstTag m) c = c := by
  induction names with
  | nil => intro c _; rfl
  | cons m rest ih =>
    intro c h
    simp only [List.foldl_cons]
    rw [removeFirstTag_of_zero (h m (by simp))]
    exact ih c (fun n hn => h n (by simp [hn]))

theorem stripFlags_idem {names : List String} {cp : Xml}
    (h : ∀ n ∈ names, (cp.childrenOf).countTag n ≤ 1) :
    stripFlags names (stripFlags names cp) = stripFlags names cp := by
  cases cp with
  | text s => rfl
  | elem t a c =>
    simp only [Xml.childrenOf] at h
    simp only [stripFlags]
    rw [fold_remove_of_zero names _ (fun n hn => countTag_fold_zero names c n hn (h n hn))]

theorem stripFlags_hasTag (names : List String) (x : Xml) (u : String) :
    (stripFlags names x).hasTag u = x.hasTag u := by
  cases x <;> rfl

theorem stripRoot_elem_pos (names : List String) {t : String}
    {a : List (String × String)} {c : XmlList} (hx : c.anyTag compatTag = true) :
    stripRoot names (.elem t a c) =
      .elem t a (c.replaceFirstTag compatTag (stripFlags names)) := by
  simp [stripRoot, hx]

theorem stripRoot_elem_neg (names : List String) {t : String}
    {a : List (String × String)} {c : XmlList} (hx : c.anyTag compatTag = false) :
    stripRoot names (.elem t a c) = .elem t a c := by
  simp [stripRoot, hx]

theorem stripRoot_idem {r : Xml} (h : compatDupFree r = true) :
    stripRoot settingsBad (stripRoot settingsBad r) = stripRoot settingsBad r := by
  cases r with
  | text s => rfl
  | elem t a c =>
    cases hx : c.anyTag compatTag with
    | false =>
      rw [stripRoot_elem_neg settingsBad hx, stripRoot_elem_neg settingsBad hx]
    | true =>
      rw [stripRoot_elem_pos settingsBad hx]
      have hx2 := hx
      rw [anyTag_iff_findTag] at hx2
      rcases Option.isSome_iff_exists.mp hx2 with ⟨cp, hcp⟩
      have hdup : ∀ n ∈ settingsBad, (cp.childrenOf).countTag n ≤ 1 := by
        unfold compatDupFree at h
        simp only [Xml.childrenOf] at h
        rw [hcp] at h
        intro n hn
        have h2 : settingsBad.all (fun n => decide ((cp.childrenOf).countTag n ≤ 1)) = true := h
        have := List.all_eq_true.mp h2 n hn
        exact of_decide_eq_true this
      have hfind2 : (c.replaceFirstTag compatTag (stripFlags settingsBad)).findTag compatTag =
          some (stripFlags settingsBad cp) :=
        findTag_replaceFirstTag hcp
          (by rw [stripFlags_hasTag]; exact findTag_some_hasTag hcp)
      rw [stripRoot_elem_pos settingsBad (by rw [anyTag_iff_findTag, hfind2]; rfl)]
      rw [replaceFirstTag_eq_self hfind2 (stripFlags_idem hdup)]

-- ── Idempotence of the styles substitution ─────────────────────────────────

mutual

theorem xmlMapStrs_id : ∀ x : Xml, allStrs strNoPats x = true →
    xmlMapStrs patch_styles_str x = x
  | .text s => fun h => by
    simp only [allStrs] at h
    simp only [xmlMapStrs]
    rw [strNoPats_id h]
  | .elem t a c => fun h => by
    simp only [allStrs, Bool.and_eq_true] at h
    simp only [xmlMapStrs]
    rw [xmlMapStrsL_id c h.2]
    rw [mapSelf]
    intro p hp
    have := List.all_eq_true.mp h.1 p hp
    rw [strNoPats_id this]

theorem xmlMapStrsL_id : ∀ c : XmlList, allStrsL strNoPats c = true →
    xmlMapStrsL patch_styles_str c = c
  | .nil => fun _ => rfl
  | .cons x xs => fun h => by
    simp only [allStrsL, Bool.and_eq_true] at h
    simp only [xmlMapStrsL]
    rw [xmlMapStrs_id x h.1, xmlMapStrsL_id xs h.2]

end

theorem patch_styles_apply_id {b : Bytes} (h : bytesNoPats b = true) :
    patch_styles_apply b = b := by
  cases b with
  | raw s =>
    simp only [bytesNoPats] at h
    simp only [patch_styles_apply]
    rw [strNoPats_id h]
  | doc d r =>
    simp only [bytesNoPats] at h
    simp only [patch_styles_apply]
    rw [xmlMapStrs_id r h]

theorem patch_styles_eq_apply (b : Bytes) : patch_styles b = patch_styles_apply b := rfl

-- ── Per-entry idempotence of the dispatch ──────────────────────────────────

theorem patchEntry_idem {o : FixOptions} {n : String} {v w : Bytes}
    (hok : patchEntry o n v = .ok w) (hsat : entrySat o n v = true) :
    patchEntry o n w = .ok w := by
  unfold patchEntry at hok ⊢
  unfold entrySat at hsat
  by_cases hd : (n == "word/document.xml") = true
  · rw [if_pos hd] at hok hsat ⊢
    refine patch_document_idem hok ?_
    intro d r hv
    rw [hv] at hsat
    exact hsat
  · rw [if_neg hd] at hok hsat ⊢
    by_cases hs : (n == "word/settings.xml") = true
    · rw [if_pos hs] at hok hsat ⊢
      cases hok
      cases v with
      | raw s => rfl
      | doc d r =>
        have hw : patch_settings (Bytes.doc d r) = .doc true (stripRoot settingsBad r) := rfl
        rw [hw]
        show Except.ok (patch_settings (Bytes.doc true (stripRoot settingsBad r))) = _
        have : patch_settings (Bytes.doc true (stripRoot settingsBad r)) =
            .doc true (stripRoot settingsBad (stripRoot settingsBad r)) := rfl
        rw [this, stripRoot_idem hsat]
    · rw [if_neg hs] at hok hsat ⊢
      by_cases hy : ((n == "word/styles.xml") && o.fix_fonts) = true
      · rw [if_pos hy] at hok hsat ⊢
        cases hok
        have hsat2 : bytesNoPats (patch_styles v) = true := hsat
        rw [patch_styles_eq_apply (patch_styles v), patch_styles_apply_id hsat2]
      · rw [if_neg hy] at hok ⊢

-- ── Archive-level assembly ─────────────────────────────────────────────────

theorem exOk_elim {ε α : Type} {z : Except ε α} (h : exOk z = true) :
    ∃ d, z = .ok d := by
  cases z with
  | error e => exact Bool.noConfusion h
  | ok d => exact ⟨d, rfl⟩

theorem getLast_some_of_ne_nil {α : Type} :
    ∀ l : List α, l ≠ [] → ∃ b, l.getLast? = some b
  | [], h => absurd rfl h
  | [a], _ => ⟨a, rfl⟩
  | a :: b :: t, _ => by
    obtain ⟨c, hc⟩ := getLast_some_of_ne_nil (b :: t) (by simp)
    exact ⟨c, by rw [List.getLast?_cons_cons]; exact hc⟩

theorem getLast_mem {α : Type} :
    ∀ {l : List α} {a : α}, l.getLast? = some a → a ∈ l
  | [], a, h => by cases h
  | [x], a, h => by
    simp only [List.getLast?_singleton] at h
    cases h
    simp
  | x :: y :: t, a, h => by
    rw [List.getLast?_cons_cons] at h
    exact List.mem_cons_of_mem x (getLast_mem h)

theorem zipRead_mem_some {es : List (String × Bytes)} {e : String × Bytes}
    (he : e ∈ es) : ∃ v, zipRead es e.1 = some v := by
  unfold zipRead
  have hne : es.filter (fun q => q.1 == e.1) ≠ [] := by
    intro hnil
    have : e ∈ es.filter (fun q => q.1 == e.1) :=
      List.mem_filter.mpr ⟨he, by simp⟩
    rw [hnil] at this
    cases this
  obtain ⟨b, hb⟩ := getLast_some_of_ne_nil _ hne
  exact ⟨b.2, by rw [hb]; rfl⟩

theorem zipRead_some_elim {es : List (String × Bytes)} {n : String} {v : Bytes}
    (h : zipRead es n = some v) :
    ∃ el, (es.filter (fun e => e.1 == n)).getLast? = some el ∧
      el ∈ es ∧ el.1 = n ∧ el.2 = v := by
  unfold zipRead at h
  rcases hlast : (es.filter (fun e => e.1 == n)).getLast? with _ | el
  · rw [hlast] at h
    cases h
  · rw [hlast] at h
    have hmemf := getLast_mem hlast
    refine ⟨el, hlast, List.mem_of_mem_filter hmemf, ?_, ?_⟩
    · have := List.of_mem_filter hmemf
      simpa using this
    · cases h
      rfl

theorem zipRead_map_entryOut {es : List (String × Bytes)} {o : FixOptions}
    {n : String} {vn d : Bytes} (hvz : zipRead es n = some vn)
    (hpe : patchEntry o n vn = .ok d) :
    zipRead (es.map (entryOut o es)) n = some d := by
  obtain ⟨el, hlast, hmem, hn1, hn2⟩ := zipRead_some_elim hvz
  unfold zipRead
  have hpred : (fun e : String × Bytes => ((entryOut o es e).1 == n)) =
      (fun e : String × Bytes => e.1 == n) := rfl
  rw [List.filter_map]
  rw [show ((fun e : String × Bytes => e.1 == n) ∘ entryOut o es) =
    (fun e : String × Bytes => e.1 == n) from rfl]
  rw [List.getLast?_map, hlast]
  show some ((entryOut o es el).2) = some d
  unfold entryOut
  rw [hn1, hvz]
  simp [hpe, exD]

theorem mapM_ok_id {ε : Type} {α : Type} {g : α → Except ε α} :
    ∀ l : List α, (∀ e ∈ l, g e = .ok e) → l.mapM g = .ok l := by
  intro l
  induction l with
  | nil => intro _; rfl
  | cons a as ih =>
    intro h
    rw [List.mapM_cons, h a (by simp), ih (fun e he => h e (by simp [he]))]
    rfl

/-- C2, counterexample: the claimed unconditional idempotence fails.  The
styles substitution is a plain `str.replace` chain and is not saturating:
a styles part reading `Cambria Math Math` becomes `Cambria Math` after one
run of `fix_docx` and `Cambria` after a second run with the same options,
so applying the engine twice does not equal applying it once. -/
theorem claim2_counterexample :
    fix_docx (.zip [("word/styles.xml", .raw "Cambria Math Math")]) optsAll =
      .ok (.zip [("word/styles.xml", .raw "Cambria Math")]) ∧
    fix_docx (.zip [("word/styles.xml", .raw "Cambria Math")]) optsAll =
      .ok (.zip [("word/styles.xml", .raw "Cambria")]) ∧
    (Bytes.raw "Cambria Math" : Bytes) ≠ .raw "Cambria" :=
  ⟨rfl, rfl, by decide⟩

/-- C2, amended: the engine is idempotent on its success range under the
saturation conditions of the three targeted parts: the document tree is
anchor sane when image fixing is on, the settings compat block holds no
duplicated denylisted flag, and (when font fixing is on) the styles
substitution output holds no residual occurrence of a pattern.  Under
these per-entry conditions, a successful run is a fixed point: running
`fix_docx` again with the same options on the output succeeds and returns
the output unchanged. -/
theorem claim2_amended (es : List (String × Bytes)) (o : FixOptions) (y : PkgBytes)
    (hok : fix_docx (.zip es) o = .ok y)
    (hsat : ∀ e ∈ es, entrySat o e.1 ((zipRead es e.1).getD e.2) = true) :
    fix_docx y o = .ok y := by
  obtain ⟨hall, hy⟩ := fix_docx_zip_elim hok
  subst hy
  have hpt : ∀ e2 ∈ es.map (entryOut o es),
      entryStep o (es.map (entryOut o es)) e2 = .ok e2 := by
    intro e2 he2
    obtain ⟨e, he, hfe⟩ := List.mem_map.mp he2
    subst hfe
    obtain ⟨vn, hvz⟩ := zipRead_mem_some he
    have hOk := hall e he
    unfold entryOk at hOk
    rw [hvz] at hOk
    have hOk2 : exOk (patchEntry o e.1 vn) = true := hOk
    obtain ⟨d, hpe⟩ := exOk_elim hOk2
    have hout : entryOut o es e = (e.1, d) := by
      unfold entryOut
      rw [hvz]
      simp [hpe, exD]
    have hzo := zipRead_map_entryOut hvz hpe
    have hsatn : entrySat o e.1 vn = true := by
      have hh := hsat e he
      rw [hvz] at hh
      exact hh
    have hidem := patchEntry_idem hpe hsatn
    rw [hout]
    unfold entryStep
    rw [hzo]
    simp only [Option.getD_some]
    rw [hidem]
  simp only [fix_docx]
  rw [mapM_ok_id _ hpt]

/-- C2, witness: a container holding one document with a paragraph that
lacks paragraph properties satisfies every saturation condition; one run
inserts the `w:pPr` with its empty `w:spacing`, and the second run is the
identity on the result. -/
theorem claim2_witness :
    fix_docx (.zip [("word/document.xml", Bytes.doc true exPlainDoc)]) optsAll =
      .ok (.zip [("word/document.xml", Bytes.doc true exFixedDoc)]) ∧
    fix_docx (.zip [("word/document.xml", Bytes.doc true exFixedDoc)]) optsAll =
      .ok (.zip [("word/document.xml", Bytes.doc true exFixedDoc)]) :=
  ⟨rfl, claim2_amended [("word/document.xml", Bytes.doc true exPlainDoc)] optsAll
    (.zip [("word/document.xml", Bytes.doc true exFixedDoc)]) rfl
    (by
      intro e he
      fin_cases he
      decide)⟩
